import Mathlib

/-!
# Tigy: the recursive-descent parser of `src/front-end/syntax/parser.c`

A shallow embedding of the parser. The file-scope variables `source_file` and
`current_token` of the C file become an explicit state that is threaded through every
routine, together with a record of the calls made to the collaborators (scanner,
diagnostic sink, type checker, program allocator); the handle kept in the third
variable, `program`, is what `parse_source_file` returns.

The C routines are mutually recursive and their termination is not obvious from the
text (a mismatching `parse_next_token` does not advance), so every recursive routine
takes a `fuel` argument bounding the depth of nested calls and loop iterations and
answers `none` when that budget is exhausted. Termination is then a theorem
(`run_total`): `fuel_bound` units of fuel always give a result, and more fuel never
changes it (`run_mono`).

The development has three parts: the routines, written as in the C file; the grammar
of the language (`derives`), written from its description; and the theorems relating
the two, the main ones being `run_sound` (a run without diagnostics reads a phrase of
the grammar) and `final_complete` (a phrase of the grammar is read without
diagnostics).
-/

namespace Tigy

/-! ## Collaborators -/

/-- Modelled from the spec: the token tags of `front-end/syntax/token.h`, which is not
part of the sources at hand. The constructors are listed in the order of the entries of
`token_kind_string`, `NONE` (end of input) being the one displayed as the empty string. -/
inductive token_kind
  | NONE
  | IDENTIFIER
  | INTEGER_CONSTANT
  | STRING_CONSTANT
  | FLOAT_CONSTANT
  | ARRAY_KEYWORD
  | BREAK_KEYWORD
  | DO_KEYWORD
  | ELSE_KEYWORD
  | END_KEYWORD
  | FOR_KEYWORD
  | FUNCTION_KEYWORD
  | IF_KEYWORD
  | IN_KEYWORD
  | LET_KEYWORD
  | NIL_KEYWORD
  | OF_KEYWORD
  | THEN_KEYWORD
  | TO_KEYWORD
  | TYPE_KEYWORD
  | VAR_KEYWORD
  | WHILE_KEYWORD
  | COMMA
  | COLON
  | SEMICOLON
  | LEFT_PARENTHESIS
  | RIGHT_PARENTHESIS
  | LEFT_BRACKET
  | RIGHT_BRACKET
  | LEFT_BRACE
  | RIGHT_BRACE
  | DOT
  | PLUS
  | MINUS
  | ASTERISK
  | SLASH
  | EQUAL
  | NOT_EQUAL
  | LESS
  | LESS_EQUAL
  | GREATER
  | GREATER_EQUAL
  | AND
  | OR
  | ASSIGNMENT
  deriving DecidableEq, Repr

/-- Modelled from the spec: `struct token` of `front-end/syntax/token.h`, reduced to the
three members the parser reads: the tag `name` and the source position. -/
structure token where
  name : token_kind
  line : Nat
  column : Nat
  deriving DecidableEq, Repr

/-- Modelled from the spec: `struct source_file`, seen from the parser as nothing but the
tokens the scanner has still to deliver, in order. -/
abbrev source_file := List token

/-- Modelled from the spec: the scanner's `get_token`. It hands out the tokens of the
file one by one. Asking again after the last token is undefined in the spec; the model
answers with an end-of-input token at position 0:0 and leaves the file as it is. -/
def get_token (file : source_file) : token × source_file :=
  match file with
  | [] => (⟨.NONE, 0, 0⟩, [])
  | t :: rest => (t, rest)

/-- Modelled from the spec: the opaque handle returned by `program_allocate`. -/
structure program where
  handle : Nat
  deriving DecidableEq, Repr

/-- Modelled from the spec: the collaborators of the parser (scanner, diagnostic sink,
type checker, program allocator) are not part of the sources at hand; all the model keeps
of them is the record of the calls made to them. This is one such call. -/
inductive event
  | init_type_check
  | program_allocate
  | get_token
  | print_error (line column : Nat) (message : String)
  | clean_up_type_check
  deriving DecidableEq, Repr

/-- The file-scope state of `parser.c`: the source file being read and the current
(lookahead) token, together with the calls made to the collaborators so far, oldest
first. -/
structure parser where
  source_file : source_file
  current_token : token
  calls : List event
  deriving DecidableEq, Repr

/-- The table `token_kind_string`: the display name of every token tag. -/
def token_kind_string : token_kind → String
  | .NONE => ""
  | .IDENTIFIER => "identifier"
  | .INTEGER_CONSTANT => "integer constant"
  | .STRING_CONSTANT => "string constant"
  | .FLOAT_CONSTANT => "float constant"
  | .ARRAY_KEYWORD => "'array'"
  | .BREAK_KEYWORD => "'break'"
  | .DO_KEYWORD => "'do'"
  | .ELSE_KEYWORD => "'else'"
  | .END_KEYWORD => "'end'"
  | .FOR_KEYWORD => "'for'"
  | .FUNCTION_KEYWORD => "'function'"
  | .IF_KEYWORD => "'if'"
  | .IN_KEYWORD => "'in'"
  | .LET_KEYWORD => "'let'"
  | .NIL_KEYWORD => "'nil'"
  | .OF_KEYWORD => "'of'"
  | .THEN_KEYWORD => "'then'"
  | .TO_KEYWORD => "'to'"
  | .TYPE_KEYWORD => "'type'"
  | .VAR_KEYWORD => "'var'"
  | .WHILE_KEYWORD => "'while'"
  | .COMMA => ","
  | .COLON => ":"
  | .SEMICOLON => ";"
  | .LEFT_PARENTHESIS => "("
  | .RIGHT_PARENTHESIS => ")"
  | .LEFT_BRACKET => "["
  | .RIGHT_BRACKET => "]"
  | .LEFT_BRACE => "\x7b"
  | .RIGHT_BRACE => "\x7d"
  | .DOT => "."
  | .PLUS => "+"
  | .MINUS => "-"
  | .ASTERISK => "*"
  | .SLASH => "/"
  | .EQUAL => "="
  | .NOT_EQUAL => "<>"
  | .LESS => "<"
  | .LESS_EQUAL => "<="
  | .GREATER => ">"
  | .GREATER_EQUAL => ">="
  | .AND => "&"
  | .OR => "|"
  | .ASSIGNMENT => ":="

/-! ## The parser -/

/-- The statement `current_token = get_token(source_file);`. -/
def advance (s : parser) : parser :=
  { source_file := (get_token s.source_file).2
    current_token := (get_token s.source_file).1
    calls := s.calls ++ [event.get_token] }

/-- Modelled from the spec: a call `print_error(source_file, line, column, message)` to the
diagnostic sink, which records the diagnostic and returns. -/
def print_error (line column : Nat) (message : String) (s : parser) : parser :=
  { s with calls := s.calls ++ [event.print_error line column message] }

/-- The routine `parse_next_token`. -/
def parse_next_token (kind : token_kind) (s : parser) : parser :=
  if s.current_token.name ≠ kind then
    print_error s.current_token.line s.current_token.column
      ("expected " ++ token_kind_string kind) s
  else
    advance s

/-- The routine `parse_type_specifier`. -/
def parse_type_specifier (s : parser) : parser :=
  if s.current_token.name = .COLON then
    parse_next_token .IDENTIFIER (advance s)
  else
    s

/-- The routine `is_comparison_operator`. -/
def is_comparison_operator (s : parser) : Bool :=
  s.current_token.name = .EQUAL ||
  s.current_token.name = .NOT_EQUAL ||
  s.current_token.name = .LESS ||
  s.current_token.name = .LESS_EQUAL ||
  s.current_token.name = .GREATER ||
  s.current_token.name = .GREATER_EQUAL

mutual

/-- The loop of `parse_expression_sequence`:
`while (parse_expression(), current_token.name == SEMICOLON) current_token = get_token(...)`. -/
def parse_expression_sequence_loop : Nat → parser → Option parser
  | 0, _ => none
  | n + 1, s =>
    (parse_expression n s).bind fun s1 =>
      if s1.current_token.name = .SEMICOLON then
        parse_expression_sequence_loop n (advance s1)
      else
        some s1

/-- The routine `parse_expression_sequence`. -/
def parse_expression_sequence : Nat → token_kind → parser → Option parser
  | 0, _, _ => none
  | n + 1, end_, s =>
    if s.current_token.name = end_ then
      some (advance s)
    else
      (parse_expression_sequence_loop n s).bind fun s1 =>
        some (parse_next_token end_ s1)

/-- The loop of `parse_expression_list`. -/
def parse_expression_list_loop : Nat → parser → Option parser
  | 0, _ => none
  | n + 1, s =>
    (parse_expression n s).bind fun s1 =>
      if s1.current_token.name = .COMMA then
        parse_expression_list_loop n (advance s1)
      else
        some s1

/-- The routine `parse_expression_list`. -/
def parse_expression_list : Nat → token_kind → parser → Option parser
  | 0, _, _ => none
  | n + 1, end_, s =>
    if s.current_token.name = end_ then
      some (advance s)
    else
      (parse_expression_list_loop n s).bind fun s1 =>
        some (parse_next_token end_ s1)

/-- The routine `parse_field`. -/
def parse_field : Nat → parser → Option parser
  | 0, _ => none
  | n + 1, s =>
    parse_expression n (parse_next_token .EQUAL (parse_next_token .IDENTIFIER s))

/-- The loop of `parse_field_list`. -/
def parse_field_list_loop : Nat → parser → Option parser
  | 0, _ => none
  | n + 1, s =>
    (parse_field n s).bind fun s1 =>
      if s1.current_token.name = .COMMA then
        parse_field_list_loop n (advance s1)
      else
        some s1

/-- The routine `parse_field_list`. -/
def parse_field_list : Nat → token_kind → parser → Option parser
  | 0, _, _ => none
  | n + 1, end_, s =>
    if s.current_token.name = end_ then
      some (advance s)
    else
      (parse_field_list_loop n s).bind fun s1 =>
        some (parse_next_token end_ s1)

/-- The routine `parse_type_field`. -/
def parse_type_field : Nat → parser → Option parser
  | 0, _ => none
  | _ + 1, s =>
    some (parse_next_token .IDENTIFIER
      (parse_next_token .COLON (parse_next_token .IDENTIFIER s)))

/-- The loop of `parse_type_fields`. -/
def parse_type_fields_loop : Nat → parser → Option parser
  | 0, _ => none
  | n + 1, s =>
    (parse_type_field n s).bind fun s1 =>
      if s1.current_token.name = .COMMA then
        parse_type_fields_loop n (advance s1)
      else
        some s1

/-- The routine `parse_type_fields`. -/
def parse_type_fields : Nat → token_kind → parser → Option parser
  | 0, _, _ => none
  | n + 1, end_, s =>
    if s.current_token.name = end_ then
      some (advance s)
    else
      (parse_type_fields_loop n s).bind fun s1 =>
        some (parse_next_token end_ s1)

/-- The routine `parse_type_definition`. -/
def parse_type_definition : Nat → parser → Option parser
  | 0, _ => none
  | n + 1, s =>
    match s.current_token.name with
    | .LEFT_BRACE => parse_type_fields n .RIGHT_BRACE (advance s)
    | .ARRAY_KEYWORD =>
      some (parse_next_token .IDENTIFIER (parse_next_token .OF_KEYWORD (advance s)))
    | .IDENTIFIER => some (advance s)
    | _ =>
      some (print_error s.current_token.line s.current_token.column
        "expected type definition" s)

/-- The routine `parse_function_declaration`. -/
def parse_function_declaration : Nat → parser → Option parser
  | 0, _ => none
  | n + 1, s =>
    (parse_type_fields n .RIGHT_PARENTHESIS
      (parse_next_token .LEFT_PARENTHESIS
        (parse_next_token .IDENTIFIER
          (parse_next_token .FUNCTION_KEYWORD s)))).bind fun s1 =>
      parse_expression n (parse_next_token .EQUAL (parse_type_specifier s1))

/-- The routine `parse_variable_declaration`. -/
def parse_variable_declaration : Nat → parser → Option parser
  | 0, _ => none
  | n + 1, s =>
    parse_expression n
      (parse_next_token .ASSIGNMENT
        (parse_type_specifier
          (parse_next_token .IDENTIFIER
            (parse_next_token .VAR_KEYWORD s))))

/-- The routine `parse_type_declaration`. -/
def parse_type_declaration : Nat → parser → Option parser
  | 0, _ => none
  | n + 1, s =>
    parse_type_definition n
      (parse_next_token .EQUAL
        (parse_next_token .IDENTIFIER
          (parse_next_token .TYPE_KEYWORD s)))

/-- The routine `parse_declaration_list`. -/
def parse_declaration_list : Nat → parser → Option parser
  | 0, _ => none
  | n + 1, s =>
    match s.current_token.name with
    | .TYPE_KEYWORD => (parse_type_declaration n s).bind (parse_declaration_list n)
    | .VAR_KEYWORD => (parse_variable_declaration n s).bind (parse_declaration_list n)
    | .FUNCTION_KEYWORD => (parse_function_declaration n s).bind (parse_declaration_list n)
    | _ => some s

/-- The routine `parse_lvalue_suffix`. -/
def parse_lvalue_suffix : Nat → parser → Option parser
  | 0, _ => none
  | n + 1, s =>
    match s.current_token.name with
    | .DOT => parse_lvalue_suffix n (parse_next_token .IDENTIFIER (advance s))
    | .LEFT_BRACKET =>
      (parse_expression n (advance s)).bind fun s1 =>
        parse_lvalue_suffix n (parse_next_token .RIGHT_BRACKET s1)
    | _ => some s

/-- The routine `parse_if_expression`. -/
def parse_if_expression : Nat → parser → Option parser
  | 0, _ => none
  | n + 1, s =>
    (parse_expression n s).bind fun s1 =>
      (parse_expression n (parse_next_token .THEN_KEYWORD s1)).bind fun s2 =>
        if s2.current_token.name = .ELSE_KEYWORD then
          parse_expression n (advance s2)
        else
          some s2

/-- The routine `parse_while_expression`. -/
def parse_while_expression : Nat → parser → Option parser
  | 0, _ => none
  | n + 1, s =>
    (parse_expression n s).bind fun s1 =>
      parse_expression n (parse_next_token .DO_KEYWORD s1)

/-- The routine `parse_for_expression`. -/
def parse_for_expression : Nat → parser → Option parser
  | 0, _ => none
  | n + 1, s =>
    (parse_expression n
      (parse_next_token .ASSIGNMENT (parse_next_token .IDENTIFIER s))).bind fun s1 =>
      (parse_expression n (parse_next_token .TO_KEYWORD s1)).bind fun s2 =>
        parse_expression n (parse_next_token .DO_KEYWORD s2)

/-- The routine `parse_let_expression`. -/
def parse_let_expression : Nat → parser → Option parser
  | 0, _ => none
  | n + 1, s =>
    if s.current_token.name = .IN_KEYWORD then
      parse_expression_sequence n .END_KEYWORD
        (advance (print_error s.current_token.line s.current_token.column
          "empty declaration list" s))
    else
      (parse_declaration_list n s).bind fun s1 =>
        parse_expression_sequence n .END_KEYWORD (parse_next_token .IN_KEYWORD s1)

/-- The routine `parse_identifier`. The `default:` label of the C switch sits inside the
`else` block of the `LEFT_BRACKET` case, so the statements from `parse_lvalue_suffix()` on
are shared by the two cases; they are written out in both. -/
def parse_identifier : Nat → parser → Option parser
  | 0, _ => none
  | n + 1, s =>
    match s.current_token.name with
    | .LEFT_BRACE => parse_field_list n .RIGHT_BRACE (advance s)
    | .LEFT_BRACKET =>
      (parse_expression n (advance s)).bind fun s1 =>
        if (parse_next_token .RIGHT_BRACKET s1).current_token.name = .OF_KEYWORD then
          parse_expression n (advance (parse_next_token .RIGHT_BRACKET s1))
        else
          (parse_lvalue_suffix n (parse_next_token .RIGHT_BRACKET s1)).bind fun s2 =>
            if s2.current_token.name = .ASSIGNMENT then
              parse_expression n (advance s2)
            else
              some s2
    | .LEFT_PARENTHESIS => parse_expression_list n .RIGHT_PARENTHESIS (advance s)
    | _ =>
      (parse_lvalue_suffix n s).bind fun s2 =>
        if s2.current_token.name = .ASSIGNMENT then
          parse_expression n (advance s2)
        else
          some s2

/-- The routine `parse_primary_expression`. -/
def parse_primary_expression : Nat → parser → Option parser
  | 0, _ => none
  | n + 1, s =>
    match s.current_token.name with
    | .STRING_CONSTANT => some (advance s)
    | .INTEGER_CONSTANT => some (advance s)
    | .FLOAT_CONSTANT => some (advance s)
    | .BREAK_KEYWORD => some (advance s)
    | .MINUS => parse_expression n (advance s)
    | .LEFT_PARENTHESIS => parse_expression_sequence n .RIGHT_PARENTHESIS (advance s)
    | .IF_KEYWORD => parse_if_expression n (advance s)
    | .WHILE_KEYWORD => parse_while_expression n (advance s)
    | .FOR_KEYWORD => parse_for_expression n (advance s)
    | .LET_KEYWORD => parse_let_expression n (advance s)
    | .IDENTIFIER => parse_identifier n (advance s)
    | _ =>
      some (print_error s.current_token.line s.current_token.column
        "expected expression" s)

/-- The routine `parse_multiplicative_expression`; the `while` loop re-enters it. -/
def parse_multiplicative_expression : Nat → parser → Option parser
  | 0, _ => none
  | n + 1, s =>
    (parse_primary_expression n s).bind fun s1 =>
      if s1.current_token.name = .ASTERISK ∨ s1.current_token.name = .SLASH then
        parse_multiplicative_expression n (advance s1)
      else
        some s1

/-- The routine `parse_additive_expression`; the `while` loop re-enters it. -/
def parse_additive_expression : Nat → parser → Option parser
  | 0, _ => none
  | n + 1, s =>
    (parse_multiplicative_expression n s).bind fun s1 =>
      if s1.current_token.name = .PLUS ∨ s1.current_token.name = .MINUS then
        parse_additive_expression n (advance s1)
      else
        some s1

/-- The routine `parse_comparison_expression`; the `while` loop re-enters it. -/
def parse_comparison_expression : Nat → parser → Option parser
  | 0, _ => none
  | n + 1, s =>
    (parse_additive_expression n s).bind fun s1 =>
      if is_comparison_operator s1 = true then
        parse_comparison_expression n (advance s1)
      else
        some s1

/-- The routine `parse_and_expression`; the `while` loop re-enters it. -/
def parse_and_expression : Nat → parser → Option parser
  | 0, _ => none
  | n + 1, s =>
    (parse_comparison_expression n s).bind fun s1 =>
      if s1.current_token.name = .AND then
        parse_and_expression n (advance s1)
      else
        some s1

/-- The routine `parse_or_expression`; the `while` loop re-enters it. -/
def parse_or_expression : Nat → parser → Option parser
  | 0, _ => none
  | n + 1, s =>
    (parse_and_expression n s).bind fun s1 =>
      if s1.current_token.name = .OR then
        parse_or_expression n (advance s1)
      else
        some s1

/-- The routine `parse_expression`. -/
def parse_expression : Nat → parser → Option parser
  | 0, _ => none
  | n + 1, s => parse_or_expression n s

end

/-- Modelled from the spec: a call `init_type_check()`. -/
def init_type_check (s : parser) : parser :=
  { s with calls := s.calls ++ [event.init_type_check] }

/-- Modelled from the spec: a call `program_allocate()`; the handle it answers is supplied
by the caller of `parse_source_file`. -/
def program_allocate (s : parser) : parser :=
  { s with calls := s.calls ++ [event.program_allocate] }

/-- Modelled from the spec: a call `clean_up_type_check()`. -/
def clean_up_type_check (s : parser) : parser :=
  { s with calls := s.calls ++ [event.clean_up_type_check] }

/-- The state in which `parse_source_file` calls `parse_expression`: the type checker
initialised, the program allocated and the first token fetched. -/
def start (file : source_file) : parser :=
  advance (program_allocate (init_type_check
    { source_file := file, current_token := ⟨.NONE, 0, 0⟩, calls := [] }))

/-- The end of `parse_source_file`, after `parse_expression` has returned: the test for
trailing code and the call `clean_up_type_check()`. -/
def finish (s : parser) : parser :=
  clean_up_type_check
    (if s.current_token.name ≠ .NONE then
      print_error s.current_token.line s.current_token.column
        "trailing code after the main expression" s
    else s)

/-- The entry point `parse_source_file`. The handle answered by `program_allocate` is the
argument `allocated`; the result pairs the returned handle with the final state. -/
def parse_source_file (fuel : Nat) (allocated : program) (file : source_file) :
    Option (program × parser) :=
  (parse_expression fuel (start file)).bind fun s => some (allocated, finish s)

/-- The statements under the `default:` label of `parse_identifier`, which the
`LEFT_BRACKET` case runs into when no `of` follows the bracket: the lvalue suffixes and
the optional assignment. -/
def parse_identifier_default (fuel : Nat) (s : parser) : Option parser :=
  (parse_lvalue_suffix fuel s).bind fun s2 =>
    if s2.current_token.name = .ASSIGNMENT then parse_expression fuel (advance s2)
    else some s2

/-- The diagnostics reported so far: the `print_error` calls on record, oldest first. -/
def diagnostics (s : parser) : List event :=
  s.calls.filter fun e =>
    match e with
    | .print_error _ _ _ => true
    | _ => false

/-- The number of diagnostics reported so far. -/
def errors (s : parser) : Nat :=
  (diagnostics s).length

/-- A token stream laid out on line 1, the i-th token (from 0) at column `c + i`. -/
def layout : Nat → List token_kind → List token
  | _, [] => []
  | c, k :: ks => ⟨k, 1, c⟩ :: layout (c + 1) ks

/-! ## The grammar rules and the routines recognising them -/

/-- The five binary-operator layers of the precedence ladder, loosest first. -/
inductive layer
  | or
  | and
  | comparison
  | additive
  | multiplicative
  deriving DecidableEq, Repr

/-- The four separated-list forms of the grammar. -/
inductive series_kind
  | expression_sequence
  | expression_list
  | field_list
  | type_fields
  deriving DecidableEq, Repr

/-- The tokens that end a list form. -/
inductive terminator
  | RIGHT_PARENTHESIS
  | END_KEYWORD
  | RIGHT_BRACE
  deriving DecidableEq, Repr

/-- The tag of a terminator. -/
def terminator.kind : terminator → token_kind
  | .RIGHT_PARENTHESIS => .RIGHT_PARENTHESIS
  | .END_KEYWORD => .END_KEYWORD
  | .RIGHT_BRACE => .RIGHT_BRACE

/-- The grammar rules, one for each recursive routine of `parser.c`. -/
inductive nonterminal
  | expression
  | binary (l : layer)
  | primary
  | identifier_rest
  | lvalue_suffixes
  | if_rest
  | while_rest
  | for_rest
  | let_rest
  | elements (k : series_kind)
  | series (k : series_kind) (end_ : terminator)
  | field
  | type_field
  | type_definition
  | type_declaration
  | variable_declaration
  | function_declaration
  | declaration_list
  deriving DecidableEq, Repr

/-- The routine of `parser.c` that recognises a grammar rule. -/
def run : nonterminal → Nat → parser → Option parser
  | .expression => parse_expression
  | .binary .or => parse_or_expression
  | .binary .and => parse_and_expression
  | .binary .comparison => parse_comparison_expression
  | .binary .additive => parse_additive_expression
  | .binary .multiplicative => parse_multiplicative_expression
  | .primary => parse_primary_expression
  | .identifier_rest => parse_identifier
  | .lvalue_suffixes => parse_lvalue_suffix
  | .if_rest => parse_if_expression
  | .while_rest => parse_while_expression
  | .for_rest => parse_for_expression
  | .let_rest => parse_let_expression
  | .elements .expression_sequence => parse_expression_sequence_loop
  | .elements .expression_list => parse_expression_list_loop
  | .elements .field_list => parse_field_list_loop
  | .elements .type_fields => parse_type_fields_loop
  | .series .expression_sequence end_ => fun n => parse_expression_sequence n end_.kind
  | .series .expression_list end_ => fun n => parse_expression_list n end_.kind
  | .series .field_list end_ => fun n => parse_field_list n end_.kind
  | .series .type_fields end_ => fun n => parse_type_fields n end_.kind
  | .field => parse_field
  | .type_field => parse_type_field
  | .type_definition => parse_type_definition
  | .type_declaration => parse_type_declaration
  | .variable_declaration => parse_variable_declaration
  | .function_declaration => parse_function_declaration
  | .declaration_list => parse_declaration_list

/-- The operand of a binary layer: the next tighter layer, or a primary expression. -/
def layer.operand : layer → nonterminal
  | .or => .binary .and
  | .and => .binary .comparison
  | .comparison => .binary .additive
  | .additive => .binary .multiplicative
  | .multiplicative => .primary

/-- The operators of a binary layer. -/
def layer.operator : layer → token_kind → Bool
  | .or, k => k = .OR
  | .and, k => k = .AND
  | .comparison, k =>
    k = .EQUAL || k = .NOT_EQUAL || k = .LESS || k = .LESS_EQUAL || k = .GREATER ||
      k = .GREATER_EQUAL
  | .additive, k => k = .PLUS || k = .MINUS
  | .multiplicative, k => k = .ASTERISK || k = .SLASH

/-- The separator of a list form. -/
def series_kind.separator : series_kind → token_kind
  | .expression_sequence => .SEMICOLON
  | _ => .COMMA

/-- The rule for the elements of a list form. -/
def series_kind.item : series_kind → nonterminal
  | .expression_sequence => .expression
  | .expression_list => .expression
  | .field_list => .field
  | .type_fields => .type_field

/-- The body of each routine, its calls to other routines being made through `call`. -/
def body (call : nonterminal → parser → Option parser) : nonterminal → parser → Option parser
  | .expression, s => call (.binary .or) s
  | .binary l, s =>
    (call l.operand s).bind fun s1 =>
      if l.operator s1.current_token.name = true then call (.binary l) (advance s1)
      else some s1
  | .primary, s =>
    match s.current_token.name with
    | .STRING_CONSTANT => some (advance s)
    | .INTEGER_CONSTANT => some (advance s)
    | .FLOAT_CONSTANT => some (advance s)
    | .BREAK_KEYWORD => some (advance s)
    | .MINUS => call .expression (advance s)
    | .LEFT_PARENTHESIS => call (.series .expression_sequence .RIGHT_PARENTHESIS) (advance s)
    | .IF_KEYWORD => call .if_rest (advance s)
    | .WHILE_KEYWORD => call .while_rest (advance s)
    | .FOR_KEYWORD => call .for_rest (advance s)
    | .LET_KEYWORD => call .let_rest (advance s)
    | .IDENTIFIER => call .identifier_rest (advance s)
    | _ =>
      some (print_error s.current_token.line s.current_token.column "expected expression" s)
  | .identifier_rest, s =>
    match s.current_token.name with
    | .LEFT_BRACE => call (.series .field_list .RIGHT_BRACE) (advance s)
    | .LEFT_BRACKET =>
      (call .expression (advance s)).bind fun s1 =>
        if (parse_next_token .RIGHT_BRACKET s1).current_token.name = .OF_KEYWORD then
          call .expression (advance (parse_next_token .RIGHT_BRACKET s1))
        else
          (call .lvalue_suffixes (parse_next_token .RIGHT_BRACKET s1)).bind fun s2 =>
            if s2.current_token.name = .ASSIGNMENT then call .expression (advance s2)
            else some s2
    | .LEFT_PARENTHESIS => call (.series .expression_list .RIGHT_PARENTHESIS) (advance s)
    | _ =>
      (call .lvalue_suffixes s).bind fun s2 =>
        if s2.current_token.name = .ASSIGNMENT then call .expression (advance s2)
        else some s2
  | .lvalue_suffixes, s =>
    match s.current_token.name with
    | .DOT => call .lvalue_suffixes (parse_next_token .IDENTIFIER (advance s))
    | .LEFT_BRACKET =>
      (call .expression (advance s)).bind fun s1 =>
        call .lvalue_suffixes (parse_next_token .RIGHT_BRACKET s1)
    | _ => some s
  | .if_rest, s =>
    (call .expression s).bind fun s1 =>
      (call .expression (parse_next_token .THEN_KEYWORD s1)).bind fun s2 =>
        if s2.current_token.name = .ELSE_KEYWORD then call .expression (advance s2)
        else some s2
  | .while_rest, s =>
    (call .expression s).bind fun s1 =>
      call .expression (parse_next_token .DO_KEYWORD s1)
  | .for_rest, s =>
    (call .expression
      (parse_next_token .ASSIGNMENT (parse_next_token .IDENTIFIER s))).bind fun s1 =>
      (call .expression (parse_next_token .TO_KEYWORD s1)).bind fun s2 =>
        call .expression (parse_next_token .DO_KEYWORD s2)
  | .let_rest, s =>
    if s.current_token.name = .IN_KEYWORD then
      call (.series .expression_sequence .END_KEYWORD)
        (advance (print_error s.current_token.line s.current_token.column
          "empty declaration list" s))
    else
      (call .declaration_list s).bind fun s1 =>
        call (.series .expression_sequence .END_KEYWORD) (parse_next_token .IN_KEYWORD s1)
  | .elements k, s =>
    (call k.item s).bind fun s1 =>
      if s1.current_token.name = k.separator then call (.elements k) (advance s1)
      else some s1
  | .series k end_, s =>
    if s.current_token.name = end_.kind then some (advance s)
    else (call (.elements k) s).bind fun s1 => some (parse_next_token end_.kind s1)
  | .field, s =>
    call .expression (parse_next_token .EQUAL (parse_next_token .IDENTIFIER s))
  | .type_field, s =>
    some (parse_next_token .IDENTIFIER
      (parse_next_token .COLON (parse_next_token .IDENTIFIER s)))
  | .type_definition, s =>
    match s.current_token.name with
    | .LEFT_BRACE => call (.series .type_fields .RIGHT_BRACE) (advance s)
    | .ARRAY_KEYWORD =>
      some (parse_next_token .IDENTIFIER (parse_next_token .OF_KEYWORD (advance s)))
    | .IDENTIFIER => some (advance s)
    | _ =>
      some (print_error s.current_token.line s.current_token.column
        "expected type definition" s)
  | .type_declaration, s =>
    call .type_definition
      (parse_next_token .EQUAL
        (parse_next_token .IDENTIFIER (parse_next_token .TYPE_KEYWORD s)))
  | .variable_declaration, s =>
    call .expression
      (parse_next_token .ASSIGNMENT
        (parse_type_specifier
          (parse_next_token .IDENTIFIER (parse_next_token .VAR_KEYWORD s))))
  | .function_declaration, s =>
    (call (.series .type_fields .RIGHT_PARENTHESIS)
      (parse_next_token .LEFT_PARENTHESIS
        (parse_next_token .IDENTIFIER
          (parse_next_token .FUNCTION_KEYWORD s)))).bind fun s1 =>
      call .expression (parse_next_token .EQUAL (parse_type_specifier s1))
  | .declaration_list, s =>
    match s.current_token.name with
    | .TYPE_KEYWORD => (call .type_declaration s).bind (call .declaration_list)
    | .VAR_KEYWORD => (call .variable_declaration s).bind (call .declaration_list)
    | .FUNCTION_KEYWORD => (call .function_declaration s).bind (call .declaration_list)
    | _ => some s

/-- The text of a diagnostic the routines below `parse_source_file` can emit. -/
inductive diagnostic_message : String → Prop
  | expected (kind : token_kind) : diagnostic_message ("expected " ++ token_kind_string kind)
  | type_definition : diagnostic_message "expected type definition"
  | expression : diagnostic_message "expected expression"
  | empty_declaration_list : diagnostic_message "empty declaration list"

/-- One observable action of the parser: it fetches the next token from the scanner, the
current token not being the end of input, or it reports a diagnostic at the position of
the current token. -/
inductive step : parser → parser → Prop
  | fetch (s : parser) (h : s.current_token.name ≠ .NONE) : step s (advance s)
  | report (s : parser) (message : String) (h : diagnostic_message message) :
    step s (print_error s.current_token.line s.current_token.column message s)

/-- A finite sequence of actions leads from the first state to the second. -/
def steps : parser → parser → Prop :=
  Relation.ReflTransGen step

/-- The number of tokens still to be consumed: those the scanner has yet to deliver, and
the current token unless it is the end of input. -/
def remaining (s : parser) : Nat :=
  s.source_file.length + (if s.current_token.name = .NONE then 0 else 1)

/-- How many routines a routine can be entered through without a token being consumed
in between. -/
def nonterminal.rank : nonterminal → Nat
  | .lvalue_suffixes => 0
  | .primary => 0
  | .type_field => 0
  | .type_definition => 0
  | .identifier_rest => 1
  | .type_declaration => 1
  | .binary .multiplicative => 1
  | .binary .additive => 2
  | .binary .comparison => 3
  | .binary .and => 4
  | .binary .or => 5
  | .expression => 6
  | .field => 7
  | .if_rest => 7
  | .while_rest => 7
  | .for_rest => 7
  | .variable_declaration => 7
  | .elements _ => 8
  | .series _ _ => 9
  | .function_declaration => 10
  | .declaration_list => 11
  | .let_rest => 12

/-- An amount of fuel that suffices for a routine started in a given state. -/
def fuel_bound (r : nonterminal) (s : parser) : Nat :=
  13 * remaining s + r.rank + 1

/-! ## The grammar of the language

The grammar is written from the description of the language, rule by rule, over the tags
of the tokens. `derives r w` says that the token string `w` is a phrase of rule `r`. -/

/-- The tokens that are a primary expression on their own: the three kinds of literal and
`break`. -/
def token_kind.atom : token_kind → Bool
  | .STRING_CONSTANT => true
  | .INTEGER_CONSTANT => true
  | .FLOAT_CONSTANT => true
  | .BREAK_KEYWORD => true
  | _ => false

/-- The phrases of each grammar rule. -/
inductive derives : nonterminal → List token_kind → Prop
  /- An expression is a phrase of the loosest binary layer. -/
  | expression {w : List token_kind} :
    derives (.binary .or) w → derives .expression w
  /- A binary layer: one operand of the next tighter layer, followed by zero or more
  pairs of an operator of the layer and another operand. -/
  | operand {l : layer} {w : List token_kind} :
    derives l.operand w → derives (.binary l) w
  | chain {l : layer} {w v : List token_kind} {op : token_kind} :
    derives l.operand w → l.operator op = true → derives (.binary l) v →
    derives (.binary l) (w ++ op :: v)
  /- The primary expressions. -/
  | atom {k : token_kind} :
    k.atom = true → derives .primary [k]
  | negation {w : List token_kind} :
    derives .expression w → derives .primary (.MINUS :: w)
  | parenthesized {w : List token_kind} :
    derives (.series .expression_sequence .RIGHT_PARENTHESIS) w →
    derives .primary (.LEFT_PARENTHESIS :: w)
  | conditional {w : List token_kind} :
    derives .if_rest w → derives .primary (.IF_KEYWORD :: w)
  | while_loop {w : List token_kind} :
    derives .while_rest w → derives .primary (.WHILE_KEYWORD :: w)
  | for_loop {w : List token_kind} :
    derives .for_rest w → derives .primary (.FOR_KEYWORD :: w)
  | let_block {w : List token_kind} :
    derives .let_rest w → derives .primary (.LET_KEYWORD :: w)
  | identifier {w : List token_kind} :
    derives .identifier_rest w → derives .primary (.IDENTIFIER :: w)
  /- `if` cond `then` expr, with an optional `else` expr. -/
  | if_then {c t : List token_kind} :
    derives .expression c → derives .expression t →
    derives .if_rest (c ++ .THEN_KEYWORD :: t)
  | if_then_else {c t e : List token_kind} :
    derives .expression c → derives .expression t → derives .expression e →
    derives .if_rest (c ++ .THEN_KEYWORD :: (t ++ .ELSE_KEYWORD :: e))
  /- `while` cond `do` body. -/
  | while_do {c b : List token_kind} :
    derives .expression c → derives .expression b →
    derives .while_rest (c ++ .DO_KEYWORD :: b)
  /- `for` identifier `:=` lo `to` hi `do` body. -/
  | for_to_do {lo hi b : List token_kind} :
    derives .expression lo → derives .expression hi → derives .expression b →
    derives .for_rest
      (.IDENTIFIER :: .ASSIGNMENT :: (lo ++ .TO_KEYWORD :: (hi ++ .DO_KEYWORD :: b)))
  /- `let` declarations `in` expression-sequence `end`; the declarations are not empty. -/
  | let_in {d b : List token_kind} :
    derives .declaration_list d → d ≠ [] →
    derives (.series .expression_sequence .END_KEYWORD) b →
    derives .let_rest (d ++ .IN_KEYWORD :: b)
  /- What may follow the identifier of an identifier-led form. -/
  | record {w : List token_kind} :
    derives (.series .field_list .RIGHT_BRACE) w →
    derives .identifier_rest (.LEFT_BRACE :: w)
  | array {n i : List token_kind} :
    derives .expression n → derives .expression i →
    derives .identifier_rest (.LEFT_BRACKET :: (n ++ .RIGHT_BRACKET :: .OF_KEYWORD :: i))
  | call {w : List token_kind} :
    derives (.series .expression_list .RIGHT_PARENTHESIS) w →
    derives .identifier_rest (.LEFT_PARENTHESIS :: w)
  | lvalue {w : List token_kind} :
    derives .lvalue_suffixes w → derives .identifier_rest w
  | assignment {w v : List token_kind} :
    derives .lvalue_suffixes w → derives .expression v →
    derives .identifier_rest (w ++ .ASSIGNMENT :: v)
  /- Zero or more lvalue suffixes, `.field` or `[expr]`. -/
  | no_suffix :
    derives .lvalue_suffixes []
  | field_suffix {w : List token_kind} :
    derives .lvalue_suffixes w → derives .lvalue_suffixes (.DOT :: .IDENTIFIER :: w)
  | index_suffix {i w : List token_kind} :
    derives .expression i → derives .lvalue_suffixes w →
    derives .lvalue_suffixes (.LEFT_BRACKET :: (i ++ .RIGHT_BRACKET :: w))
  /- The list forms: zero or more elements with a separator between them, then the
  terminator. -/
  | empty_series {k : series_kind} {e : terminator} :
    derives (.series k e) [e.kind]
  | full_series {k : series_kind} {e : terminator} {w : List token_kind} :
    derives (.elements k) w → derives (.series k e) (w ++ [e.kind])
  | one_element {k : series_kind} {w : List token_kind} :
    derives k.item w → derives (.elements k) w
  | more_elements {k : series_kind} {w v : List token_kind} :
    derives k.item w → derives (.elements k) v →
    derives (.elements k) (w ++ k.separator :: v)
  /- The elements of a record literal and of a record type or parameter list. -/
  | field {w : List token_kind} :
    derives .expression w → derives .field (.IDENTIFIER :: .EQUAL :: w)
  | type_field :
    derives .type_field [.IDENTIFIER, .COLON, .IDENTIFIER]
  /- Type definitions: a record type, an array type, a named alias. -/
  | record_type {w : List token_kind} :
    derives (.series .type_fields .RIGHT_BRACE) w →
    derives .type_definition (.LEFT_BRACE :: w)
  | array_type :
    derives .type_definition [.ARRAY_KEYWORD, .OF_KEYWORD, .IDENTIFIER]
  | alias_type :
    derives .type_definition [.IDENTIFIER]
  /- The three declarations; the type annotation of a variable and the return type of a
  function are optional. -/
  | type_declaration {w : List token_kind} :
    derives .type_definition w →
    derives .type_declaration (.TYPE_KEYWORD :: .IDENTIFIER :: .EQUAL :: w)
  | untyped_variable {w : List token_kind} :
    derives .expression w →
    derives .variable_declaration (.VAR_KEYWORD :: .IDENTIFIER :: .ASSIGNMENT :: w)
  | typed_variable {w : List token_kind} :
    derives .expression w →
    derives .variable_declaration
      (.VAR_KEYWORD :: .IDENTIFIER :: .COLON :: .IDENTIFIER :: .ASSIGNMENT :: w)
  | untyped_function {p w : List token_kind} :
    derives (.series .type_fields .RIGHT_PARENTHESIS) p → derives .expression w →
    derives .function_declaration
      (.FUNCTION_KEYWORD :: .IDENTIFIER :: .LEFT_PARENTHESIS :: (p ++ .EQUAL :: w))
  | typed_function {p w : List token_kind} :
    derives (.series .type_fields .RIGHT_PARENTHESIS) p → derives .expression w →
    derives .function_declaration
      (.FUNCTION_KEYWORD :: .IDENTIFIER :: .LEFT_PARENTHESIS ::
        (p ++ .COLON :: .IDENTIFIER :: .EQUAL :: w))
  /- Zero or more declarations of any of the three kinds. -/
  | no_declaration :
    derives .declaration_list []
  | type_first {d ds : List token_kind} :
    derives .type_declaration d → derives .declaration_list ds →
    derives .declaration_list (d ++ ds)
  | variable_first {d ds : List token_kind} :
    derives .variable_declaration d → derives .declaration_list ds →
    derives .declaration_list (d ++ ds)
  | function_first {d ds : List token_kind} :
    derives .function_declaration d → derives .declaration_list ds →
    derives .declaration_list (d ++ ds)

/-- Reading the tokens `w` one after the other, each being the current token when its
turn comes: the state reached, if the stream starts with `w`. -/
def consume : List token_kind → parser → Option parser
  | [], s => some s
  | k :: w, s => if s.current_token.name = k then consume w (advance s) else none

/-- The parser is somewhere in the token stream `stream`: the current token and the
tokens yet to be delivered are a final segment of it. -/
def within (stream : List token) (s : parser) : Prop :=
  ∃ before, before ++ s.current_token :: s.source_file = stream

/-- A call on record is a diagnostic at the position of a token of `stream`, or no
diagnostic at all. -/
def located (stream : List token) : event → Prop
  | .print_error line column _ => ∃ t ∈ stream, t.line = line ∧ t.column = column
  | _ => True

/-- The state in which a routine returns when started in state `s`, computed with
`fuel_bound` units of fuel, which suffice. -/
def final (r : nonterminal) (s : parser) : parser :=
  (run r (fuel_bound r s) s).getD s

/-! ## What remains to be done after a routine returns

The routines below are total, so what a routine does after one of its calls has returned is
a function of the state in which the call returned. -/

/-- The rest of a binary layer after one of its operands: on an operator of the layer,
fetch and run the layer again. -/
def loop (l : layer) (x : parser) : parser :=
  if l.operator x.current_token.name = true then final (.binary l) (advance x) else x

/-- The rest of `parse_if_expression` after the `then` branch: the optional `else`. -/
def else_part (x : parser) : parser :=
  if x.current_token.name = .ELSE_KEYWORD then final .expression (advance x) else x

/-- The rest of `parse_identifier` after the lvalue suffixes: the optional assignment. -/
def assignment_part (x : parser) : parser :=
  if x.current_token.name = .ASSIGNMENT then final .expression (advance x) else x

/-- The rest of the loop of a list form after one of its elements: on the separator, fetch
and run the loop again. -/
def more (k : series_kind) (x : parser) : parser :=
  if x.current_token.name = k.separator then final (.elements k) (advance x) else x

/-- The tokens on which the parser carries on with the phrase it has just read instead of
returning: they start an lvalue suffix, an assignment, the initial value of an array, the
arguments of a call or the fields of a record. -/
def token_kind.carries_on : token_kind → Bool
  | .LEFT_BRACKET => true
  | .DOT => true
  | .ASSIGNMENT => true
  | .OF_KEYWORD => true
  | .LEFT_PARENTHESIS => true
  | .LEFT_BRACE => true
  | _ => false

/-- The tokens on which no routine carries on with an expression it has just read. -/
def token_kind.inert (k : token_kind) : Prop :=
  k.carries_on = false ∧ k ≠ .ELSE_KEYWORD ∧ ∀ l : layer, l.operator k = false

/-- What a set `K` of states must satisfy to be the set of the states in which an
expression may end: no state of `K` has a current token on which an identifier-led form
carries on, and when the current token of a state of `K` is `else` or a binary operator,
taking it up and reading on leads to a state of `K` again. -/
def good (K : parser → Prop) : Prop :=
  (∀ x, K x → x.current_token.name.carries_on = false) ∧
  (∀ x, K x → x.current_token.name = .ELSE_KEYWORD → K (final .expression (advance x))) ∧
  (∀ (l : layer) x, K x → l.operator x.current_token.name = true →
    K (final (.binary l) (advance x)))

/-- What a set `K` of states must satisfy to be the set of the states in which a phrase
of rule `r` may end. -/
def fit : nonterminal → (parser → Prop) → Prop
  | .lvalue_suffixes, K =>
    ∀ x, K x → x.current_token.name ≠ .DOT ∧ x.current_token.name ≠ .LEFT_BRACKET
  | .elements _, K => ∀ x, K x → ∃ e : terminator, x.current_token.name = e.kind
  | .declaration_list, K => ∀ x, K x → x.current_token.name = .IN_KEYWORD
  | .series _ _, _ => True
  | .let_rest, _ => True
  | .type_field, _ => True
  | .type_definition, _ => True
  | .type_declaration, _ => True
  | _, K => good K

/-- The tokens a primary expression can start with. -/
def token_kind.starter : token_kind → Bool
  | .STRING_CONSTANT => true
  | .INTEGER_CONSTANT => true
  | .FLOAT_CONSTANT => true
  | .BREAK_KEYWORD => true
  | .MINUS => true
  | .LEFT_PARENTHESIS => true
  | .IF_KEYWORD => true
  | .WHILE_KEYWORD => true
  | .FOR_KEYWORD => true
  | .LET_KEYWORD => true
  | .IDENTIFIER => true
  | _ => false

/-- What the grammar lets a phrase of a rule start with. -/
def head_ok : nonterminal → List token_kind → Prop
  | .declaration_list, w =>
    ∀ k ∈ w.head?, k = .TYPE_KEYWORD ∨ k = .VAR_KEYWORD ∨ k = .FUNCTION_KEYWORD
  | .lvalue_suffixes, w => ∀ k ∈ w.head?, k = .DOT ∨ k = .LEFT_BRACKET
  | .type_declaration, w => w.head? = some .TYPE_KEYWORD
  | .variable_declaration, w => w.head? = some .VAR_KEYWORD
  | .function_declaration, w => w.head? = some .FUNCTION_KEYWORD
  | .expression, w => ∃ k, w.head? = some k ∧ k.starter = true
  | .binary _, w => ∃ k, w.head? = some k ∧ k.starter = true
  | .primary, w => ∃ k, w.head? = some k ∧ k.starter = true
  | .field, w => ∃ k, w.head? = some k ∧ k.starter = true
  | .type_field, w => ∃ k, w.head? = some k ∧ k.starter = true
  | .elements _, w => ∃ k, w.head? = some k ∧ k.starter = true
  | _, _ => True

/-! ## Operator chains -/

/-- How tightly a layer binds: 0 for the loosest. -/
def layer.depth : layer → Nat
  | .or => 0
  | .and => 1
  | .comparison => 2
  | .additive => 3
  | .multiplicative => 4

/-- The depth of the layer a binary operator belongs to; 5 for every other token. -/
def token_kind.depth : token_kind → Nat
  | .OR => 0
  | .AND => 1
  | .EQUAL => 2
  | .NOT_EQUAL => 2
  | .LESS => 2
  | .LESS_EQUAL => 2
  | .GREATER => 2
  | .GREATER_EQUAL => 2
  | .PLUS => 3
  | .MINUS => 3
  | .ASTERISK => 4
  | .SLASH => 4
  | _ => 5

/-- The twelve binary operators. -/
def binary_operator (k : token_kind) : Bool :=
  k = .OR || k = .AND || k = .EQUAL || k = .NOT_EQUAL || k = .LESS || k = .LESS_EQUAL ||
    k = .GREATER || k = .GREATER_EQUAL || k = .PLUS || k = .MINUS || k = .ASTERISK ||
    k = .SLASH

/-- An integer literal followed by one more integer literal for each of the operators
given, each after its operator. -/
def operator_chain : List token_kind → List token_kind
  | [] => [.INTEGER_CONSTANT]
  | op :: ops => .INTEGER_CONSTANT :: op :: operator_chain ops

/-- The calls that report trailing code after the main expression. -/
def trailing : event → Bool
  | .print_error _ _ message => message = "trailing code after the main expression"
  | _ => false

/-! ## Lists of phrases, and the calls on record -/

/-- The phrases `ws` one after the other, with the token `sep` between each two. -/
def separated (sep : token_kind) : List (List token_kind) → List token_kind
  | [] => []
  | [w] => w
  | w :: v :: ws => w ++ sep :: separated sep (v :: ws)

/-- The number of tokens fetched from the scanner so far. -/
def fetches (s : parser) : Nat :=
  s.calls.count event.get_token

/-- The calls the routines below `parse_source_file` make: to the scanner and to the
diagnostic sink. -/
def event.of_parsing : event → Bool
  | .get_token => true
  | .print_error _ _ _ => true
  | _ => false

/-- The position of a state in the stream `file`: the scanner has delivered the first
`fetches s` tokens, the last of them is the current token, and every one before the last is
not the end of input. -/
def placed (file : source_file) (s : parser) : Prop :=
  1 ≤ fetches s ∧ s.source_file = file.drop (fetches s) ∧
    s.current_token = (file[fetches s - 1]?).getD ⟨.NONE, 0, 0⟩ ∧
    ∀ i, i + 1 < fetches s → ∃ tok, file[i]? = some tok ∧ tok.name ≠ .NONE

/-! ## The measure of the mutual recursion -/

/-- The measure of a call of a routine in a state: the number of tokens remaining, and
among calls with the same number of tokens remaining the rank of the routine. -/
def weight (r : nonterminal) (s : parser) : Nat :=
  13 * remaining s + r.rank

/-- The calls `call` restricted to those of a smaller measure than the call of routine `r`
in state `s`: any other call fails. -/
def guarded (r : nonterminal) (s : parser) (call : nonterminal → parser → Option parser) :
    nonterminal → parser → Option parser :=
  fun q u => if weight q u < weight r s then call q u else none

/-! ## Programs that lack a required token

A routine requires a token by calling `parse_next_token`. The grammar is given once more,
over phrases in which every token required in this way is either there or left out. -/

/-- A token of a program as written, or a token the program is meant to have and lacks. -/
inductive mark
  | present (k : token_kind)
  | omitted (k : token_kind)
  deriving DecidableEq, Repr

/-- The place of a token of kind `k` that a routine requires with `parse_next_token`: the
token is there, or it has been left out. -/
def expected (k : token_kind) (d : mark) : Prop :=
  d = .present k ∨ d = .omitted k

/-- The tokens of a phrase as written: those that are there. -/
def written : List mark → List token_kind
  | [] => []
  | .present k :: m => k :: written m
  | .omitted _ :: m => written m

/-- The tokens of a phrase as meant: those that are there and those left out. -/
def meant : List mark → List token_kind
  | [] => []
  | .present k :: m => k :: meant m
  | .omitted k :: m => k :: meant m

/-- The phrases of each grammar rule in which tokens may have been left out. A token can be
left out where the routine of the rule calls `parse_next_token` for it; a token the routine
consumes after having tested for it is always there. -/
inductive marked : nonterminal → List mark → Prop
  | expression {m : List mark} :
    marked (.binary .or) m → marked .expression m
  | operand {l : layer} {m : List mark} :
    marked l.operand m → marked (.binary l) m
  | chain {l : layer} {m v : List mark} {op : token_kind} :
    marked l.operand m → l.operator op = true → marked (.binary l) v →
    marked (.binary l) (m ++ .present op :: v)
  | atom {k : token_kind} :
    k.atom = true → marked .primary [.present k]
  | negation {m : List mark} :
    marked .expression m → marked .primary (.present .MINUS :: m)
  | parenthesized {m : List mark} :
    marked (.series .expression_sequence .RIGHT_PARENTHESIS) m →
    marked .primary (.present .LEFT_PARENTHESIS :: m)
  | conditional {m : List mark} :
    marked .if_rest m → marked .primary (.present .IF_KEYWORD :: m)
  | while_loop {m : List mark} :
    marked .while_rest m → marked .primary (.present .WHILE_KEYWORD :: m)
  | for_loop {m : List mark} :
    marked .for_rest m → marked .primary (.present .FOR_KEYWORD :: m)
  | let_block {m : List mark} :
    marked .let_rest m → marked .primary (.present .LET_KEYWORD :: m)
  | identifier {m : List mark} :
    marked .identifier_rest m → marked .primary (.present .IDENTIFIER :: m)
  /- `parse_if_expression`: `parse_next_token(THEN_KEYWORD)`; `else` is tested for. -/
  | if_then {c t : List mark} {d : mark} :
    marked .expression c → expected .THEN_KEYWORD d → marked .expression t →
    marked .if_rest (c ++ d :: t)
  | if_then_else {c t e : List mark} {d : mark} :
    marked .expression c → expected .THEN_KEYWORD d → marked .expression t →
    marked .expression e →
    marked .if_rest (c ++ d :: (t ++ .present .ELSE_KEYWORD :: e))
  /- `parse_while_expression`: `parse_next_token(DO_KEYWORD)`. -/
  | while_do {c b : List mark} {d : mark} :
    marked .expression c → expected .DO_KEYWORD d → marked .expression b →
    marked .while_rest (c ++ d :: b)
  /- `parse_for_expression`: `parse_next_token` for the identifier, `:=`, `to` and `do`. -/
  | for_to_do {lo hi b : List mark} {d1 d2 d3 d4 : mark} :
    expected .IDENTIFIER d1 → expected .ASSIGNMENT d2 → marked .expression lo →
    expected .TO_KEYWORD d3 → marked .expression hi → expected .DO_KEYWORD d4 →
    marked .expression b →
    marked .for_rest (d1 :: d2 :: (lo ++ d3 :: (hi ++ d4 :: b)))
  /- `parse_let_expression`: `parse_next_token(IN_KEYWORD)` after the declarations. -/
  | let_in {ds b : List mark} {d : mark} :
    marked .declaration_list ds → ds ≠ [] → expected .IN_KEYWORD d →
    marked (.series .expression_sequence .END_KEYWORD) b →
    marked .let_rest (ds ++ d :: b)
  /- `parse_identifier`: `parse_next_token(RIGHT_BRACKET)`; `of` and `:=` are tested
  for. -/
  | record {m : List mark} :
    marked (.series .field_list .RIGHT_BRACE) m →
    marked .identifier_rest (.present .LEFT_BRACE :: m)
  | array {n i : List mark} {d : mark} :
    marked .expression n → expected .RIGHT_BRACKET d → marked .expression i →
    marked .identifier_rest
      (.present .LEFT_BRACKET :: (n ++ d :: .present .OF_KEYWORD :: i))
  | call {m : List mark} :
    marked (.series .expression_list .RIGHT_PARENTHESIS) m →
    marked .identifier_rest (.present .LEFT_PARENTHESIS :: m)
  | lvalue {m : List mark} :
    marked .lvalue_suffixes m → marked .identifier_rest m
  | assignment {m v : List mark} :
    marked .lvalue_suffixes m → marked .expression v →
    marked .identifier_rest (m ++ .present .ASSIGNMENT :: v)
  /- `parse_lvalue_suffix`: `parse_next_token(IDENTIFIER)` after `.`, and
  `parse_next_token(RIGHT_BRACKET)`. -/
  | no_suffix :
    marked .lvalue_suffixes []
  | field_suffix {m : List mark} {d : mark} :
    expected .IDENTIFIER d → marked .lvalue_suffixes m →
    marked .lvalue_suffixes (.present .DOT :: d :: m)
  | index_suffix {i m : List mark} {d : mark} :
    marked .expression i → expected .RIGHT_BRACKET d → marked .lvalue_suffixes m →
    marked .lvalue_suffixes (.present .LEFT_BRACKET :: (i ++ d :: m))
  /- The list forms: the terminator of an empty list is tested for; after the elements,
  which as written do not start with the terminator, it is required by
  `parse_next_token(end)`. -/
  | empty_series {k : series_kind} {e : terminator} :
    marked (.series k e) [.present e.kind]
  | full_series {k : series_kind} {e : terminator} {m : List mark} {d : mark} :
    marked (.elements k) m → expected e.kind d →
    (∃ a, (written m).head? = some a ∧ a ≠ e.kind) →
    marked (.series k e) (m ++ [d])
  | one_element {k : series_kind} {m : List mark} :
    marked k.item m → marked (.elements k) m
  | more_elements {k : series_kind} {m v : List mark} :
    marked k.item m → marked (.elements k) v →
    marked (.elements k) (m ++ .present k.separator :: v)
  /- `parse_field` and `parse_type_field`: every token is required. -/
  | field {m : List mark} {d1 d2 : mark} :
    expected .IDENTIFIER d1 → expected .EQUAL d2 → marked .expression m →
    marked .field (d1 :: d2 :: m)
  | type_field {d1 d2 d3 : mark} :
    expected .IDENTIFIER d1 → expected .COLON d2 → expected .IDENTIFIER d3 →
    marked .type_field [d1, d2, d3]
  /- `parse_type_definition`: `parse_next_token` for `of` and the identifier after
  `array`. -/
  | record_type {m : List mark} :
    marked (.series .type_fields .RIGHT_BRACE) m →
    marked .type_definition (.present .LEFT_BRACE :: m)
  | array_type {d1 d2 : mark} :
    expected .OF_KEYWORD d1 → expected .IDENTIFIER d2 →
    marked .type_definition [.present .ARRAY_KEYWORD, d1, d2]
  | alias_type :
    marked .type_definition [.present .IDENTIFIER]
  /- The declarations: the keyword is tested for by `parse_declaration_list` and the `:`
  of a type annotation by `parse_type_specifier`; the other tokens are required. -/
  | type_declaration {m : List mark} {d1 d2 : mark} :
    expected .IDENTIFIER d1 → expected .EQUAL d2 → marked .type_definition m →
    marked .type_declaration (.present .TYPE_KEYWORD :: d1 :: d2 :: m)
  | untyped_variable {m : List mark} {d1 d2 : mark} :
    expected .IDENTIFIER d1 → expected .ASSIGNMENT d2 → marked .expression m →
    marked .variable_declaration (.present .VAR_KEYWORD :: d1 :: d2 :: m)
  | typed_variable {m : List mark} {d1 d2 d3 : mark} :
    expected .IDENTIFIER d1 → expected .IDENTIFIER d2 → expected .ASSIGNMENT d3 →
    marked .expression m →
    marked .variable_declaration
      (.present .VAR_KEYWORD :: d1 :: .present .COLON :: d2 :: d3 :: m)
  | untyped_function {p m : List mark} {d1 d2 d3 : mark} :
    expected .IDENTIFIER d1 → expected .LEFT_PARENTHESIS d2 →
    marked (.series .type_fields .RIGHT_PARENTHESIS) p → expected .EQUAL d3 →
    marked .expression m →
    marked .function_declaration
      (.present .FUNCTION_KEYWORD :: d1 :: d2 :: (p ++ d3 :: m))
  | typed_function {p m : List mark} {d1 d2 d3 d4 : mark} :
    expected .IDENTIFIER d1 → expected .LEFT_PARENTHESIS d2 →
    marked (.series .type_fields .RIGHT_PARENTHESIS) p → expected .IDENTIFIER d3 →
    expected .EQUAL d4 → marked .expression m →
    marked .function_declaration
      (.present .FUNCTION_KEYWORD :: d1 :: d2 :: (p ++ .present .COLON :: d3 :: d4 :: m))
  | no_declaration :
    marked .declaration_list []
  | type_first {d ds : List mark} :
    marked .type_declaration d → marked .declaration_list ds →
    marked .declaration_list (d ++ ds)
  | variable_first {d ds : List mark} :
    marked .variable_declaration d → marked .declaration_list ds →
    marked .declaration_list (d ++ ds)
  | function_first {d ds : List mark} :
    marked .function_declaration d → marked .declaration_list ds →
    marked .declaration_list (d ++ ds)

/-- Whether what has been read up to a mark can be carried on with: the last token is an
identifier or a `]`, or a token has just been found missing. -/
def mark.opens : mark → Bool
  | .present .IDENTIFIER => true
  | .present .RIGHT_BRACKET => true
  | .present _ => false
  | .omitted _ => true

/-- The tokens a routine requires after a phrase it has called another routine for: `then`,
`do`, `to`, `in`, `]` and the terminators of the list forms. The other required tokens
follow a token or a required token directly. -/
def token_kind.closes : token_kind → Bool
  | .THEN_KEYWORD => true
  | .DO_KEYWORD => true
  | .TO_KEYWORD => true
  | .IN_KEYWORD => true
  | .RIGHT_BRACKET => true
  | .RIGHT_PARENTHESIS => true
  | .END_KEYWORD => true
  | .RIGHT_BRACE => true
  | _ => false

/-- Whether the token `a` found in the place of an omitted token `k` makes every routine
in progress return to the check for `k`, and that check fail. The token `a` is not `k`.
When `k` closes a phrase, `a` is not a binary operator nor `else`, and `a` is not a token on
which an identifier-led form carries on if what precedes can be carried on with (`o`).
Moreover `a` is not a separator when `k` ends a list, not the keyword of a declaration when
`k` is `in`, and not the `:` of a type annotation when `k` is `:=` or `=`. -/
def halts (o : Bool) (k a : token_kind) : Bool :=
  decide (a ≠ k) &&
  (!k.closes || (!binary_operator a && decide (a ≠ .ELSE_KEYWORD))) &&
  (!k.closes || (!o || !a.carries_on)) &&
  (!(decide (k = .RIGHT_PARENTHESIS) || decide (k = .END_KEYWORD) ||
      decide (k = .RIGHT_BRACE)) ||
    (decide (a ≠ .COMMA) && decide (a ≠ .SEMICOLON))) &&
  (!decide (k = .IN_KEYWORD) ||
    (decide (a ≠ .TYPE_KEYWORD) && decide (a ≠ .VAR_KEYWORD) &&
      decide (a ≠ .FUNCTION_KEYWORD))) &&
  (!(decide (k = .ASSIGNMENT) || decide (k = .EQUAL)) || decide (a ≠ .COLON))

/-- Reading a phrase in which tokens may have been left out: a token that is there is the
current token when its turn comes, and is consumed; in the place of a token left out the
current token is one that `halts`, and the token left out is reported as expected, at the
current token. The flag tells whether what has been read can be carried on with. -/
def replay : List mark → Bool × parser → Option (Bool × parser)
  | [], p => some p
  | .present k :: m, p =>
    if p.2.current_token.name = k then replay m ((mark.present k).opens, advance p.2)
    else none
  | .omitted k :: m, p =>
    if halts p.1 k p.2.current_token.name = true then
      replay m (true, print_error p.2.current_token.line p.2.current_token.column
        ("expected " ++ token_kind_string k) p.2)
    else none

/-- The flag after the tokens `w` have been read: whether the last of them is an identifier
or a `]`. -/
def flag_after : Bool → List token_kind → Bool
  | o, [] => o
  | _, k :: w => flag_after (mark.present k).opens w

/-- A token that is neither `else` nor a binary operator. -/
def token_kind.calm (k : token_kind) : Prop :=
  k ≠ .ELSE_KEYWORD ∧ ∀ l : layer, l.operator k = false

/-- A set of states from each of which taking up an `else` or a binary operator and
reading on leads into the set again. -/
def closed (K : parser → Prop) : Prop :=
  (∀ x, K x → x.current_token.name = .ELSE_KEYWORD → K (final .expression (advance x))) ∧
  (∀ (l : layer) x, K x → l.operator x.current_token.name = true →
    K (final (.binary l) (advance x)))

/-- What a set `K` of states must satisfy to be the set of the states in which a phrase
of rule `r`, tokens possibly left out, may end. -/
def suits : nonterminal → (parser → Prop) → Prop
  | .elements _, K => ∀ x, K x → x.current_token.name.calm
  | .declaration_list, K => ∀ x, K x → x.current_token.name.calm
  | .series _ _, _ => True
  | .let_rest, _ => True
  | .type_field, _ => True
  | .type_definition, _ => True
  | .type_declaration, _ => True
  | .lvalue_suffixes, _ => True
  | _, K => closed K

/-- What the state after a phrase of rule `r` must satisfy, given the flag: its current
token does not make the routine of the rule carry on. -/
def ends : nonterminal → Bool → parser → Prop
  | .lvalue_suffixes, _, t =>
    t.current_token.name ≠ .DOT ∧ t.current_token.name ≠ .LEFT_BRACKET
  | .elements k, o, t =>
    t.current_token.name ≠ k.separator ∧
      (o = true → t.current_token.name.carries_on = false)
  | .declaration_list, o, t =>
    (t.current_token.name ≠ .TYPE_KEYWORD ∧ t.current_token.name ≠ .VAR_KEYWORD ∧
      t.current_token.name ≠ .FUNCTION_KEYWORD) ∧
      (o = true → t.current_token.name.carries_on = false)
  | .series _ _, _, _ => True
  | .let_rest, _, _ => True
  | .type_field, _, _ => True
  | .type_definition, _, _ => True
  | .type_declaration, _, _ => True
  | _, o, t => o = true → t.current_token.name.carries_on = false

/-- The flag with which the routine of a rule is entered. -/
def enters : nonterminal → Bool → Prop
  | .lvalue_suffixes, o => o = true
  | .identifier_rest, o => o = true
  | _, _ => True

/-- What a phrase of a rule starts with, tokens possibly left out. -/
def lead : nonterminal → List mark → Prop
  | .declaration_list, m =>
    ∀ d ∈ m.head?, d = .present .TYPE_KEYWORD ∨ d = .present .VAR_KEYWORD ∨
      d = .present .FUNCTION_KEYWORD
  | .lvalue_suffixes, m =>
    ∀ d ∈ m.head?, d = .present .DOT ∨ d = .present .LEFT_BRACKET
  | .type_declaration, m => m.head? = some (.present .TYPE_KEYWORD)
  | .variable_declaration, m => m.head? = some (.present .VAR_KEYWORD)
  | .function_declaration, m => m.head? = some (.present .FUNCTION_KEYWORD)
  | _, _ => True

end Tigy

namespace Tigy

/-! ## Unfolding the routines -/

/-- With no fuel no routine returns. -/
theorem run_zero (r : nonterminal) (s : parser) : run r 0 s = none := by
  cases r with
  | binary l => cases l <;> rfl
  | elements k => cases k <;> rfl
  | series k e => cases k <;> rfl
  | _ => rfl

/-- One unit of fuel buys one execution of the body of a routine, the routines it calls
running on what is left. -/
theorem run_succ (r : nonterminal) (n : Nat) (s : parser) :
    run r (n + 1) s = body (fun r1 => run r1 n) r s := by
  cases r with
  | binary l =>
    cases l
    · simp only [run, parse_or_expression, body, layer.operand, layer.operator,
        decide_eq_true_eq]
    · simp only [run, parse_and_expression, body, layer.operand, layer.operator,
        decide_eq_true_eq]
    · simp only [run, parse_comparison_expression, body, layer.operand, layer.operator,
        is_comparison_operator]
    · simp only [run, parse_additive_expression, body, layer.operand, layer.operator,
        decide_eq_true_eq, Bool.or_eq_true]
    · simp only [run, parse_multiplicative_expression, body, layer.operand, layer.operator,
        decide_eq_true_eq, Bool.or_eq_true]
  | elements k => cases k <;> rfl
  | series k e => cases k <;> rfl
  | _ => rfl

/-! ## More fuel changes nothing -/

theorem bind_mono {α β : Type} {a b : Option α} {f g : α → Option β}
    (ha : ∀ x, a = some x → b = some x) (hf : ∀ x y, f x = some y → g x = some y)
    (y : β) (h : a.bind f = some y) : b.bind g = some y := by
  cases a with
  | none => simp at h
  | some x =>
    rw [ha x rfl]
    exact hf x y h

theorem ite_mono {β : Type} {p : Prop} [Decidable p] {a b c d : Option β} (y : β)
    (h1 : a = some y → c = some y) (h2 : b = some y → d = some y)
    (h : (if p then a else b) = some y) : (if p then c else d) = some y := by
  split <;> simp_all

/-- The bodies of the routines are monotone in what the routines they call return. -/
theorem body_mono {c d : nonterminal → parser → Option parser}
    (hcd : ∀ r s t, c r s = some t → d r s = some t) :
    ∀ r s t, body c r s = some t → body d r s = some t := by
  intro r s t
  cases r <;> simp only [body]
  all_goals try split
  all_goals
    repeat' first
      | exact hcd _ _ _
      | exact fun h => h
      | exact bind_mono (hcd _ _) (hcd _) _
      | refine bind_mono (hcd _ _) (fun x y => ?_) t
      | refine ite_mono _ ?_ ?_
      | refine bind_mono (hcd _ _) (fun x y => ?_) _

/-! ## The observable actions of a run -/

theorem steps_refl (s : parser) : steps s s := Relation.ReflTransGen.refl

theorem steps_trans {a b c : parser} (h1 : steps a b) (h2 : steps b c) : steps a c :=
  Relation.ReflTransGen.trans h1 h2

theorem steps_advance {s x : parser} {k : token_kind} (hk : x.current_token.name = k)
    (hne : k ≠ .NONE) (h : steps s x) : steps s (advance x) :=
  Relation.ReflTransGen.tail h (step.fetch x (by rw [hk]; exact hne))

theorem operator_ne_none {l : layer} {k : token_kind} (h : l.operator k = true) :
    k ≠ .NONE := by
  intro e
  subst e
  cases l <;> simp [layer.operator] at h

theorem separator_ne_none (k : series_kind) : k.separator ≠ .NONE := by
  cases k <;> simp [series_kind.separator]

theorem terminator_ne_none (e : terminator) : e.kind ≠ .NONE := by
  cases e <;> simp [terminator.kind]

theorem steps_print_error {s x : parser} {m : String} (hm : diagnostic_message m)
    (h : steps s x) :
    steps s (print_error x.current_token.line x.current_token.column m x) :=
  Relation.ReflTransGen.tail h (step.report x m hm)

theorem steps_parse_next_token {s x : parser} {k : token_kind} (hn : k ≠ .NONE)
    (h : steps s x) : steps s (parse_next_token k x) := by
  unfold parse_next_token
  split
  · exact steps_print_error (diagnostic_message.expected k) h
  · rename_i hk
    exact steps_advance (not_not.mp hk) hn h

theorem steps_parse_type_specifier {s x : parser} (h : steps s x) :
    steps s (parse_type_specifier x) := by
  unfold parse_type_specifier
  split
  · rename_i hk
    exact steps_parse_next_token (by decide) (steps_advance hk (by decide) h)
  · exact h

theorem post_some {s u : parser} (h : steps s u) (t : parser) (e : some u = some t) :
    steps s t := by
  cases e
  exact h

theorem post_bind {s : parser} {a : Option parser} {f : parser → Option parser}
    (ha : ∀ x, a = some x → steps s x)
    (hf : ∀ x, steps s x → ∀ t, f x = some t → steps s t) (t : parser)
    (h : a.bind f = some t) : steps s t := by
  cases a with
  | none => simp at h
  | some x => exact hf x (ha x rfl) t h

theorem post_ite {s : parser} {p : Prop} [Decidable p] {a b : Option parser}
    (ha : p → ∀ t, a = some t → steps s t) (hb : ¬p → ∀ t, b = some t → steps s t)
    (t : parser) (h : (if p then a else b) = some t) : steps s t := by
  split at h
  · rename_i hp; exact ha hp t h
  · rename_i hp; exact hb hp t h

theorem ne_none_of {a k : token_kind} (hk : a = k) (hn : k ≠ .NONE) : a ≠ .NONE := by
  rw [hk]
  exact hn

/-- If the routines called only fetch tokens (never at the end of input) and report
diagnostics at the current token, so does the body of each routine. -/
theorem body_steps {c : nonterminal → parser → Option parser}
    (hc : ∀ r s t, c r s = some t → steps s t) :
    ∀ r s t, body c r s = some t → steps s t := by
  have post_call : ∀ (r : nonterminal) (s u : parser), steps s u →
      ∀ t, c r u = some t → steps s t := fun r s u hu t h => steps_trans hu (hc r u t h)
  intro r s
  cases r <;> simp only [body]
  all_goals try split
  all_goals
    repeat' first
      | exact steps_refl _
      | assumption
      | exact diagnostic_message.expected _
      | exact diagnostic_message.type_definition
      | exact diagnostic_message.expression
      | exact diagnostic_message.empty_declaration_list
      | exact terminator_ne_none _
      | exact ne_none_of (by assumption) (separator_ne_none _)
      | exact ne_none_of (by assumption) (terminator_ne_none _)
      | exact operator_ne_none (by assumption)
      | exact ne_none_of (by assumption) (fun h => token_kind.noConfusion h)
      | exact fun h => token_kind.noConfusion h
      | refine steps_advance rfl ?_ ?_
      | refine steps_parse_next_token ?_ ?_
      | refine steps_parse_type_specifier ?_
      | refine steps_print_error ?_ ?_
      | refine post_some ?_
      | refine post_call _ _ _ ?_
      | refine post_ite (fun hp => ?_) (fun hp => ?_)
      | refine post_bind (post_call _ _ _ ?_) (fun x hx => ?_)

/-- A run of a routine is a sequence of fetches, none of them at the end of input, and of
diagnostics reported at the current token. -/
theorem run_steps : ∀ (n : Nat) (r : nonterminal) (s t : parser),
    run r n s = some t → steps s t := by
  intro n
  induction n with
  | zero => intro r s t h; simp [run_zero] at h
  | succ n ih =>
    intro r s t h
    rw [run_succ] at h
    exact body_steps ih r s t h

/-- More fuel never changes the result of a routine that returned. -/
theorem run_mono : ∀ (n m : Nat), n ≤ m → ∀ (r : nonterminal) (s t : parser),
    run r n s = some t → run r m s = some t := by
  intro n
  induction n with
  | zero => intro m _ r s t h; simp [run_zero] at h
  | succ n ih =>
    intro m hm r s t h
    cases m with
    | zero => omega
    | succ m =>
      rw [run_succ] at h ⊢
      exact body_mono (ih m (by omega)) r s t h

/-! ## Termination -/

theorem remaining_advance_le (s : parser) : remaining (advance s) ≤ remaining s := by
  unfold remaining advance get_token
  cases s.source_file with
  | nil => simp
  | cons t ts =>
    simp only [List.length_cons]
    split <;> split <;> omega

theorem remaining_advance_lt (s : parser) (h : s.current_token.name ≠ .NONE) :
    remaining (advance s) < remaining s := by
  unfold remaining advance get_token
  cases s.source_file with
  | nil => simp [h]
  | cons t ts =>
    simp only [List.length_cons, h, if_false]
    split <;> omega

theorem remaining_print_error (l c : Nat) (m : String) (s : parser) :
    remaining (print_error l c m s) = remaining s := rfl

theorem remaining_step {s t : parser} (h : step s t) : remaining t ≤ remaining s := by
  cases h with
  | fetch _ => exact remaining_advance_le _
  | report m hm => exact Nat.le_refl _

theorem remaining_steps {s t : parser} (h : steps s t) : remaining t ≤ remaining s := by
  induction h with
  | refl => exact Nat.le_refl _
  | tail _ h2 ih => exact Nat.le_trans (remaining_step h2) ih

theorem rank_le (r : nonterminal) : r.rank ≤ 12 := by
  cases r with
  | binary l => cases l <;> simp [nonterminal.rank]
  | _ => simp [nonterminal.rank]

theorem remaining_parse_next_token (k : token_kind) (s : parser) :
    remaining (parse_next_token k s) ≤ remaining s := by
  unfold parse_next_token
  split
  · exact Nat.le_refl _
  · exact remaining_advance_le s

theorem remaining_parse_type_specifier (s : parser) :
    remaining (parse_type_specifier s) ≤ remaining s :=
  remaining_steps (steps_parse_type_specifier (steps_refl s))

theorem parse_next_token_match {k : token_kind} {s : parser} (h : s.current_token.name = k) :
    parse_next_token k s = advance s := by
  simp [parse_next_token, h]

theorem parse_next_token_mismatch {k : token_kind} {s : parser}
    (h : s.current_token.name ≠ k) :
    parse_next_token k s =
      print_error s.current_token.line s.current_token.column
        ("expected " ++ token_kind_string k) s := by
  simp [parse_next_token, h]

theorem call_fits {r q : nonterminal} {s u : parser} {n : Nat}
    (hf : fuel_bound r s ≤ n + 1)
    (hu : remaining u < remaining s ∨ (remaining u ≤ remaining s ∧ q.rank < r.rank)) :
    fuel_bound q u ≤ n := by
  unfold fuel_bound at *
  have := rank_le q
  omega

/-- A declaration entered on its own keyword consumes at least that keyword. -/
theorem declaration_consumes {n : Nat} {r : nonterminal} {k : token_kind} {s t : parser}
    (hr : (r = .type_declaration ∧ k = .TYPE_KEYWORD) ∨
      (r = .variable_declaration ∧ k = .VAR_KEYWORD) ∨
      (r = .function_declaration ∧ k = .FUNCTION_KEYWORD))
    (hk : s.current_token.name = k) (h : run r n s = some t) :
    remaining t < remaining s := by
  cases n with
  | zero => simp [run_zero] at h
  | succ n =>
    have hlt : remaining (advance s) < remaining s := by
      apply remaining_advance_lt
      rw [hk]
      rcases hr with ⟨_, rfl⟩ | ⟨_, rfl⟩ | ⟨_, rfl⟩ <;> decide
    have key : steps (advance s) t := by
      rw [run_succ] at h
      rcases hr with ⟨rfl, rfl⟩ | ⟨rfl, rfl⟩ | ⟨rfl, rfl⟩
      · simp only [body, parse_next_token_match hk] at h
        exact steps_trans (steps_parse_next_token (by decide)
          (steps_parse_next_token (by decide) (steps_refl _))) (run_steps _ _ _ _ h)
      · simp only [body, parse_next_token_match hk] at h
        exact steps_trans (steps_parse_next_token (by decide) (steps_parse_type_specifier
          (steps_parse_next_token (by decide) (steps_refl _)))) (run_steps _ _ _ _ h)
      · simp only [body, parse_next_token_match hk, Option.bind_eq_some] at h
        obtain ⟨s1, h1, h2⟩ := h
        exact steps_trans (steps_trans (steps_parse_next_token (by decide)
          (steps_parse_next_token (by decide) (steps_refl _))) (run_steps _ _ _ _ h1))
          (steps_trans (steps_parse_next_token (by decide)
            (steps_parse_type_specifier (steps_refl _))) (run_steps _ _ _ _ h2))
    exact Nat.lt_of_le_of_lt (remaining_steps key) hlt

theorem remaining_advance_of {x : parser} {k : token_kind} {b : Nat}
    (hk : x.current_token.name = k) (hne : k ≠ .NONE) (hb : remaining x ≤ b) :
    remaining (advance x) < b :=
  Nat.lt_of_lt_of_le (remaining_advance_lt x (by rw [hk]; exact hne)) hb

/-- Every routine returns when given `fuel_bound` units of fuel or more. -/
theorem run_total : ∀ (n : Nat) (r : nonterminal) (s : parser),
    fuel_bound r s ≤ n → ∃ t, run r n s = some t := by
  intro n
  induction n with
  | zero => intro r s h; simp [fuel_bound] at h
  | succ n ih =>
    intro r s hf
    rw [run_succ]
    have call : ∀ (q : nonterminal) (u : parser),
        (remaining u < remaining s ∨ (remaining u ≤ remaining s ∧ q.rank < r.rank)) →
        ∃ t, run q n u = some t ∧ remaining t ≤ remaining u := by
      intro q u hu
      obtain ⟨t, ht⟩ := ih q u (call_fits hf hu)
      exact ⟨t, ht, remaining_steps (run_steps _ _ _ _ ht)⟩
    have pnt := remaining_parse_next_token
    have tsp := remaining_parse_type_specifier
    have le0 := Nat.le_refl (remaining s)
    cases r with
    | expression =>
      obtain ⟨t, ht, _⟩ := call (.binary .or) s (Or.inr ⟨le0, by decide⟩)
      exact ⟨t, ht⟩
    | binary l =>
      simp only [body]
      obtain ⟨s1, h1, m1⟩ := call l.operand s (Or.inr ⟨le0, by cases l <;> decide⟩)
      rw [h1, Option.some_bind]
      split
      · rename_i hop
        obtain ⟨t, ht, _⟩ := call (.binary l) (advance s1)
          (Or.inl (remaining_advance_of rfl (operator_ne_none hop) m1))
        exact ⟨t, ht⟩
      · exact ⟨s1, rfl⟩
    | primary =>
      simp only [body]
      split
      any_goals exact ⟨_, rfl⟩
      all_goals
        rename_i hk
        obtain ⟨t, ht, _⟩ := call _ (advance s)
          (Or.inl (remaining_advance_of hk (by decide) le0))
        exact ⟨t, ht⟩
    | identifier_rest =>
      have tail : ∀ u, (remaining u < remaining s ∨ remaining u ≤ remaining s) →
          ∃ t, ((run .lvalue_suffixes n u).bind fun s2 =>
            if s2.current_token.name = .ASSIGNMENT then run .expression n (advance s2)
            else some s2) = some t := by
        intro u hu
        obtain ⟨s2, h2, m2⟩ := call .lvalue_suffixes u
          (hu.elim Or.inl fun h => Or.inr ⟨h, by decide⟩)
        rw [h2, Option.some_bind]
        split
        · rename_i hk
          obtain ⟨t, ht, _⟩ := call .expression (advance s2)
            (Or.inl (remaining_advance_of hk (by decide)
              (hu.elim (fun h => by omega) fun h => by omega)))
          exact ⟨t, ht⟩
        · exact ⟨s2, rfl⟩
      simp only [body]
      split
      · rename_i hk
        obtain ⟨t, ht, _⟩ := call _ (advance s)
          (Or.inl (remaining_advance_of hk (by decide) le0))
        exact ⟨t, ht⟩
      · rename_i hk
        have h0 := remaining_advance_of hk (by decide) le0
        obtain ⟨s1, h1, m1⟩ := call .expression (advance s) (Or.inl h0)
        rw [h1, Option.some_bind]
        have m2 := pnt .RIGHT_BRACKET s1
        split
        · obtain ⟨t, ht, _⟩ := call .expression
            (advance (parse_next_token .RIGHT_BRACKET s1))
            (Or.inl (by have := remaining_advance_le (parse_next_token .RIGHT_BRACKET s1); omega))
          exact ⟨t, ht⟩
        · exact tail _ (Or.inl (by omega))
      · rename_i hk
        obtain ⟨t, ht, _⟩ := call _ (advance s)
          (Or.inl (remaining_advance_of hk (by decide) le0))
        exact ⟨t, ht⟩
      · exact tail _ (Or.inr le0)
    | lvalue_suffixes =>
      simp only [body]
      split
      · rename_i hk
        have h0 := remaining_advance_of hk (by decide) le0
        obtain ⟨t, ht, _⟩ := call .lvalue_suffixes (parse_next_token .IDENTIFIER (advance s))
          (Or.inl (by have := pnt .IDENTIFIER (advance s); omega))
        exact ⟨t, ht⟩
      · rename_i hk
        have h0 := remaining_advance_of hk (by decide) le0
        obtain ⟨s1, h1, m1⟩ := call .expression (advance s) (Or.inl h0)
        rw [h1, Option.some_bind]
        obtain ⟨t, ht, _⟩ := call .lvalue_suffixes (parse_next_token .RIGHT_BRACKET s1)
          (Or.inl (by have := pnt .RIGHT_BRACKET s1; omega))
        exact ⟨t, ht⟩
      · exact ⟨s, rfl⟩
    | if_rest =>
      simp only [body]
      obtain ⟨s1, h1, m1⟩ := call .expression s (Or.inr ⟨le0, by decide⟩)
      rw [h1, Option.some_bind]
      have m2 := pnt .THEN_KEYWORD s1
      obtain ⟨s2, h2, m3⟩ := call .expression (parse_next_token .THEN_KEYWORD s1)
        (Or.inr ⟨by omega, by decide⟩)
      rw [h2, Option.some_bind]
      split
      · have := remaining_advance_le s2
        obtain ⟨t, ht, _⟩ := call .expression (advance s2) (Or.inr ⟨by omega, by decide⟩)
        exact ⟨t, ht⟩
      · exact ⟨s2, rfl⟩
    | while_rest =>
      simp only [body]
      obtain ⟨s1, h1, m1⟩ := call .expression s (Or.inr ⟨le0, by decide⟩)
      rw [h1, Option.some_bind]
      have m2 := pnt .DO_KEYWORD s1
      obtain ⟨t, ht, _⟩ := call .expression (parse_next_token .DO_KEYWORD s1)
        (Or.inr ⟨by omega, by decide⟩)
      exact ⟨t, ht⟩
    | for_rest =>
      simp only [body]
      have a1 := pnt .IDENTIFIER s
      have a2 := pnt .ASSIGNMENT (parse_next_token .IDENTIFIER s)
      obtain ⟨s1, h1, m1⟩ := call .expression
        (parse_next_token .ASSIGNMENT (parse_next_token .IDENTIFIER s))
        (Or.inr ⟨by omega, by decide⟩)
      rw [h1, Option.some_bind]
      have m2 := pnt .TO_KEYWORD s1
      obtain ⟨s2, h2, m3⟩ := call .expression (parse_next_token .TO_KEYWORD s1)
        (Or.inr ⟨by omega, by decide⟩)
      rw [h2, Option.some_bind]
      have m4 := pnt .DO_KEYWORD s2
      obtain ⟨t, ht, _⟩ := call .expression (parse_next_token .DO_KEYWORD s2)
        (Or.inr ⟨by omega, by decide⟩)
      exact ⟨t, ht⟩
    | let_rest =>
      simp only [body]
      split
      · have := remaining_advance_le (print_error s.current_token.line
          s.current_token.column "empty declaration list" s)
        have e := remaining_print_error s.current_token.line s.current_token.column
          "empty declaration list" s
        obtain ⟨t, ht, _⟩ := call (.series .expression_sequence .END_KEYWORD)
          (advance (print_error s.current_token.line s.current_token.column
            "empty declaration list" s)) (Or.inr ⟨by omega, by decide⟩)
        exact ⟨t, ht⟩
      · obtain ⟨s1, h1, m1⟩ := call .declaration_list s (Or.inr ⟨le0, by decide⟩)
        rw [h1, Option.some_bind]
        have m2 := pnt .IN_KEYWORD s1
        obtain ⟨t, ht, _⟩ := call (.series .expression_sequence .END_KEYWORD)
          (parse_next_token .IN_KEYWORD s1) (Or.inr ⟨by omega, by decide⟩)
        exact ⟨t, ht⟩
    | elements k =>
      simp only [body]
      obtain ⟨s1, h1, m1⟩ := call k.item s (Or.inr ⟨le0, by cases k <;> decide⟩)
      rw [h1, Option.some_bind]
      split
      · rename_i hk
        obtain ⟨t, ht, _⟩ := call (.elements k) (advance s1)
          (Or.inl (remaining_advance_of hk (separator_ne_none k) m1))
        exact ⟨t, ht⟩
      · exact ⟨s1, rfl⟩
    | series k e =>
      simp only [body]
      split
      · exact ⟨_, rfl⟩
      · obtain ⟨s1, h1, m1⟩ := call (.elements k) s
          (Or.inr ⟨le0, by simp [nonterminal.rank]⟩)
        rw [h1, Option.some_bind]
        exact ⟨_, rfl⟩
    | field =>
      simp only [body]
      have a1 := pnt .IDENTIFIER s
      have a2 := pnt .EQUAL (parse_next_token .IDENTIFIER s)
      obtain ⟨t, ht, _⟩ := call .expression
        (parse_next_token .EQUAL (parse_next_token .IDENTIFIER s))
        (Or.inr ⟨by omega, by decide⟩)
      exact ⟨t, ht⟩
    | type_field => exact ⟨_, rfl⟩
    | type_definition =>
      simp only [body]
      split
      · rename_i hk
        obtain ⟨t, ht, _⟩ := call _ (advance s)
          (Or.inl (remaining_advance_of hk (by decide) le0))
        exact ⟨t, ht⟩
      all_goals exact ⟨_, rfl⟩
    | type_declaration =>
      simp only [body]
      have a1 := pnt .TYPE_KEYWORD s
      have a2 := pnt .IDENTIFIER (parse_next_token .TYPE_KEYWORD s)
      have a3 := pnt .EQUAL (parse_next_token .IDENTIFIER (parse_next_token .TYPE_KEYWORD s))
      obtain ⟨t, ht, _⟩ := call .type_definition
        (parse_next_token .EQUAL (parse_next_token .IDENTIFIER
          (parse_next_token .TYPE_KEYWORD s)))
        (Or.inr ⟨by omega, by decide⟩)
      exact ⟨t, ht⟩
    | variable_declaration =>
      simp only [body]
      have a1 := pnt .VAR_KEYWORD s
      have a2 := pnt .IDENTIFIER (parse_next_token .VAR_KEYWORD s)
      have a3 := tsp (parse_next_token .IDENTIFIER (parse_next_token .VAR_KEYWORD s))
      have a4 := pnt .ASSIGNMENT (parse_type_specifier
        (parse_next_token .IDENTIFIER (parse_next_token .VAR_KEYWORD s)))
      obtain ⟨t, ht, _⟩ := call .expression
        (parse_next_token .ASSIGNMENT (parse_type_specifier
          (parse_next_token .IDENTIFIER (parse_next_token .VAR_KEYWORD s))))
        (Or.inr ⟨by omega, by decide⟩)
      exact ⟨t, ht⟩
    | function_declaration =>
      simp only [body]
      have a1 := pnt .FUNCTION_KEYWORD s
      have a2 := pnt .IDENTIFIER (parse_next_token .FUNCTION_KEYWORD s)
      have a3 := pnt .LEFT_PARENTHESIS (parse_next_token .IDENTIFIER
        (parse_next_token .FUNCTION_KEYWORD s))
      obtain ⟨s1, h1, m1⟩ := call (.series .type_fields .RIGHT_PARENTHESIS)
        (parse_next_token .LEFT_PARENTHESIS (parse_next_token .IDENTIFIER
          (parse_next_token .FUNCTION_KEYWORD s)))
        (Or.inr ⟨by omega, by decide⟩)
      rw [h1, Option.some_bind]
      have a4 := tsp s1
      have a5 := pnt .EQUAL (parse_type_specifier s1)
      obtain ⟨t, ht, _⟩ := call .expression
        (parse_next_token .EQUAL (parse_type_specifier s1))
        (Or.inr ⟨by omega, by decide⟩)
      exact ⟨t, ht⟩
    | declaration_list =>
      simp only [body]
      split
      · rename_i hk
        obtain ⟨s1, h1, _⟩ := call .type_declaration s (Or.inr ⟨le0, by decide⟩)
        rw [h1, Option.some_bind]
        obtain ⟨t, ht, _⟩ := call .declaration_list s1
          (Or.inl (declaration_consumes (Or.inl ⟨rfl, rfl⟩) hk h1))
        exact ⟨t, ht⟩
      · rename_i hk
        obtain ⟨s1, h1, _⟩ := call .variable_declaration s (Or.inr ⟨le0, by decide⟩)
        rw [h1, Option.some_bind]
        obtain ⟨t, ht, _⟩ := call .declaration_list s1
          (Or.inl (declaration_consumes (Or.inr (Or.inl ⟨rfl, rfl⟩)) hk h1))
        exact ⟨t, ht⟩
      · rename_i hk
        obtain ⟨s1, h1, _⟩ := call .function_declaration s (Or.inr ⟨le0, by decide⟩)
        rw [h1, Option.some_bind]
        obtain ⟨t, ht, _⟩ := call .declaration_list s1
          (Or.inl (declaration_consumes (Or.inr (Or.inr ⟨rfl, rfl⟩)) hk h1))
        exact ⟨t, ht⟩
      · exact ⟨s, rfl⟩

/-! ## Diagnostics and silent runs -/

@[simp] theorem diagnostics_advance (s : parser) : diagnostics (advance s) = diagnostics s := by
  simp [diagnostics, advance]

@[simp] theorem diagnostics_print_error (l c : Nat) (m : String) (s : parser) :
    diagnostics (print_error l c m s) = diagnostics s ++ [event.print_error l c m] := by
  simp [diagnostics, print_error]

@[simp] theorem errors_advance (s : parser) : errors (advance s) = errors s := by
  simp [errors]

@[simp] theorem errors_print_error (l c : Nat) (m : String) (s : parser) :
    errors (print_error l c m s) = errors s + 1 := by
  simp [errors]

theorem diagnostics_steps {s t : parser} (h : steps s t) :
    ∃ l, diagnostics t = diagnostics s ++ l := by
  induction h with
  | refl => exact ⟨[], by simp⟩
  | tail _ h2 ih =>
    obtain ⟨l, hl⟩ := ih
    cases h2 with
    | fetch _ => exact ⟨l, by simp [hl]⟩
    | report m hm =>
      rename_i b _
      exact ⟨l ++ [event.print_error b.current_token.line b.current_token.column m],
        by simp [hl]⟩

theorem errors_steps {s t : parser} (h : steps s t) : errors s ≤ errors t := by
  obtain ⟨l, hl⟩ := diagnostics_steps h
  simp [errors, hl]

theorem diagnostics_eq_of_errors {s t : parser} (h : steps s t) (he : errors t = errors s) :
    diagnostics t = diagnostics s := by
  obtain ⟨l, hl⟩ := diagnostics_steps h
  have : l = [] := by
    apply List.eq_nil_of_length_eq_zero
    have := congrArg List.length hl
    simp only [errors, List.length_append] at he this
    omega
  simp [hl, this]

theorem parse_next_token_cases (k : token_kind) (x : parser) :
    (x.current_token.name = k ∧ parse_next_token k x = advance x) ∨
      (x.current_token.name ≠ k ∧ errors (parse_next_token k x) = errors x + 1) := by
  by_cases h : x.current_token.name = k
  · exact Or.inl ⟨h, parse_next_token_match h⟩
  · exact Or.inr ⟨h, by rw [parse_next_token_mismatch h]; simp⟩

theorem consume_cons {k : token_kind} {w : List token_kind} {s t : parser}
    (hk : s.current_token.name = k) (h : consume w (advance s) = some t) :
    consume (k :: w) s = some t := by
  simp [consume, hk, h]

theorem consume_append {w v : List token_kind} {s x t : parser}
    (h1 : consume w s = some x) (h2 : consume v x = some t) :
    consume (w ++ v) s = some t := by
  induction w generalizing s with
  | nil => simp only [consume, Option.some.injEq] at h1; subst h1; exact h2
  | cons k w ih =>
    simp only [consume] at h1
    split at h1
    · rename_i hk
      simp only [List.cons_append, consume, hk, if_true]
      exact ih h1
    · simp at h1

theorem consume_cons_inv {k : token_kind} {w : List token_kind} {s t : parser}
    (h : consume (k :: w) s = some t) :
    s.current_token.name = k ∧ consume w (advance s) = some t := by
  simp only [consume] at h
  split at h
  · rename_i hk; exact ⟨hk, h⟩
  · simp at h

theorem consume_append_inv {w v : List token_kind} {s t : parser}
    (h : consume (w ++ v) s = some t) :
    ∃ x, consume w s = some x ∧ consume v x = some t := by
  induction w generalizing s with
  | nil => exact ⟨s, rfl, h⟩
  | cons k w ih =>
    obtain ⟨hk, h2⟩ := consume_cons_inv h
    obtain ⟨x, hx, hv⟩ := ih h2
    exact ⟨x, consume_cons hk hx, hv⟩

theorem errors_consume {w : List token_kind} {s t : parser} (h : consume w s = some t) :
    errors t = errors s := by
  induction w generalizing s with
  | nil => simp only [consume, Option.some.injEq] at h; subst h; rfl
  | cons k w ih =>
    obtain ⟨_, h2⟩ := consume_cons_inv h
    rw [ih h2, errors_advance]

theorem errors_parse_next_token (k : token_kind) (x : parser) :
    errors x ≤ errors (parse_next_token k x) := by
  unfold parse_next_token
  split <;> simp

theorem parse_next_token_quiet {k : token_kind} {x : parser}
    (h : errors (parse_next_token k x) ≤ errors x) :
    x.current_token.name = k ∧ parse_next_token k x = advance x := by
  rcases parse_next_token_cases k x with h1 | ⟨_, h2⟩
  · exact h1
  · omega

theorem errors_parse_type_specifier (x : parser) :
    errors x ≤ errors (parse_type_specifier x) :=
  errors_steps (steps_parse_type_specifier (steps_refl x))

theorem parse_type_specifier_quiet {x : parser}
    (h : errors (parse_type_specifier x) ≤ errors x) :
    (x.current_token.name = .COLON ∧ (advance x).current_token.name = .IDENTIFIER ∧
        parse_type_specifier x = advance (advance x)) ∨
      (x.current_token.name ≠ .COLON ∧ parse_type_specifier x = x) := by
  unfold parse_type_specifier at h ⊢
  split
  · rename_i hk
    simp only [hk, if_true] at h
    have := parse_next_token_quiet (k := .IDENTIFIER) (x := advance x) (by simpa using h)
    exact Or.inl ⟨hk, this⟩
  · rename_i hk
    exact Or.inr ⟨hk, rfl⟩

/-! ## Soundness: a silent run reads a phrase of the grammar -/

/-- If the silent runs of the routines called read phrases of their rules, so do the
silent runs of the body of each routine. -/
theorem body_sound {c : nonterminal → parser → Option parser}
    (hc : ∀ r s t, c r s = some t → steps s t)
    (hg : ∀ r s t, c r s = some t → errors t = errors s →
      ∃ w, derives r w ∧ consume w s = some t) :
    ∀ r s t, body c r s = some t → errors t = errors s →
      ∃ w, derives r w ∧ consume w s = some t := by
  have le : ∀ {r u x}, c r u = some x → errors u ≤ errors x :=
    fun h => errors_steps (hc _ _ _ h)
  have pnt := errors_parse_next_token
  have tsp := errors_parse_type_specifier
  intro r s t h hq
  cases r with
  | expression =>
    obtain ⟨w, d, e⟩ := hg _ _ _ h hq
    exact ⟨w, derives.expression d, e⟩
  | binary l =>
    simp only [body, Option.bind_eq_some] at h
    obtain ⟨s1, h1, h2⟩ := h
    have e1 := le h1
    split at h2
    · rename_i hop
      have e2 := le h2
      simp only [errors_advance] at e2
      obtain ⟨w1, d1, c1⟩ := hg _ _ _ h1 (by omega)
      obtain ⟨w2, d2, c2⟩ := hg _ _ _ h2 (by simp only [errors_advance]; omega)
      exact ⟨w1 ++ s1.current_token.name :: w2, derives.chain d1 hop d2,
        consume_append c1 (consume_cons rfl c2)⟩
    · simp only [Option.some.injEq] at h2
      subst h2
      obtain ⟨w1, d1, c1⟩ := hg _ _ _ h1 hq
      exact ⟨w1, derives.operand d1, c1⟩
  | primary =>
    simp only [body] at h
    split at h
    case h_12 => simp only [Option.some.injEq] at h; subst h; simp at hq
    all_goals rename_i hk
    case h_1 | h_2 | h_3 | h_4 =>
      simp only [Option.some.injEq] at h
      subst h
      exact ⟨[_], derives.atom (by simp [token_kind.atom]), consume_cons hk rfl⟩
    all_goals
      have e1 := le h
      simp only [errors_advance] at e1
      obtain ⟨w, d, e⟩ := hg _ _ _ h (by simp only [errors_advance]; omega)
    · exact ⟨_ :: w, derives.negation d, consume_cons hk e⟩
    · exact ⟨_ :: w, derives.parenthesized d, consume_cons hk e⟩
    · exact ⟨_ :: w, derives.conditional d, consume_cons hk e⟩
    · exact ⟨_ :: w, derives.while_loop d, consume_cons hk e⟩
    · exact ⟨_ :: w, derives.for_loop d, consume_cons hk e⟩
    · exact ⟨_ :: w, derives.let_block d, consume_cons hk e⟩
    · exact ⟨_ :: w, derives.identifier d, consume_cons hk e⟩
  | identifier_rest =>
    have tail : ∀ u, ((c .lvalue_suffixes u).bind fun s2 =>
        if s2.current_token.name = .ASSIGNMENT then c .expression (advance s2)
        else some s2) = some t → errors t = errors u →
        ∃ w1, derives .lvalue_suffixes w1 ∧ (consume w1 u = some t ∨
          ∃ w2, derives .expression w2 ∧ consume (w1 ++ .ASSIGNMENT :: w2) u = some t) := by
      intro u hu hqu
      simp only [Option.bind_eq_some] at hu
      obtain ⟨s2, h2, h3⟩ := hu
      have e2 := le h2
      split at h3
      · rename_i hk
        have e3 := le h3
        simp only [errors_advance] at e3
        obtain ⟨w1, d1, c1⟩ := hg _ _ _ h2 (by omega)
        obtain ⟨w2, d2, c2⟩ := hg _ _ _ h3 (by simp only [errors_advance]; omega)
        exact ⟨w1, d1, Or.inr ⟨w2, d2, consume_append c1 (consume_cons hk c2)⟩⟩
      · simp only [Option.some.injEq] at h3
        subst h3
        obtain ⟨w1, d1, c1⟩ := hg _ _ _ h2 hqu
        exact ⟨w1, d1, Or.inl c1⟩
    simp only [body] at h
    split at h
    · rename_i hk
      have e1 := le h
      simp only [errors_advance] at e1
      obtain ⟨w, d, e⟩ := hg _ _ _ h (by simp only [errors_advance]; omega)
      exact ⟨_ :: w, derives.record d, consume_cons hk e⟩
    · rename_i hk
      simp only [Option.bind_eq_some] at h
      obtain ⟨s1, h1, h2⟩ := h
      have e1 := le h1
      simp only [errors_advance] at e1
      have p1 := pnt .RIGHT_BRACKET s1
      split at h2
      · rename_i hof
        have e2 := le h2
        simp only [errors_advance] at e2
        obtain ⟨k1, q1⟩ := parse_next_token_quiet (k := .RIGHT_BRACKET) (x := s1) (by omega)
        rw [q1] at h2 hof
        obtain ⟨w1, d1, c1⟩ := hg _ _ _ h1 (by simp only [errors_advance]; omega)
        obtain ⟨w2, d2, c2⟩ := hg _ _ _ h2
          (by rw [q1] at e2; simp only [errors_advance] at e2 ⊢; omega)
        exact ⟨.LEFT_BRACKET :: (w1 ++ .RIGHT_BRACKET :: .OF_KEYWORD :: w2),
          derives.array d1 d2,
          consume_cons hk (consume_append c1 (consume_cons k1 (consume_cons hof c2)))⟩
      · have e2 : errors (parse_next_token .RIGHT_BRACKET s1) ≤ errors t := by
          simp only [Option.bind_eq_some] at h2
          obtain ⟨s2, h3, h4⟩ := h2
          have e3 := le h3
          split at h4
          · have e4 := le h4
            simp only [errors_advance] at e4
            omega
          · simp only [Option.some.injEq] at h4
            subst h4
            exact e3
        obtain ⟨k1, q1⟩ := parse_next_token_quiet (k := .RIGHT_BRACKET) (x := s1) (by omega)
        rw [q1] at h2 e2
        simp only [errors_advance] at e2
        obtain ⟨w1, d1, c1⟩ := hg _ _ _ h1 (by simp only [errors_advance]; omega)
        obtain ⟨w2, d2, c2 | ⟨w3, d3, c3⟩⟩ := tail _ h2 (by simp only [errors_advance]; omega)
        · exact ⟨_, derives.lvalue (derives.index_suffix d1 d2),
            consume_cons hk (consume_append c1 (consume_cons k1 c2))⟩
        · refine ⟨_, derives.assignment (derives.index_suffix d1 d2) d3, ?_⟩
          have := consume_cons hk (consume_append c1 (consume_cons k1 c3))
          simpa using this
    · rename_i hk
      have e1 := le h
      simp only [errors_advance] at e1
      obtain ⟨w, d, e⟩ := hg _ _ _ h (by simp only [errors_advance]; omega)
      exact ⟨_ :: w, derives.call d, consume_cons hk e⟩
    · obtain ⟨w2, d2, c2 | ⟨w3, d3, c3⟩⟩ := tail s h hq
      · exact ⟨_, derives.lvalue d2, c2⟩
      · exact ⟨_, derives.assignment d2 d3, c3⟩
  | lvalue_suffixes =>
    simp only [body] at h
    split at h
    · rename_i hk
      have e1 := le h
      have p1 := pnt .IDENTIFIER (advance s)
      simp only [errors_advance] at p1
      obtain ⟨k1, q1⟩ := parse_next_token_quiet (k := .IDENTIFIER) (x := advance s)
        (by simp only [errors_advance]; omega)
      rw [q1] at h e1
      simp only [errors_advance] at e1
      obtain ⟨w, d, e⟩ := hg _ _ _ h (by simp only [errors_advance]; omega)
      exact ⟨_, derives.field_suffix d, consume_cons hk (consume_cons k1 e)⟩
    · rename_i hk
      simp only [Option.bind_eq_some] at h
      obtain ⟨s1, h1, h2⟩ := h
      have e1 := le h1
      have e2 := le h2
      simp only [errors_advance] at e1
      have p1 := pnt .RIGHT_BRACKET s1
      obtain ⟨k1, q1⟩ := parse_next_token_quiet (k := .RIGHT_BRACKET) (x := s1) (by omega)
      rw [q1] at h2 e2
      simp only [errors_advance] at e2
      obtain ⟨w1, d1, c1⟩ := hg _ _ _ h1 (by simp only [errors_advance]; omega)
      obtain ⟨w2, d2, c2⟩ := hg _ _ _ h2 (by simp only [errors_advance]; omega)
      exact ⟨_, derives.index_suffix d1 d2,
        consume_cons hk (consume_append c1 (consume_cons k1 c2))⟩
    · simp only [Option.some.injEq] at h
      subst h
      exact ⟨[], derives.no_suffix, rfl⟩
  | if_rest =>
    simp only [body, Option.bind_eq_some] at h
    obtain ⟨s1, h1, s2, h2, h3⟩ := h
    have e1 := le h1
    have e2 := le h2
    have p1 := pnt .THEN_KEYWORD s1
    split at h3
    · rename_i hk
      have e3 := le h3
      simp only [errors_advance] at e3
      obtain ⟨k1, q1⟩ := parse_next_token_quiet (k := .THEN_KEYWORD) (x := s1) (by omega)
      rw [q1] at h2 e2
      simp only [errors_advance] at e2
      obtain ⟨w1, d1, c1⟩ := hg _ _ _ h1 (by omega)
      obtain ⟨w2, d2, c2⟩ := hg _ _ _ h2 (by simp only [errors_advance]; omega)
      obtain ⟨w3, d3, c3⟩ := hg _ _ _ h3 (by simp only [errors_advance]; omega)
      exact ⟨_, derives.if_then_else d1 d2 d3,
        consume_append c1 (consume_cons k1 (consume_append c2 (consume_cons hk c3)))⟩
    · simp only [Option.some.injEq] at h3
      subst h3
      obtain ⟨k1, q1⟩ := parse_next_token_quiet (k := .THEN_KEYWORD) (x := s1) (by omega)
      rw [q1] at h2 e2
      simp only [errors_advance] at e2
      obtain ⟨w1, d1, c1⟩ := hg _ _ _ h1 (by omega)
      obtain ⟨w2, d2, c2⟩ := hg _ _ _ h2 (by simp only [errors_advance]; omega)
      exact ⟨_, derives.if_then d1 d2, consume_append c1 (consume_cons k1 c2)⟩
  | while_rest =>
    simp only [body, Option.bind_eq_some] at h
    obtain ⟨s1, h1, h2⟩ := h
    have e1 := le h1
    have e2 := le h2
    have p1 := pnt .DO_KEYWORD s1
    obtain ⟨k1, q1⟩ := parse_next_token_quiet (k := .DO_KEYWORD) (x := s1) (by omega)
    rw [q1] at h2 e2
    simp only [errors_advance] at e2
    obtain ⟨w1, d1, c1⟩ := hg _ _ _ h1 (by omega)
    obtain ⟨w2, d2, c2⟩ := hg _ _ _ h2 (by simp only [errors_advance]; omega)
    exact ⟨_, derives.while_do d1 d2, consume_append c1 (consume_cons k1 c2)⟩
  | for_rest =>
    simp only [body, Option.bind_eq_some] at h
    obtain ⟨s1, h1, s2, h2, h3⟩ := h
    have e1 := le h1
    have e2 := le h2
    have e3 := le h3
    have p1 := pnt .IDENTIFIER s
    have p2 := pnt .ASSIGNMENT (parse_next_token .IDENTIFIER s)
    have p3 := pnt .TO_KEYWORD s1
    have p4 := pnt .DO_KEYWORD s2
    obtain ⟨k1, q1⟩ := parse_next_token_quiet (k := .IDENTIFIER) (x := s) (by omega)
    rw [q1] at h1 e1 p2
    obtain ⟨k2, q2⟩ := parse_next_token_quiet (k := .ASSIGNMENT) (x := advance s)
      (by simp only [errors_advance] at *; omega)
    rw [q2] at h1 e1
    obtain ⟨k3, q3⟩ := parse_next_token_quiet (k := .TO_KEYWORD) (x := s1)
      (by simp only [errors_advance] at *; omega)
    rw [q3] at h2 e2
    obtain ⟨k4, q4⟩ := parse_next_token_quiet (k := .DO_KEYWORD) (x := s2)
      (by simp only [errors_advance] at *; omega)
    rw [q4] at h3 e3
    simp only [errors_advance] at e1 e2 e3
    obtain ⟨w1, d1, c1⟩ := hg _ _ _ h1 (by simp only [errors_advance]; omega)
    obtain ⟨w2, d2, c2⟩ := hg _ _ _ h2 (by simp only [errors_advance]; omega)
    obtain ⟨w3, d3, c3⟩ := hg _ _ _ h3 (by simp only [errors_advance]; omega)
    exact ⟨_, derives.for_to_do d1 d2 d3,
      consume_cons k1 (consume_cons k2 (consume_append c1 (consume_cons k3
        (consume_append c2 (consume_cons k4 c3)))))⟩
  | let_rest =>
    simp only [body] at h
    split at h
    · have e1 := le h
      simp only [errors_advance, errors_print_error] at e1
      omega
    · rename_i hk
      simp only [Option.bind_eq_some] at h
      obtain ⟨s1, h1, h2⟩ := h
      have e1 := le h1
      have e2 := le h2
      have p1 := pnt .IN_KEYWORD s1
      obtain ⟨k1, q1⟩ := parse_next_token_quiet (k := .IN_KEYWORD) (x := s1) (by omega)
      rw [q1] at h2 e2
      simp only [errors_advance] at e2
      obtain ⟨w1, d1, c1⟩ := hg _ _ _ h1 (by omega)
      obtain ⟨w2, d2, c2⟩ := hg _ _ _ h2 (by simp only [errors_advance]; omega)
      refine ⟨_, derives.let_in d1 ?_ d2, consume_append c1 (consume_cons k1 c2)⟩
      intro hw
      subst hw
      simp only [consume, Option.some.injEq] at c1
      subst c1
      exact hk k1
  | elements k =>
    simp only [body, Option.bind_eq_some] at h
    obtain ⟨s1, h1, h2⟩ := h
    have e1 := le h1
    split at h2
    · rename_i hk
      have e2 := le h2
      simp only [errors_advance] at e2
      obtain ⟨w1, d1, c1⟩ := hg _ _ _ h1 (by omega)
      obtain ⟨w2, d2, c2⟩ := hg _ _ _ h2 (by simp only [errors_advance]; omega)
      exact ⟨_, derives.more_elements d1 d2, consume_append c1 (consume_cons hk c2)⟩
    · simp only [Option.some.injEq] at h2
      subst h2
      obtain ⟨w1, d1, c1⟩ := hg _ _ _ h1 hq
      exact ⟨w1, derives.one_element d1, c1⟩
  | series k e =>
    simp only [body] at h
    split at h
    · rename_i hk
      simp only [Option.some.injEq] at h
      subst h
      exact ⟨[e.kind], derives.empty_series, consume_cons hk rfl⟩
    · simp only [Option.bind_eq_some, Option.some.injEq] at h
      obtain ⟨s1, h1, h2⟩ := h
      subst h2
      have e1 := le h1
      have p1 := pnt e.kind s1
      obtain ⟨k1, q1⟩ := parse_next_token_quiet (k := e.kind) (x := s1) (by omega)
      obtain ⟨w1, d1, c1⟩ := hg _ _ _ h1 (by omega)
      exact ⟨_, derives.full_series d1, consume_append c1 (consume_cons k1 (by rw [q1]; rfl))⟩
  | field =>
    simp only [body] at h
    have e1 := le h
    have p1 := pnt .IDENTIFIER s
    have p2 := pnt .EQUAL (parse_next_token .IDENTIFIER s)
    obtain ⟨k1, q1⟩ := parse_next_token_quiet (k := .IDENTIFIER) (x := s) (by omega)
    rw [q1] at h e1 p2
    obtain ⟨k2, q2⟩ := parse_next_token_quiet (k := .EQUAL) (x := advance s)
      (by simp only [errors_advance] at *; omega)
    rw [q2] at h e1
    simp only [errors_advance] at e1
    obtain ⟨w1, d1, c1⟩ := hg _ _ _ h (by simp only [errors_advance]; omega)
    exact ⟨_, derives.field d1, consume_cons k1 (consume_cons k2 c1)⟩
  | type_field =>
    simp only [body, Option.some.injEq] at h
    subst h
    have p1 := pnt .IDENTIFIER s
    have p2 := pnt .COLON (parse_next_token .IDENTIFIER s)
    have p3 := pnt .IDENTIFIER (parse_next_token .COLON (parse_next_token .IDENTIFIER s))
    obtain ⟨k1, q1⟩ := parse_next_token_quiet (k := .IDENTIFIER) (x := s) (by omega)
    rw [q1] at hq p2 p3 ⊢
    obtain ⟨k2, q2⟩ := parse_next_token_quiet (k := .COLON) (x := advance s)
      (by simp only [errors_advance] at *; omega)
    rw [q2] at hq p3 ⊢
    obtain ⟨k3, q3⟩ := parse_next_token_quiet (k := .IDENTIFIER) (x := advance (advance s))
      (by simp only [errors_advance] at *; omega)
    rw [q3]
    exact ⟨_, derives.type_field, consume_cons k1 (consume_cons k2 (consume_cons k3 rfl))⟩
  | type_definition =>
    simp only [body] at h
    split at h
    · rename_i hk
      have e1 := le h
      simp only [errors_advance] at e1
      obtain ⟨w, d, e⟩ := hg _ _ _ h (by simp only [errors_advance]; omega)
      exact ⟨_ :: w, derives.record_type d, consume_cons hk e⟩
    · rename_i hk
      simp only [Option.some.injEq] at h
      subst h
      have p1 := pnt .OF_KEYWORD (advance s)
      have p2 := pnt .IDENTIFIER (parse_next_token .OF_KEYWORD (advance s))
      obtain ⟨k1, q1⟩ := parse_next_token_quiet (k := .OF_KEYWORD) (x := advance s)
        (by simp only [errors_advance] at *; omega)
      rw [q1] at hq p2 ⊢
      obtain ⟨k2, q2⟩ := parse_next_token_quiet (k := .IDENTIFIER) (x := advance (advance s))
        (by simp only [errors_advance] at *; omega)
      rw [q2]
      exact ⟨_, derives.array_type, consume_cons hk (consume_cons k1 (consume_cons k2 rfl))⟩
    · rename_i hk
      simp only [Option.some.injEq] at h
      subst h
      exact ⟨_, derives.alias_type, consume_cons hk rfl⟩
    · simp only [Option.some.injEq] at h
      subst h
      simp at hq
  | type_declaration =>
    simp only [body] at h
    have e1 := le h
    have p1 := pnt .TYPE_KEYWORD s
    have p2 := pnt .IDENTIFIER (parse_next_token .TYPE_KEYWORD s)
    have p3 := pnt .EQUAL (parse_next_token .IDENTIFIER (parse_next_token .TYPE_KEYWORD s))
    obtain ⟨k1, q1⟩ := parse_next_token_quiet (k := .TYPE_KEYWORD) (x := s) (by omega)
    rw [q1] at h e1 p2 p3
    obtain ⟨k2, q2⟩ := parse_next_token_quiet (k := .IDENTIFIER) (x := advance s)
      (by simp only [errors_advance] at *; omega)
    rw [q2] at h e1 p3
    obtain ⟨k3, q3⟩ := parse_next_token_quiet (k := .EQUAL) (x := advance (advance s))
      (by simp only [errors_advance] at *; omega)
    rw [q3] at h e1
    simp only [errors_advance] at e1
    obtain ⟨w1, d1, c1⟩ := hg _ _ _ h (by simp only [errors_advance]; omega)
    exact ⟨_, derives.type_declaration d1,
      consume_cons k1 (consume_cons k2 (consume_cons k3 c1))⟩
  | variable_declaration =>
    simp only [body] at h
    have e1 := le h
    have p1 := pnt .VAR_KEYWORD s
    have p2 := pnt .IDENTIFIER (parse_next_token .VAR_KEYWORD s)
    have p3 := tsp (parse_next_token .IDENTIFIER (parse_next_token .VAR_KEYWORD s))
    have p4 := pnt .ASSIGNMENT (parse_type_specifier
      (parse_next_token .IDENTIFIER (parse_next_token .VAR_KEYWORD s)))
    obtain ⟨k1, q1⟩ := parse_next_token_quiet (k := .VAR_KEYWORD) (x := s) (by omega)
    rw [q1] at h e1 p2 p3 p4
    obtain ⟨k2, q2⟩ := parse_next_token_quiet (k := .IDENTIFIER) (x := advance s)
      (by simp only [errors_advance] at *; omega)
    rw [q2] at h e1 p3 p4
    rcases parse_type_specifier_quiet (x := advance (advance s))
      (by simp only [errors_advance] at *; omega) with ⟨k3, k4, q3⟩ | ⟨k3, q3⟩
    · rw [q3] at h e1 p4
      obtain ⟨k5, q5⟩ := parse_next_token_quiet (k := .ASSIGNMENT)
        (x := advance (advance (advance (advance s))))
        (by simp only [errors_advance] at *; omega)
      rw [q5] at h e1
      simp only [errors_advance] at e1
      obtain ⟨w1, d1, c1⟩ := hg _ _ _ h (by simp only [errors_advance]; omega)
      exact ⟨_, derives.typed_variable d1, consume_cons k1 (consume_cons k2
        (consume_cons k3 (consume_cons k4 (consume_cons k5 c1))))⟩
    · rw [q3] at h e1 p4
      obtain ⟨k5, q5⟩ := parse_next_token_quiet (k := .ASSIGNMENT)
        (x := advance (advance s)) (by simp only [errors_advance] at *; omega)
      rw [q5] at h e1
      simp only [errors_advance] at e1
      obtain ⟨w1, d1, c1⟩ := hg _ _ _ h (by simp only [errors_advance]; omega)
      exact ⟨_, derives.untyped_variable d1, consume_cons k1 (consume_cons k2
        (consume_cons k5 c1))⟩
  | function_declaration =>
    simp only [body, Option.bind_eq_some] at h
    obtain ⟨s1, h1, h2⟩ := h
    have e1 := le h1
    have e2 := le h2
    have p1 := pnt .FUNCTION_KEYWORD s
    have p2 := pnt .IDENTIFIER (parse_next_token .FUNCTION_KEYWORD s)
    have p3 := pnt .LEFT_PARENTHESIS
      (parse_next_token .IDENTIFIER (parse_next_token .FUNCTION_KEYWORD s))
    have p4 := tsp s1
    have p5 := pnt .EQUAL (parse_type_specifier s1)
    obtain ⟨k1, q1⟩ := parse_next_token_quiet (k := .FUNCTION_KEYWORD) (x := s) (by omega)
    rw [q1] at h1 e1 p2 p3
    obtain ⟨k2, q2⟩ := parse_next_token_quiet (k := .IDENTIFIER) (x := advance s)
      (by simp only [errors_advance] at *; omega)
    rw [q2] at h1 e1 p3
    obtain ⟨k3, q3⟩ := parse_next_token_quiet (k := .LEFT_PARENTHESIS)
      (x := advance (advance s)) (by simp only [errors_advance] at *; omega)
    rw [q3] at h1 e1
    simp only [errors_advance] at e1
    obtain ⟨w1, d1, c1⟩ := hg _ _ _ h1 (by simp only [errors_advance]; omega)
    rcases parse_type_specifier_quiet (x := s1) (by omega) with ⟨k4, k5, q4⟩ | ⟨k4, q4⟩
    · rw [q4] at h2 e2 p5
      obtain ⟨k6, q6⟩ := parse_next_token_quiet (k := .EQUAL) (x := advance (advance s1))
        (by simp only [errors_advance] at *; omega)
      rw [q6] at h2 e2
      simp only [errors_advance] at e2
      obtain ⟨w2, d2, c2⟩ := hg _ _ _ h2 (by simp only [errors_advance]; omega)
      exact ⟨_, derives.typed_function d1 d2, consume_cons k1 (consume_cons k2
        (consume_cons k3 (consume_append c1 (consume_cons k4 (consume_cons k5
          (consume_cons k6 c2))))))⟩
    · rw [q4] at h2 e2 p5
      obtain ⟨k6, q6⟩ := parse_next_token_quiet (k := .EQUAL) (x := s1)
        (by simp only [errors_advance] at *; omega)
      rw [q6] at h2 e2
      simp only [errors_advance] at e2
      obtain ⟨w2, d2, c2⟩ := hg _ _ _ h2 (by simp only [errors_advance]; omega)
      exact ⟨_, derives.untyped_function d1 d2, consume_cons k1 (consume_cons k2
        (consume_cons k3 (consume_append c1 (consume_cons k6 c2))))⟩
  | declaration_list =>
    simp only [body] at h
    split at h
    case h_4 =>
      simp only [Option.some.injEq] at h
      subst h
      exact ⟨[], derives.no_declaration, rfl⟩
    all_goals
      simp only [Option.bind_eq_some] at h
      obtain ⟨s1, h1, h2⟩ := h
      have e1 := le h1
      have e2 := le h2
      obtain ⟨w1, d1, c1⟩ := hg _ _ _ h1 (by omega)
      obtain ⟨w2, d2, c2⟩ := hg _ _ _ h2 (by omega)
    · exact ⟨_, derives.type_first d1 d2, consume_append c1 c2⟩
    · exact ⟨_, derives.variable_first d1 d2, consume_append c1 c2⟩
    · exact ⟨_, derives.function_first d1 d2, consume_append c1 c2⟩

/-- A run without diagnostics reads a phrase of the rule of the routine. -/
theorem run_sound : ∀ (n : Nat) (r : nonterminal) (s t : parser),
    run r n s = some t → errors t = errors s →
    ∃ w, derives r w ∧ consume w s = some t := by
  intro n
  induction n with
  | zero => intro r s t h; simp [run_zero] at h
  | succ n ih =>
    intro r s t h
    rw [run_succ] at h
    exact body_sound (run_steps n) ih r s t h

/-! ## The parser stays within the token stream -/

theorem within_step {ts : List token} {eof : token} {s t : parser}
    (heof : eof.name = .NONE)
    (hs : within (ts ++ [eof]) s) (h : step s t) :
    within (ts ++ [eof]) t ∧
      ∀ e ∈ diagnostics t, e ∈ diagnostics s ∨ located (ts ++ [eof]) e := by
  obtain ⟨before, hb⟩ := hs
  cases h with
  | fetch hne =>
    refine ⟨?_, fun e he => Or.inl (by simpa using he)⟩
    cases hsf : s.source_file with
    | nil =>
      exfalso
      rw [hsf] at hb
      have := List.append_inj' hb rfl
      simp only [List.cons.injEq, and_true] at this
      exact hne (by rw [this.2]; exact heof)
    | cons a rest =>
      refine ⟨before ++ [s.current_token], ?_⟩
      rw [hsf] at hb
      simp [advance, get_token, hsf, ← hb]
  | report m hm =>
    refine ⟨⟨before, hb⟩, fun e he => ?_⟩
    simp only [diagnostics_print_error, List.mem_append, List.mem_singleton] at he
    rcases he with he | he
    · exact Or.inl he
    · refine Or.inr ?_
      subst he
      exact ⟨s.current_token, by rw [← hb]; simp, rfl, rfl⟩

theorem within_steps {ts : List token} {eof : token} {s t : parser}
    (heof : eof.name = .NONE)
    (hs : within (ts ++ [eof]) s) (h : steps s t) :
    within (ts ++ [eof]) t ∧
      ∀ e ∈ diagnostics t, e ∈ diagnostics s ∨ located (ts ++ [eof]) e := by
  induction h with
  | refl => exact ⟨hs, fun e he => Or.inl he⟩
  | tail _ h2 ih =>
    obtain ⟨w1, d1⟩ := ih
    obtain ⟨w2, d2⟩ := within_step heof w1 h2
    refine ⟨w2, fun e he => ?_⟩
    rcases d2 e he with h3 | h3
    · exact d1 e h3
    · exact Or.inr h3

theorem start_within (file : source_file) (hf : file ≠ []) : within file (start file) := by
  cases file with
  | nil => exact absurd rfl hf
  | cons a rest => exact ⟨[], rfl⟩

theorem diagnostics_start (file : source_file) : diagnostics (start file) = [] := by
  simp [start, diagnostics, advance, program_allocate, init_type_check]

/-- No phrase of the grammar contains the end-of-input tag. -/
theorem derives_ne_none {r : nonterminal} {w : List token_kind} (h : derives r w) :
    token_kind.NONE ∉ w := by
  induction h with
  | atom hk =>
    rename_i k
    simp only [List.mem_singleton]
    intro e
    rw [← e] at hk
    simp [token_kind.atom] at hk
  | chain _ hop _ ih1 ih2 =>
    have := operator_ne_none hop
    simp only [List.mem_append, List.mem_cons, not_or]
    exact ⟨ih1, fun e => this e.symm, ih2⟩
  | @more_elements k _ _ _ _ ih1 ih2 =>
    have := separator_ne_none k
    simp only [List.mem_append, List.mem_cons, not_or]
    exact ⟨ih1, fun e => this e.symm, ih2⟩
  | empty_series =>
    rename_i k e
    have := terminator_ne_none e
    simp only [List.mem_singleton]
    exact fun h => this h.symm
  | @full_series k e _ _ ih =>
    have := terminator_ne_none e
    simp only [List.mem_append, List.mem_singleton, not_or]
    exact ⟨ih, fun h => this h.symm⟩
  | _ => simp_all

/-- A phrase read from a stream up to its end-of-input token is the whole stream. -/
theorem consume_stream {w : List token_kind} {s t : parser} {us : List token} {eof : token}
    (hs : s.current_token :: s.source_file = us ++ [eof])
    (hus : ∀ u ∈ us, u.name ≠ .NONE) (heof : eof.name = .NONE)
    (hc : consume w s = some t) (hw : token_kind.NONE ∉ w)
    (ht : t.current_token.name = .NONE) :
    w = us.map token.name ∧ t.current_token = eof ∧ t.source_file = [] := by
  induction w generalizing s us with
  | nil =>
    simp only [consume, Option.some.injEq] at hc
    subst hc
    cases us with
    | nil =>
      simp only [List.nil_append, List.cons.injEq] at hs
      exact ⟨rfl, hs.1, hs.2⟩
    | cons u us =>
      simp only [List.cons_append, List.cons.injEq] at hs
      exact absurd (hs.1 ▸ ht) (hus u (by simp))
  | cons k w ih =>
    obtain ⟨hk, hc2⟩ := consume_cons_inv hc
    cases us with
    | nil =>
      simp only [List.nil_append, List.cons.injEq] at hs
      exfalso
      apply hw
      rw [← hk, hs.1, heof]
      simp
    | cons u us =>
      simp only [List.cons_append, List.cons.injEq] at hs
      have hadv : (advance s).current_token :: (advance s).source_file = us ++ [eof] := by
        simp only [advance, get_token, hs.2]
        cases us <;> rfl
      obtain ⟨h1, h2, h3⟩ := ih hadv (fun x hx => hus x (by simp [hx]))
        hc2 (fun h => hw (by simp [h]))
      exact ⟨by simp [h1, ← hk, hs.1], h2, h3⟩

theorem consume_all (us : List token) (eof : token) (s : parser)
    (hs : s.current_token :: s.source_file = us ++ [eof]) :
    ∃ t, consume (us.map token.name) s = some t ∧ t.current_token = eof ∧
      t.source_file = [] := by
  induction us generalizing s with
  | nil =>
    simp only [List.nil_append, List.cons.injEq] at hs
    exact ⟨s, rfl, hs.1, hs.2⟩
  | cons u us ih =>
    simp only [List.cons_append, List.cons.injEq] at hs
    have hadv : (advance s).current_token :: (advance s).source_file = us ++ [eof] := by
      simp only [advance, get_token, hs.2]
      cases us <;> rfl
    obtain ⟨t, h1, h2, h3⟩ := ih (advance s) hadv
    exact ⟨t, consume_cons (by rw [hs.1]) h1, h2, h3⟩

/-! ## Final states -/

/-- With `fuel_bound` units of fuel or more a routine returns, and it returns `final`. -/
theorem run_final {r : nonterminal} {s : parser} {n : Nat} (h : fuel_bound r s ≤ n) :
    run r n s = some (final r s) := by
  obtain ⟨t, ht⟩ := run_total (fuel_bound r s) r s (Nat.le_refl _)
  have : final r s = t := by simp [final, ht]
  rw [this]
  exact run_mono _ _ h r s t ht

/-- A routine that returns, whatever the fuel, returns `final`. -/
theorem run_eq_final {r : nonterminal} {s t : parser} {n : Nat} (h : run r n s = some t) :
    t = final r s := by
  have h1 := run_mono n (max n (fuel_bound r s)) (Nat.le_max_left _ _) r s t h
  have h2 := run_final (r := r) (s := s) (n := max n (fuel_bound r s)) (Nat.le_max_right _ _)
  rw [h1] at h2
  exact Option.some.inj h2

/-- The final states satisfy the defining equations of the routines. -/
theorem final_eq (r : nonterminal) (s : parser) :
    body (fun q u => some (final q u)) r s = some (final r s) := by
  have h := run_final (r := r) (s := s) (n := fuel_bound r s + 1) (Nat.le_succ _)
  rw [run_succ] at h
  exact body_mono (fun q u x hx => by rw [run_eq_final hx]) r s _ h

theorem steps_final (r : nonterminal) (s : parser) : steps s (final r s) :=
  run_steps _ r s _ (run_final (Nat.le_refl _))

theorem final_expression (s : parser) : final .expression s = final (.binary .or) s := by
  have := final_eq .expression s
  simpa [body] using this.symm

theorem final_binary (l : layer) (s : parser) :
    final (.binary l) s = loop l (final l.operand s) := by
  have := final_eq (.binary l) s
  simp only [body, Option.some_bind] at this
  unfold loop
  split <;> simp_all

theorem final_elements (k : series_kind) (s : parser) :
    final (.elements k) s = more k (final k.item s) := by
  have := final_eq (.elements k) s
  simp only [body, Option.some_bind] at this
  unfold more
  split <;> simp_all

theorem final_if_rest (s : parser) :
    final .if_rest s =
      else_part (final .expression (parse_next_token .THEN_KEYWORD (final .expression s))) := by
  have := final_eq .if_rest s
  simp only [body, Option.some_bind] at this
  unfold else_part
  split <;> simp_all

theorem final_while_rest (s : parser) :
    final .while_rest s =
      final .expression (parse_next_token .DO_KEYWORD (final .expression s)) := by
  have := final_eq .while_rest s
  simpa [body] using this.symm

theorem final_for_rest (s : parser) :
    final .for_rest s =
      final .expression (parse_next_token .DO_KEYWORD
        (final .expression (parse_next_token .TO_KEYWORD
          (final .expression
            (parse_next_token .ASSIGNMENT (parse_next_token .IDENTIFIER s)))))) := by
  have := final_eq .for_rest s
  simpa [body] using this.symm

theorem final_let_rest (s : parser) (h : s.current_token.name ≠ .IN_KEYWORD) :
    final .let_rest s =
      final (.series .expression_sequence .END_KEYWORD)
        (parse_next_token .IN_KEYWORD (final .declaration_list s)) := by
  have := final_eq .let_rest s
  simpa [body, h] using this.symm

theorem final_series (k : series_kind) (e : terminator) (s : parser) :
    final (.series k e) s =
      if s.current_token.name = e.kind then advance s
      else parse_next_token e.kind (final (.elements k) s) := by
  have := final_eq (.series k e) s
  simp only [body, Option.some_bind] at this
  split <;> simp_all

theorem final_field (s : parser) :
    final .field s =
      final .expression (parse_next_token .EQUAL (parse_next_token .IDENTIFIER s)) := by
  have := final_eq .field s
  simpa [body] using this.symm

theorem final_type_field (s : parser) :
    final .type_field s =
      parse_next_token .IDENTIFIER
        (parse_next_token .COLON (parse_next_token .IDENTIFIER s)) := by
  have := final_eq .type_field s
  simpa [body] using this.symm

theorem final_type_declaration (s : parser) :
    final .type_declaration s =
      final .type_definition (parse_next_token .EQUAL
        (parse_next_token .IDENTIFIER (parse_next_token .TYPE_KEYWORD s))) := by
  have := final_eq .type_declaration s
  simpa [body] using this.symm

theorem final_variable_declaration (s : parser) :
    final .variable_declaration s =
      final .expression (parse_next_token .ASSIGNMENT (parse_type_specifier
        (parse_next_token .IDENTIFIER (parse_next_token .VAR_KEYWORD s)))) := by
  have := final_eq .variable_declaration s
  simpa [body] using this.symm

theorem final_function_declaration (s : parser) :
    final .function_declaration s =
      final .expression (parse_next_token .EQUAL (parse_type_specifier
        (final (.series .type_fields .RIGHT_PARENTHESIS)
          (parse_next_token .LEFT_PARENTHESIS (parse_next_token .IDENTIFIER
            (parse_next_token .FUNCTION_KEYWORD s)))))) := by
  have := final_eq .function_declaration s
  simpa [body] using this.symm

/-- The final state of `parse_primary_expression`, case by case. -/
theorem final_primary (s : parser) :
    final .primary s =
      match s.current_token.name with
      | .STRING_CONSTANT => advance s
      | .INTEGER_CONSTANT => advance s
      | .FLOAT_CONSTANT => advance s
      | .BREAK_KEYWORD => advance s
      | .MINUS => final .expression (advance s)
      | .LEFT_PARENTHESIS =>
        final (.series .expression_sequence .RIGHT_PARENTHESIS) (advance s)
      | .IF_KEYWORD => final .if_rest (advance s)
      | .WHILE_KEYWORD => final .while_rest (advance s)
      | .FOR_KEYWORD => final .for_rest (advance s)
      | .LET_KEYWORD => final .let_rest (advance s)
      | .IDENTIFIER => final .identifier_rest (advance s)
      | _ =>
        print_error s.current_token.line s.current_token.column "expected expression" s := by
  have := final_eq .primary s
  simp only [body] at this
  split <;> simp_all

/-- The final state of `parse_identifier`, case by case. -/
theorem final_identifier_rest (s : parser) :
    final .identifier_rest s =
      match s.current_token.name with
      | .LEFT_BRACE => final (.series .field_list .RIGHT_BRACE) (advance s)
      | .LEFT_BRACKET =>
        if (parse_next_token .RIGHT_BRACKET
            (final .expression (advance s))).current_token.name = .OF_KEYWORD then
          final .expression (advance (parse_next_token .RIGHT_BRACKET
            (final .expression (advance s))))
        else
          assignment_part (final .lvalue_suffixes (parse_next_token .RIGHT_BRACKET
            (final .expression (advance s))))
      | .LEFT_PARENTHESIS =>
        final (.series .expression_list .RIGHT_PARENTHESIS) (advance s)
      | _ => assignment_part (final .lvalue_suffixes s) := by
  have := final_eq .identifier_rest s
  simp only [body, Option.some_bind] at this
  unfold assignment_part
  split <;> (try split) <;> (try split) <;> simp_all

/-- The final state of `parse_lvalue_suffix`, case by case. -/
theorem final_lvalue_suffixes (s : parser) :
    final .lvalue_suffixes s =
      match s.current_token.name with
      | .DOT => final .lvalue_suffixes (parse_next_token .IDENTIFIER (advance s))
      | .LEFT_BRACKET =>
        final .lvalue_suffixes (parse_next_token .RIGHT_BRACKET
          (final .expression (advance s)))
      | _ => s := by
  have := final_eq .lvalue_suffixes s
  simp only [body, Option.some_bind] at this
  cases h : s.current_token.name <;> simp only [h] at this ⊢ <;>
    exact (Option.some.inj this).symm

/-- The final state of `parse_type_definition`, case by case. -/
theorem final_type_definition (s : parser) :
    final .type_definition s =
      match s.current_token.name with
      | .LEFT_BRACE => final (.series .type_fields .RIGHT_BRACE) (advance s)
      | .ARRAY_KEYWORD =>
        parse_next_token .IDENTIFIER (parse_next_token .OF_KEYWORD (advance s))
      | .IDENTIFIER => advance s
      | _ =>
        print_error s.current_token.line s.current_token.column
          "expected type definition" s := by
  have := final_eq .type_definition s
  simp only [body] at this
  split <;> simp_all

/-- The final state of `parse_declaration_list`, case by case. -/
theorem final_declaration_list (s : parser) :
    final .declaration_list s =
      match s.current_token.name with
      | .TYPE_KEYWORD => final .declaration_list (final .type_declaration s)
      | .VAR_KEYWORD => final .declaration_list (final .variable_declaration s)
      | .FUNCTION_KEYWORD => final .declaration_list (final .function_declaration s)
      | _ => s := by
  have := final_eq .declaration_list s
  simp only [body, Option.some_bind] at this
  cases h : s.current_token.name <;> simp only [h] at this ⊢ <;>
    exact (Option.some.inj this).symm

/-! ## Completeness: the parser accepts what the grammar derives -/

theorem head_append {k : token_kind} {w v : List token_kind} (h : w.head? = some k) :
    (w ++ v).head? = some k := by
  cases w with
  | nil => simp at h
  | cons a w => simpa using h

/-- The first token of a phrase, rule by rule. -/
theorem derives_head {r : nonterminal} {w : List token_kind} (h : derives r w) :
    head_ok r w := by
  induction h with
  | expression _ ih => exact ih
  | @operand l w _ ih => cases l <;> exact ih
  | @chain l w v op _ _ _ ih1 _ =>
    have : ∃ k, w.head? = some k ∧ k.starter = true := by cases l <;> exact ih1
    obtain ⟨k, hk, hs⟩ := this
    exact ⟨k, head_append hk, hs⟩
  | @atom k hk => exact ⟨k, rfl, by cases k <;> simp_all [token_kind.atom, token_kind.starter]⟩
  | @more_elements k w v _ _ ih1 _ =>
    have : ∃ k, w.head? = some k ∧ k.starter = true := by cases k <;> exact ih1
    obtain ⟨k, hk, hs⟩ := this
    exact ⟨k, head_append hk, hs⟩
  | @one_element k w _ ih => cases k <;> exact ih
  | no_suffix => intro k hk; simp at hk
  | no_declaration => intro k hk; simp at hk
  | @type_first d ds _ _ ih1 _ =>
    intro k hk
    rw [head_append ih1] at hk
    simp only [Option.mem_def, Option.some.injEq] at hk
    exact Or.inl hk.symm
  | @variable_first d ds _ _ ih1 _ =>
    intro k hk
    rw [head_append ih1] at hk
    simp only [Option.mem_def, Option.some.injEq] at hk
    exact Or.inr (Or.inl hk.symm)
  | @function_first d ds _ _ ih1 _ =>
    intro k hk
    rw [head_append ih1] at hk
    simp only [Option.mem_def, Option.some.injEq] at hk
    exact Or.inr (Or.inr hk.symm)
  | _ => simp [head_ok, token_kind.starter]

theorem operator_carries_on {l : layer} {k : token_kind} (h : l.operator k = true) :
    k.carries_on = false ∧ k ≠ .ELSE_KEYWORD := by
  cases l <;> cases k <;> simp_all [layer.operator, token_kind.carries_on]

/-- A set of states whose current tokens are all inert is good. -/
theorem good_of_inert {K : parser → Prop}
    (h : ∀ x, K x → x.current_token.name.inert) : good K := by
  refine ⟨fun x hx => (h x hx).1, fun x hx he => absurd he (h x hx).2.1, fun l x hx hl => ?_⟩
  have := (h x hx).2.2 l
  rw [this] at hl
  exact absurd hl (by simp)

/-- The states from which the rest of a binary layer leads into a good set form a good
set. -/
theorem good_loop {K : parser → Prop} (l : layer) (h : good K) :
    good (fun x => K (loop l x)) := by
  obtain ⟨g1, g2, g3⟩ := h
  have absorb : ∀ y, K y → K (loop l y) := by
    intro y hy
    unfold loop
    split
    · rename_i hop; exact g3 l y hy hop
    · exact hy
  refine ⟨fun x hx => ?_, fun x hx he => ?_, fun m x hx hm => ?_⟩
  · by_cases hop : l.operator x.current_token.name = true
    · exact (operator_carries_on hop).1
    · simp only [loop, hop] at hx
      exact g1 x hx
  · have hop : ¬ l.operator x.current_token.name = true := by
      intro hop
      exact (operator_carries_on hop).2 he
    simp only [loop, hop] at hx
    exact absorb _ (g2 x hx he)
  · by_cases hop : l.operator x.current_token.name = true
    · simp only [loop, hop, if_true] at hx
      by_cases hlm : m = l
      · subst hlm
        exact absorb _ hx
      · exfalso
        revert hop hm hlm
        cases l <;> cases m <;> cases x.current_token.name <;> simp [layer.operator]
    · simp only [loop, hop] at hx
      exact absorb _ (g3 m x hx hm)

/-- The states from which the optional `else` leads into a good set form a good set. -/
theorem good_else_part {K : parser → Prop} (h : good K) :
    good (fun x => K (else_part x)) := by
  obtain ⟨g1, g2, g3⟩ := h
  have absorb : ∀ y, K y → K (else_part y) := by
    intro y hy
    unfold else_part
    split
    · rename_i he; exact g2 y hy he
    · exact hy
  refine ⟨fun x hx => ?_, fun x hx he => ?_, fun m x hx hm => ?_⟩
  · by_cases he : x.current_token.name = .ELSE_KEYWORD
    · rw [he]; rfl
    · simp only [else_part, he] at hx
      exact g1 x hx
  · simp only [else_part, he, if_true] at hx
    exact absorb _ hx
  · have he : ¬ x.current_token.name = .ELSE_KEYWORD := (operator_carries_on hm).2
    simp only [else_part, he] at hx
    exact absorb _ (g3 m x hx hm)

theorem loop_absorb {K : parser → Prop} (h : good K) (l : layer) (y : parser) (hy : K y) :
    K (loop l y) := by
  unfold loop
  split
  · rename_i hop; exact h.2.2 l y hy hop
  · exact hy

theorem else_part_absorb {K : parser → Prop} (h : good K) (y : parser) (hy : K y) :
    K (else_part y) := by
  unfold else_part
  split
  · rename_i he; exact h.2.1 y hy he
  · exact hy

theorem inert_of_mem {k : token_kind}
    (h : k ∈ [token_kind.THEN_KEYWORD, .DO_KEYWORD, .TO_KEYWORD, .IN_KEYWORD, .RIGHT_BRACKET,
      .RIGHT_PARENTHESIS, .END_KEYWORD, .RIGHT_BRACE, .COMMA, .SEMICOLON, .TYPE_KEYWORD,
      .VAR_KEYWORD, .FUNCTION_KEYWORD, .NONE]) : k.inert := by
  simp only [List.mem_cons, List.mem_singleton, List.not_mem_nil, or_false] at h
  rcases h with rfl | rfl | rfl | rfl | rfl | rfl | rfl | rfl | rfl | rfl | rfl | rfl | rfl | rfl
  all_goals exact ⟨rfl, by simp, fun l => by cases l <;> rfl⟩

theorem good_expecting (k : token_kind) (K : parser → Prop) (hk : k.inert) :
    good (fun x => x.current_token.name = k ∧ K x) :=
  good_of_inert fun x hx => by rw [hx.1]; exact hk

theorem terminator_inert (e : terminator) : e.kind.inert := by
  cases e <;> exact inert_of_mem (by simp [terminator.kind])

theorem separator_inert (k : series_kind) : k.separator.inert := by
  cases k <;> exact inert_of_mem (by simp [series_kind.separator])

theorem good_more {K : parser → Prop} (k : series_kind)
    (h : ∀ x, K x → ∃ e : terminator, x.current_token.name = e.kind) :
    good (fun x => K (more k x)) := by
  apply good_of_inert
  intro x hx
  by_cases hs : x.current_token.name = k.separator
  · rw [hs]; exact separator_inert k
  · simp only [more, hs] at hx
    obtain ⟨e, he⟩ := h x hx
    rw [he]; exact terminator_inert e

theorem good_declarations {K : parser → Prop}
    (h : ∀ x, K x → x.current_token.name = .IN_KEYWORD) :
    good (fun x => K (final .declaration_list x)) := by
  apply good_of_inert
  intro x hx
  rw [final_declaration_list] at hx
  split at hx
  · rename_i hk; rw [hk]; exact inert_of_mem (by simp)
  · rename_i hk; rw [hk]; exact inert_of_mem (by simp)
  · rename_i hk; rw [hk]; exact inert_of_mem (by simp)
  · rw [h x hx]; exact inert_of_mem (by simp)

theorem starter_not_terminator {k : token_kind} (e : terminator) (h : k.starter = true) :
    k ≠ e.kind := by
  intro he
  subst he
  cases e <;> simp [terminator.kind, token_kind.starter] at h

/-- The identifier-led form that is an lvalue, with or without an assignment: whatever the
branch of `parse_identifier` it is read by, the outcome is that of the lvalue suffixes
followed by the optional assignment. -/
theorem final_identifier_rest_lvalue {K : parser → Prop} {s : parser} (hg : good K)
    (h1 : s.current_token.name ≠ .LEFT_BRACE) (h2 : s.current_token.name ≠ .LEFT_PARENTHESIS)
    (h : K (assignment_part (final .lvalue_suffixes s))) :
    K (final .identifier_rest s) := by
  rw [final_identifier_rest]
  split
  · rename_i hk; exact absurd hk h1
  · rename_i hk
    rw [final_lvalue_suffixes] at h
    simp only [hk] at h
    split
    · rename_i hof
      exfalso
      rw [final_lvalue_suffixes] at h
      simp only [hof] at h
      simp only [assignment_part, hof] at h
      have hne : ¬ (token_kind.OF_KEYWORD = token_kind.ASSIGNMENT) := by simp
      simp only [hne, if_false] at h
      have := hg.1 _ h
      rw [hof] at this
      simp [token_kind.carries_on] at this
    · exact h
  · rename_i hk; exact absurd hk h2
  · exact h

theorem consume_nil_inv {s t : parser} (h : consume [] s = some t) : t = s := by
  simp only [consume, Option.some.injEq] at h
  exact h.symm

theorem consume_head {w : List token_kind} {k : token_kind} {s t : parser}
    (hw : w.head? = some k) (h : consume w s = some t) : s.current_token.name = k := by
  cases w with
  | nil => simp at hw
  | cons a w =>
    simp only [List.head?_cons, Option.some.injEq] at hw
    subst hw
    exact (consume_cons_inv h).1

/-- The parser accepts what the grammar derives: if the tokens ahead start with a phrase
`w` of rule `r`, and the state `t` after `w` is one of a set `K` in which a phrase of `r`
may end, then the routine for `r` returns in a state of `K`. -/
theorem final_complete {r : nonterminal} {w : List token_kind} (h : derives r w) :
    ∀ (K : parser → Prop) (s t : parser), fit r K → consume w s = some t → K t →
      K (final r s) := by
  induction h with
  | expression _ ih =>
    intro K s t hf hc hk
    rw [final_expression]
    exact ih K s t hf hc hk
  | @operand l w _ ih =>
    intro K s t hf hc hk
    rw [final_binary]
    exact ih (fun x => K (loop l x)) s t (by cases l <;> exact good_loop _ hf) hc
      (loop_absorb hf l t hk)
  | @chain l w v op _ hop _ ih1 ih2 =>
    intro K s t hf hc hk
    obtain ⟨x, hx, hv⟩ := consume_append_inv hc
    obtain ⟨hxk, hv2⟩ := consume_cons_inv hv
    rw [final_binary]
    refine ih1 (fun x => K (loop l x)) s x (by cases l <;> exact good_loop _ hf) hx ?_
    show K (loop l x)
    unfold loop
    rw [hxk]
    simp only [hop, if_true]
    exact ih2 K _ t hf hv2 hk
  | @atom k hk0 =>
    intro K s t hf hc hk
    obtain ⟨h1, h2⟩ := consume_cons_inv hc
    rw [consume_nil_inv h2] at hk
    rw [final_primary]
    cases k <;> simp [token_kind.atom] at hk0 <;> simp only [h1] <;> exact hk
  | negation _ ih =>
    intro K s t hf hc hk
    obtain ⟨h1, h2⟩ := consume_cons_inv hc
    rw [final_primary]
    simp only [h1]
    exact ih K _ t hf h2 hk
  | parenthesized _ ih =>
    intro K s t hf hc hk
    obtain ⟨h1, h2⟩ := consume_cons_inv hc
    rw [final_primary]
    simp only [h1]
    exact ih K _ t trivial h2 hk
  | conditional _ ih =>
    intro K s t hf hc hk
    obtain ⟨h1, h2⟩ := consume_cons_inv hc
    rw [final_primary]
    simp only [h1]
    exact ih K _ t hf h2 hk
  | while_loop _ ih =>
    intro K s t hf hc hk
    obtain ⟨h1, h2⟩ := consume_cons_inv hc
    rw [final_primary]
    simp only [h1]
    exact ih K _ t hf h2 hk
  | for_loop _ ih =>
    intro K s t hf hc hk
    obtain ⟨h1, h2⟩ := consume_cons_inv hc
    rw [final_primary]
    simp only [h1]
    exact ih K _ t hf h2 hk
  | let_block _ ih =>
    intro K s t hf hc hk
    obtain ⟨h1, h2⟩ := consume_cons_inv hc
    rw [final_primary]
    simp only [h1]
    exact ih K _ t trivial h2 hk
  | identifier _ ih =>
    intro K s t hf hc hk
    obtain ⟨h1, h2⟩ := consume_cons_inv hc
    rw [final_primary]
    simp only [h1]
    exact ih K _ t hf h2 hk
  | @if_then c b _ _ ih1 ih2 =>
    intro K s t hf hc hk
    obtain ⟨x, hx, hv⟩ := consume_append_inv hc
    obtain ⟨hxk, hv2⟩ := consume_cons_inv hv
    rw [final_if_rest]
    have key := ih1 (fun y => y.current_token.name = .THEN_KEYWORD ∧
      K (else_part (final .expression (advance y)))) s x
      (good_expecting _ _ (inert_of_mem (by simp))) hx
      ⟨hxk, ih2 (fun y => K (else_part y)) _ t (good_else_part hf) hv2
        (else_part_absorb hf t hk)⟩
    rw [parse_next_token_match key.1]
    exact key.2
  | @if_then_else c b e _ _ _ ih1 ih2 ih3 =>
    intro K s t hf hc hk
    obtain ⟨x, hx, hv⟩ := consume_append_inv hc
    obtain ⟨hxk, hv2⟩ := consume_cons_inv hv
    obtain ⟨y, hy, hv3⟩ := consume_append_inv hv2
    obtain ⟨hyk, hv4⟩ := consume_cons_inv hv3
    rw [final_if_rest]
    have key := ih1 (fun y => y.current_token.name = .THEN_KEYWORD ∧
      K (else_part (final .expression (advance y)))) s x
      (good_expecting _ _ (inert_of_mem (by simp))) hx
      ⟨hxk, ih2 (fun y => K (else_part y)) _ y (good_else_part hf) hy (by
        show K (else_part y)
        simp only [else_part, hyk, if_true]
        exact ih3 K _ t hf hv4 hk)⟩
    rw [parse_next_token_match key.1]
    exact key.2
  | @while_do c b _ _ ih1 ih2 =>
    intro K s t hf hc hk
    obtain ⟨x, hx, hv⟩ := consume_append_inv hc
    obtain ⟨hxk, hv2⟩ := consume_cons_inv hv
    rw [final_while_rest]
    have key := ih1 (fun y => y.current_token.name = .DO_KEYWORD ∧
      K (final .expression (advance y))) s x
      (good_expecting _ _ (inert_of_mem (by simp))) hx ⟨hxk, ih2 K _ t hf hv2 hk⟩
    rw [parse_next_token_match key.1]
    exact key.2
  | @for_to_do lo hi b _ _ _ ih1 ih2 ih3 =>
    intro K s t hf hc hk
    obtain ⟨h1, hc1⟩ := consume_cons_inv hc
    obtain ⟨h2, hc2⟩ := consume_cons_inv hc1
    obtain ⟨x, hx, hv⟩ := consume_append_inv hc2
    obtain ⟨hxk, hv2⟩ := consume_cons_inv hv
    obtain ⟨y, hy, hv3⟩ := consume_append_inv hv2
    obtain ⟨hyk, hv4⟩ := consume_cons_inv hv3
    rw [final_for_rest, parse_next_token_match h1, parse_next_token_match h2]
    have key2 := ih2 (fun z => z.current_token.name = .DO_KEYWORD ∧
      K (final .expression (advance z))) _ y
      (good_expecting _ _ (inert_of_mem (by simp))) hy ⟨hyk, ih3 K _ t hf hv4 hk⟩
    have key1 := ih1 (fun z => z.current_token.name = .TO_KEYWORD ∧
      K (final .expression (parse_next_token .DO_KEYWORD
        (final .expression (advance z))))) _ x
      (good_expecting _ _ (inert_of_mem (by simp))) hx
      ⟨hxk, by rw [parse_next_token_match key2.1]; exact key2.2⟩
    rw [parse_next_token_match key1.1]
    exact key1.2
  | @let_in d b _ hd _ ih1 ih2 =>
    intro K s t hf hc hk
    obtain ⟨x, hx, hv⟩ := consume_append_inv hc
    obtain ⟨hxk, hv2⟩ := consume_cons_inv hv
    have hs : s.current_token.name ≠ .IN_KEYWORD := by
      rename_i hder _
      have hh := derives_head hder
      cases d with
      | nil => exact absurd rfl hd
      | cons a d =>
        have := (consume_cons_inv hx).1
        rw [this]
        rcases hh a (by simp) with rfl | rfl | rfl <;> simp
    rw [final_let_rest s hs]
    have key := ih1 (fun y => y.current_token.name = .IN_KEYWORD ∧
      K (final (.series .expression_sequence .END_KEYWORD) (advance y))) s x
      (fun y hy => hy.1) hx ⟨hxk, ih2 K _ t trivial hv2 hk⟩
    rw [parse_next_token_match key.1]
    exact key.2
  | record _ ih =>
    intro K s t hf hc hk
    obtain ⟨h1, h2⟩ := consume_cons_inv hc
    rw [final_identifier_rest]
    simp only [h1]
    exact ih K _ t trivial h2 hk
  | @array n i _ _ ih1 ih2 =>
    intro K s t hf hc hk
    obtain ⟨h1, hc1⟩ := consume_cons_inv hc
    obtain ⟨x, hx, hv⟩ := consume_append_inv hc1
    obtain ⟨hxk, hv2⟩ := consume_cons_inv hv
    obtain ⟨hof, hv3⟩ := consume_cons_inv hv2
    rw [final_identifier_rest]
    simp only [h1]
    have key := ih1 (fun y => y.current_token.name = .RIGHT_BRACKET ∧
      ((advance y).current_token.name = .OF_KEYWORD ∧
        K (final .expression (advance (advance y))))) _ x
      (good_expecting _ _ (inert_of_mem (by simp))) hx ⟨hxk, hof, ih2 K _ t hf hv3 hk⟩
    rw [parse_next_token_match key.1]
    simp only [key.2.1, if_true]
    exact key.2.2
  | call _ ih =>
    intro K s t hf hc hk
    obtain ⟨h1, h2⟩ := consume_cons_inv hc
    rw [final_identifier_rest]
    simp only [h1]
    exact ih K _ t trivial h2 hk
  | @lvalue w hder ih =>
    intro K s t hf hc hk
    have hfit : fit .lvalue_suffixes (fun y => K (assignment_part y)) := by
      intro y hy
      constructor
      · intro hd
        simp only [assignment_part, hd] at hy
        have := hf.1 y (by simpa using hy)
        rw [hd] at this
        simp [token_kind.carries_on] at this
      · intro hd
        simp only [assignment_part, hd] at hy
        have := hf.1 y (by simpa using hy)
        rw [hd] at this
        simp [token_kind.carries_on] at this
    have hcar := hf.1 t hk
    have hkt : K (assignment_part t) := by
      have : t.current_token.name ≠ .ASSIGNMENT := by
        intro e; rw [e] at hcar; simp [token_kind.carries_on] at hcar
      simpa [assignment_part, this] using hk
    have hh := derives_head hder
    have hs : s.current_token.name ≠ .LEFT_BRACE ∧
        s.current_token.name ≠ .LEFT_PARENTHESIS := by
      cases w with
      | nil =>
        rw [← consume_nil_inv hc]
        constructor <;> intro e <;> rw [e] at hcar <;> simp [token_kind.carries_on] at hcar
      | cons a w =>
        rw [(consume_cons_inv hc).1]
        rcases hh a (by simp) with rfl | rfl <;> simp
    exact final_identifier_rest_lvalue hf hs.1 hs.2 (ih _ s t hfit hc hkt)
  | @assignment w v hder _ ih1 ih2 =>
    intro K s t hf hc hk
    obtain ⟨x, hx, hv⟩ := consume_append_inv hc
    obtain ⟨hxk, hv2⟩ := consume_cons_inv hv
    have hfit : fit .lvalue_suffixes (fun y => K (assignment_part y)) := by
      intro y hy
      constructor
      · intro hd
        simp only [assignment_part, hd] at hy
        have := hf.1 y (by simpa using hy)
        rw [hd] at this
        simp [token_kind.carries_on] at this
      · intro hd
        simp only [assignment_part, hd] at hy
        have := hf.1 y (by simpa using hy)
        rw [hd] at this
        simp [token_kind.carries_on] at this
    have hkx : K (assignment_part x) := by
      simp only [assignment_part, hxk, if_true]
      exact ih2 K _ t hf hv2 hk
    have hh := derives_head hder
    have hs : s.current_token.name ≠ .LEFT_BRACE ∧
        s.current_token.name ≠ .LEFT_PARENTHESIS := by
      cases w with
      | nil =>
        rw [← consume_nil_inv hx, hxk]
        simp
      | cons a w =>
        rw [(consume_cons_inv hx).1]
        rcases hh a (by simp) with rfl | rfl <;> simp
    exact final_identifier_rest_lvalue hf hs.1 hs.2 (ih1 _ s x hfit hx hkx)
  | no_suffix =>
    intro K s t hf hc hk
    rw [consume_nil_inv hc] at hk
    obtain ⟨h1, h2⟩ := hf s hk
    rw [final_lvalue_suffixes]
    split
    · rename_i e; exact absurd e h1
    · rename_i e; exact absurd e h2
    · exact hk
  | field_suffix _ ih =>
    intro K s t hf hc hk
    obtain ⟨h1, hc1⟩ := consume_cons_inv hc
    obtain ⟨h2, hc2⟩ := consume_cons_inv hc1
    rw [final_lvalue_suffixes]
    simp only [h1]
    rw [parse_next_token_match h2]
    exact ih K _ t hf hc2 hk
  | @index_suffix i w _ _ ih1 ih2 =>
    intro K s t hf hc hk
    obtain ⟨h1, hc1⟩ := consume_cons_inv hc
    obtain ⟨x, hx, hv⟩ := consume_append_inv hc1
    obtain ⟨hxk, hv2⟩ := consume_cons_inv hv
    rw [final_lvalue_suffixes]
    simp only [h1]
    have key := ih1 (fun y => y.current_token.name = .RIGHT_BRACKET ∧
      K (final .lvalue_suffixes (advance y))) _ x
      (good_expecting _ _ (inert_of_mem (by simp))) hx ⟨hxk, ih2 K _ t hf hv2 hk⟩
    rw [parse_next_token_match key.1]
    exact key.2
  | @empty_series k e =>
    intro K s t hf hc hk
    obtain ⟨h1, h2⟩ := consume_cons_inv hc
    rw [consume_nil_inv h2] at hk
    rw [final_series]
    simp only [h1, if_true]
    exact hk
  | @full_series k e w hder ih =>
    intro K s t hf hc hk
    obtain ⟨x, hx, hv⟩ := consume_append_inv hc
    obtain ⟨hxk, hv2⟩ := consume_cons_inv hv
    rw [consume_nil_inv hv2] at hk
    obtain ⟨a, ha, hst⟩ := derives_head hder
    have hs : s.current_token.name ≠ e.kind := by
      rw [consume_head ha hx]
      exact starter_not_terminator e hst
    rw [final_series]
    simp only [hs, if_false]
    have key := ih (fun y => y.current_token.name = e.kind ∧ K (advance y)) s x
      (fun y hy => ⟨e, hy.1⟩) hx ⟨hxk, hk⟩
    rw [parse_next_token_match key.1]
    exact key.2
  | @one_element k w _ ih =>
    intro K s t hf hc hk
    rw [final_elements]
    have hkt : K (more k t) := by
      obtain ⟨e, he⟩ := hf t hk
      have : t.current_token.name ≠ k.separator := by
        rw [he]
        intro h
        have := (terminator_inert e)
        cases k <;> cases e <;> simp [terminator.kind, series_kind.separator] at h
      simpa [more, this] using hk
    exact ih (fun y => K (more k y)) s t (by cases k <;> first | exact good_more _ hf | trivial)
      hc hkt
  | @more_elements k w v _ _ ih1 ih2 =>
    intro K s t hf hc hk
    obtain ⟨x, hx, hv⟩ := consume_append_inv hc
    obtain ⟨hxk, hv2⟩ := consume_cons_inv hv
    rw [final_elements]
    refine ih1 (fun y => K (more k y)) s x
      (by cases k <;> first | exact good_more _ hf | trivial) hx ?_
    show K (more k x)
    simp only [more, hxk, if_true]
    exact ih2 K _ t hf hv2 hk
  | field _ ih =>
    intro K s t hf hc hk
    obtain ⟨h1, hc1⟩ := consume_cons_inv hc
    obtain ⟨h2, hc2⟩ := consume_cons_inv hc1
    rw [final_field, parse_next_token_match h1, parse_next_token_match h2]
    exact ih K _ t hf hc2 hk
  | type_field =>
    intro K s t hf hc hk
    obtain ⟨h1, hc1⟩ := consume_cons_inv hc
    obtain ⟨h2, hc2⟩ := consume_cons_inv hc1
    obtain ⟨h3, hc3⟩ := consume_cons_inv hc2
    rw [consume_nil_inv hc3] at hk
    rw [final_type_field, parse_next_token_match h1, parse_next_token_match h2,
      parse_next_token_match h3]
    exact hk
  | record_type _ ih =>
    intro K s t hf hc hk
    obtain ⟨h1, h2⟩ := consume_cons_inv hc
    rw [final_type_definition]
    simp only [h1]
    exact ih K _ t trivial h2 hk
  | array_type =>
    intro K s t hf hc hk
    obtain ⟨h1, hc1⟩ := consume_cons_inv hc
    obtain ⟨h2, hc2⟩ := consume_cons_inv hc1
    obtain ⟨h3, hc3⟩ := consume_cons_inv hc2
    rw [consume_nil_inv hc3] at hk
    rw [final_type_definition]
    simp only [h1]
    rw [parse_next_token_match h2, parse_next_token_match h3]
    exact hk
  | alias_type =>
    intro K s t hf hc hk
    obtain ⟨h1, hc1⟩ := consume_cons_inv hc
    rw [consume_nil_inv hc1] at hk
    rw [final_type_definition]
    simp only [h1]
    exact hk
  | type_declaration _ ih =>
    intro K s t hf hc hk
    obtain ⟨h1, hc1⟩ := consume_cons_inv hc
    obtain ⟨h2, hc2⟩ := consume_cons_inv hc1
    obtain ⟨h3, hc3⟩ := consume_cons_inv hc2
    rw [final_type_declaration, parse_next_token_match h1, parse_next_token_match h2,
      parse_next_token_match h3]
    exact ih K _ t trivial hc3 hk
  | untyped_variable _ ih =>
    intro K s t hf hc hk
    obtain ⟨h1, hc1⟩ := consume_cons_inv hc
    obtain ⟨h2, hc2⟩ := consume_cons_inv hc1
    obtain ⟨h3, hc3⟩ := consume_cons_inv hc2
    have hts : parse_type_specifier (advance (advance s)) = advance (advance s) := by
      simp [parse_type_specifier, h3]
    rw [final_variable_declaration, parse_next_token_match h1, parse_next_token_match h2,
      hts, parse_next_token_match h3]
    exact ih K _ t hf hc3 hk
  | typed_variable _ ih =>
    intro K s t hf hc hk
    obtain ⟨h1, hc1⟩ := consume_cons_inv hc
    obtain ⟨h2, hc2⟩ := consume_cons_inv hc1
    obtain ⟨h3, hc3⟩ := consume_cons_inv hc2
    obtain ⟨h4, hc4⟩ := consume_cons_inv hc3
    obtain ⟨h5, hc5⟩ := consume_cons_inv hc4
    have hts : parse_type_specifier (advance (advance s)) =
        advance (advance (advance (advance s))) := by
      simp [parse_type_specifier, h3, parse_next_token_match h4]
    rw [final_variable_declaration, parse_next_token_match h1, parse_next_token_match h2,
      hts, parse_next_token_match h5]
    exact ih K _ t hf hc5 hk
  | @untyped_function p w _ _ ih1 ih2 =>
    intro K s t hf hc hk
    obtain ⟨h1, hc1⟩ := consume_cons_inv hc
    obtain ⟨h2, hc2⟩ := consume_cons_inv hc1
    obtain ⟨h3, hc3⟩ := consume_cons_inv hc2
    obtain ⟨x, hx, hv⟩ := consume_append_inv hc3
    obtain ⟨hxk, hv2⟩ := consume_cons_inv hv
    have hts : parse_type_specifier x = x := by
      simp [parse_type_specifier, hxk]
    rw [final_function_declaration, parse_next_token_match h1, parse_next_token_match h2,
      parse_next_token_match h3]
    have key := ih1 (fun y => y = x) _ x trivial hx rfl
    rw [key, hts, parse_next_token_match hxk]
    exact ih2 K _ t hf hv2 hk
  | @typed_function p w _ _ ih1 ih2 =>
    intro K s t hf hc hk
    obtain ⟨h1, hc1⟩ := consume_cons_inv hc
    obtain ⟨h2, hc2⟩ := consume_cons_inv hc1
    obtain ⟨h3, hc3⟩ := consume_cons_inv hc2
    obtain ⟨x, hx, hv⟩ := consume_append_inv hc3
    obtain ⟨hxk, hv2⟩ := consume_cons_inv hv
    obtain ⟨h4, hv3⟩ := consume_cons_inv hv2
    obtain ⟨h5, hv4⟩ := consume_cons_inv hv3
    have hts : parse_type_specifier x = advance (advance x) := by
      simp [parse_type_specifier, hxk, parse_next_token_match h4]
    rw [final_function_declaration, parse_next_token_match h1, parse_next_token_match h2,
      parse_next_token_match h3]
    have key := ih1 (fun y => y = x) _ x trivial hx rfl
    rw [key, hts, parse_next_token_match h5]
    exact ih2 K _ t hf hv4 hk
  | no_declaration =>
    intro K s t hf hc hk
    rw [consume_nil_inv hc] at hk
    have := hf s hk
    rw [final_declaration_list]
    simp only [this]
    exact hk
  | @type_first d ds hder _ ih1 ih2 =>
    intro K s t hf hc hk
    obtain ⟨x, hx, hv⟩ := consume_append_inv hc
    have hs := consume_head (derives_head hder) hx
    rw [final_declaration_list]
    simp only [hs]
    exact ih1 (fun y => K (final .declaration_list y)) s x trivial hx (ih2 K x t hf hv hk)
  | @variable_first d ds hder _ ih1 ih2 =>
    intro K s t hf hc hk
    obtain ⟨x, hx, hv⟩ := consume_append_inv hc
    have hs := consume_head (derives_head hder) hx
    rw [final_declaration_list]
    simp only [hs]
    exact ih1 (fun y => K (final .declaration_list y)) s x (good_declarations hf) hx
      (ih2 K x t hf hv hk)
  | @function_first d ds hder _ ih1 ih2 =>
    intro K s t hf hc hk
    obtain ⟨x, hx, hv⟩ := consume_append_inv hc
    have hs := consume_head (derives_head hder) hx
    rw [final_declaration_list]
    simp only [hs]
    exact ih1 (fun y => K (final .declaration_list y)) s x (good_declarations hf) hx
      (ih2 K x t hf hv hk)

/-! ## The entry point -/

theorem calls_consume {w : List token_kind} {s t : parser} (h : consume w s = some t) :
    t.calls = s.calls ++ List.replicate w.length event.get_token := by
  induction w generalizing s with
  | nil => rw [consume_nil_inv h]; simp
  | cons k w ih =>
    obtain ⟨_, h2⟩ := consume_cons_inv h
    rw [ih h2]
    simp [advance, List.replicate_succ]

theorem start_stream (ts : List token) (eof : token) :
    (start (ts ++ [eof])).current_token :: (start (ts ++ [eof])).source_file = ts ++ [eof] := by
  cases ts <;> rfl

theorem start_calls (file : source_file) :
    (start file).calls =
      [event.init_type_check, event.program_allocate, event.get_token] := rfl

/-- A token stream that is a phrase of the grammar followed by the end of input is read to
its end by `parse_expression`, with nothing but fetches on record. -/
theorem final_of_derives {ts : List token} {eof : token} (heof : eof.name = .NONE)
    (h : derives .expression (ts.map token.name)) :
    (final .expression (start (ts ++ [eof]))).current_token = eof ∧
      (final .expression (start (ts ++ [eof]))).source_file = [] ∧
      (final .expression (start (ts ++ [eof]))).calls =
        [event.init_type_check, event.program_allocate] ++
          List.replicate (ts.length + 1) event.get_token := by
  obtain ⟨t, h1, h2, h3⟩ := consume_all ts eof (start (ts ++ [eof])) (start_stream ts eof)
  have key : final .expression (start (ts ++ [eof])) = t :=
    final_complete h (fun x => x = t) (start (ts ++ [eof])) t
      (good_of_inert fun x hx => by
        rw [hx, h2, heof]
        exact inert_of_mem (by simp)) h1 rfl
  rw [key]
  refine ⟨h2, h3, ?_⟩
  rw [calls_consume h1, start_calls]
  simp [List.replicate_succ]

theorem parse_source_file_eq (fuel : Nat) (allocated : program) (file : source_file)
    (h : fuel_bound .expression (start file) ≤ fuel) :
    parse_source_file fuel allocated file =
      some (allocated, finish (final .expression (start file))) := by
  unfold parse_source_file
  have := run_final (r := .expression) (s := start file) h
  simp only [run] at this
  rw [this]
  rfl

/-- The shape of a run of `parse_source_file` on a phrase of the grammar. -/
theorem parse_source_file_of_derives {ts : List token} {eof : token} (allocated : program)
    (heof : eof.name = .NONE) (h : derives .expression (ts.map token.name)) (fuel : Nat)
    (hfuel : fuel_bound .expression (start (ts ++ [eof])) ≤ fuel) :
    ∃ t, parse_source_file fuel allocated (ts ++ [eof]) = some (allocated, t) ∧
      t.calls = [event.init_type_check, event.program_allocate] ++
        List.replicate (ts.length + 1) event.get_token ++ [event.clean_up_type_check] ∧
      diagnostics t = [] ∧ t.current_token = eof ∧ t.source_file = [] := by
  obtain ⟨h1, h2, h3⟩ := final_of_derives heof h
  refine ⟨_, parse_source_file_eq fuel allocated _ hfuel, ?_⟩
  have hf : finish (final .expression (start (ts ++ [eof]))) =
      clean_up_type_check (final .expression (start (ts ++ [eof]))) := by
    simp [finish, h1, heof]
  rw [hf]
  refine ⟨by simp [clean_up_type_check, h3], ?_, h1, h2⟩
  simp [diagnostics, clean_up_type_check, h3, List.filter_replicate]

theorem errors_start (file : source_file) : errors (start file) = 0 := by
  simp [errors, diagnostics_start]

theorem diagnostics_finish (s : parser) :
    diagnostics (finish s) =
      diagnostics s ++
        (if s.current_token.name ≠ .NONE then
          [event.print_error s.current_token.line s.current_token.column
            "trailing code after the main expression"]
        else []) := by
  unfold finish
  split <;> simp [diagnostics, clean_up_type_check, print_error]

theorem within_mem {stream : List token} {s : parser} (h : within stream s) :
    s.current_token ∈ stream := by
  obtain ⟨before, hb⟩ := h
  rw [← hb]
  simp

/-- A run of `parse_source_file` without diagnostics has read a phrase of the grammar, and
every diagnostic of a run is at the position of a token of the stream. -/
theorem parse_source_file_sound {ts : List token} {eof : token}
    (hts : ∀ u ∈ ts, u.name ≠ .NONE) (heof : eof.name = .NONE) :
    (diagnostics (finish (final .expression (start (ts ++ [eof])))) = [] →
      derives .expression (ts.map token.name)) ∧
    ∀ e ∈ diagnostics (finish (final .expression (start (ts ++ [eof])))),
      located (ts ++ [eof]) e := by
  have hst := steps_final .expression (start (ts ++ [eof]))
  have hin := within_steps heof (start_within (ts ++ [eof]) (by simp)) hst
  constructor
  · intro hd
    rw [diagnostics_finish] at hd
    obtain ⟨hd1, hd2⟩ := List.append_eq_nil.mp hd
    have hnone : (final .expression (start (ts ++ [eof]))).current_token.name = .NONE := by
      by_contra hne
      simp [hne] at hd2
    have he : errors (final .expression (start (ts ++ [eof]))) =
        errors (start (ts ++ [eof])) := by
      simp [errors, hd1, diagnostics_start]
    obtain ⟨w, hw, hc⟩ := run_sound _ .expression _ _ (run_final (Nat.le_refl _)) he
    obtain ⟨h1, _, _⟩ := consume_stream (start_stream ts eof) hts heof hc
      (derives_ne_none hw) hnone
    rw [← h1]
    exact hw
  · intro e he
    rw [diagnostics_finish] at he
    rcases List.mem_append.mp he with h1 | h1
    · rcases hin.2 e h1 with h2 | h2
      · rw [diagnostics_start] at h2
        simp at h2
      · exact h2
    · split at h1
      · simp only [List.mem_singleton] at h1
        subst h1
        exact ⟨_, within_mem hin.1, rfl, rfl⟩
      · simp at h1

/-! ## The token on which a layer returns -/

/-- A binary layer returns on a token that is no operator of the layer nor of a tighter
one. -/
theorem binary_exit : ∀ (n : Nat) (l : layer) (s t : parser),
    run (.binary l) n s = some t →
    ∀ m : layer, l.depth ≤ m.depth → m.operator t.current_token.name = false := by
  intro n
  induction n with
  | zero => intro l s t h; simp [run_zero] at h
  | succ n ih =>
    intro l s t h m hm
    rw [run_succ] at h
    simp only [body, Option.bind_eq_some] at h
    obtain ⟨s1, h1, h2⟩ := h
    split at h2
    · exact ih l _ t h2 m hm
    · rename_i hop
      simp only [Option.some.injEq] at h2
      subst h2
      by_cases hml : m = l
      · subst hml
        simpa using hop
      · cases l <;> simp only [layer.operand] at h1
        · exact ih _ _ _ h1 m (by cases m <;> simp_all [layer.depth])
        · exact ih _ _ _ h1 m (by cases m <;> simp_all [layer.depth])
        · exact ih _ _ _ h1 m (by cases m <;> simp_all [layer.depth])
        · exact ih _ _ _ h1 m (by cases m <;> simp_all [layer.depth])
        · cases m <;> simp_all [layer.depth]

/-- The routine `parse_expression` returns on a token that is no binary operator. -/
theorem expression_exit {n : Nat} {s t : parser} (h : run .expression n s = some t) :
    binary_operator t.current_token.name = false := by
  cases n with
  | zero => simp [run_zero] at h
  | succ n =>
    rw [run_succ] at h
    simp only [body] at h
    have key := binary_exit n .or s t h
    have h0 := key .or (by decide)
    have h1 := key .and (by decide)
    have h2 := key .comparison (by decide)
    have h3 := key .additive (by decide)
    have h4 := key .multiplicative (by decide)
    simp only [layer.operator, Bool.or_eq_false_iff, decide_eq_false_iff_not] at h0 h1 h2 h3 h4
    simp only [binary_operator, Bool.or_eq_false_iff, decide_eq_false_iff_not]
    tauto

/-! ## Operator chains are expressions -/

theorem operator_chain_append (pre post : List token_kind) (op : token_kind) :
    operator_chain (pre ++ op :: post) =
      operator_chain pre ++ op :: operator_chain post := by
  induction pre with
  | nil => rfl
  | cons a pre ih => simp [operator_chain, ih]

theorem operator_of_depth {l : layer} {k : token_kind} (h : k.depth = l.depth) :
    l.operator k = true := by
  cases l <;> cases k <;> simp_all [layer.depth, token_kind.depth, layer.operator]

/-- A chain all of whose operators bind at least as tightly as a layer is a phrase of the
layer, as soon as the chains that bind strictly tighter are phrases of its operand. -/
theorem derives_chain_layer (l : layer)
    (H : ∀ ops : List token_kind, (∀ op ∈ ops, l.depth < op.depth ∧ op.depth < 5) →
      derives l.operand (operator_chain ops)) :
    ∀ ops : List token_kind, (∀ op ∈ ops, l.depth ≤ op.depth ∧ op.depth < 5) →
      derives (.binary l) (operator_chain ops) := by
  have key : ∀ (post pre : List token_kind),
      (∀ op ∈ pre, l.depth < op.depth ∧ op.depth < 5) →
      (∀ op ∈ post, l.depth ≤ op.depth ∧ op.depth < 5) →
      derives (.binary l) (operator_chain (pre ++ post)) := by
    intro post
    induction post with
    | nil =>
      intro pre hpre _
      rw [List.append_nil]
      exact derives.operand (H pre hpre)
    | cons op post ih =>
      intro pre hpre hpost
      have hop := hpost op (by simp)
      have hrest : ∀ x ∈ post, l.depth ≤ x.depth ∧ x.depth < 5 :=
        fun x hx => hpost x (by simp [hx])
      by_cases hd : op.depth = l.depth
      · rw [operator_chain_append]
        exact derives.chain (H pre hpre) (operator_of_depth hd)
          (by simpa using ih [] (by simp) hrest)
      · have := ih (pre ++ [op]) (by
          intro x hx
          rcases List.mem_append.mp hx with h1 | h1
          · exact hpre x h1
          · simp only [List.mem_singleton] at h1
            subst h1
            omega) hrest
        simpa using this
  intro ops hops
  simpa using key ops [] (by simp) hops

/-- Every chain of integer literals and binary operators is an expression of the
grammar. -/
theorem derives_operator_chain (ops : List token_kind)
    (h : ∀ op ∈ ops, binary_operator op = true) :
    derives .expression (operator_chain ops) := by
  have hd : ∀ op ∈ ops, op.depth < 5 := by
    intro op hop
    have := h op hop
    cases op <;> simp_all [binary_operator, token_kind.depth]
  have h4 := derives_chain_layer .multiplicative (by
    intro ops hops
    cases ops with
    | nil => exact derives.atom rfl
    | cons a ops =>
      have := hops a (by simp)
      simp only [layer.depth] at this
      omega)
  have h3 := derives_chain_layer .additive h4
  have h2 := derives_chain_layer .comparison h3
  have h1 := derives_chain_layer .and h2
  have h0 := derives_chain_layer .or h1
  exact derives.expression (h0 ops fun op hop => ⟨Nat.zero_le _, hd op hop⟩)

theorem diagnostics_mem {s : parser} {e : event} (h : e ∈ diagnostics s) :
    ∃ line column message, e = event.print_error line column message := by
  simp only [diagnostics, List.mem_filter] at h
  cases e <;> simp at h
  exact ⟨_, _, _, rfl⟩

theorem diagnostic_message_not_trailing {m : String} (h : diagnostic_message m) :
    m ≠ "trailing code after the main expression" := by
  cases h with
  | expected k => cases k <;> decide
  | type_definition => decide
  | expression => decide
  | empty_declaration_list => decide

theorem trailing_steps {s t : parser} (h : steps s t) :
    t.calls.filter trailing = s.calls.filter trailing := by
  induction h with
  | refl => rfl
  | tail _ h2 ih =>
    rw [← ih]
    cases h2 with
    | fetch _ => simp [advance, trailing]
    | report m hm =>
      simp [print_error, trailing, diagnostic_message_not_trailing hm]

theorem derives_of_primary {w : List token_kind} (h : derives .primary w) :
    derives .expression w :=
  derives.expression (derives.operand (derives.operand (derives.operand
    (derives.operand (derives.operand h)))))

/-! ## The claims -/

/-- C1 (completeness). A token stream that is one expression of the grammar, followed by
the end-of-input token, is parsed by `parse_source_file`, given `fuel_bound` units of fuel
or more, without any diagnostic: the calls on record are the two initial ones, one fetch
for each token of the stream and the final clean-up, and the run ends with the
end-of-input token as the current token and nothing left to fetch. -/
theorem parse_source_file_complete (ts : List token) (eof : token) (allocated : program)
    (fuel : Nat) (heof : eof.name = .NONE)
    (h : derives .expression (ts.map token.name))
    (hfuel : fuel_bound .expression (start (ts ++ [eof])) ≤ fuel) :
    ∃ t, parse_source_file fuel allocated (ts ++ [eof]) = some (allocated, t) ∧
      diagnostics t = [] ∧ t.current_token = eof ∧ t.source_file = [] ∧
      t.calls = [event.init_type_check, event.program_allocate] ++
        List.replicate (ts.length + 1) event.get_token ++ [event.clean_up_type_check] := by
  obtain ⟨t, h1, h2, h3, h4, h5⟩ := parse_source_file_of_derives allocated heof h fuel hfuel
  exact ⟨t, h1, h3, h4, h5, h2⟩

/-- Witness of C1: the stream `2 + 3 * 4`. -/
theorem parse_source_file_complete_witness :
    (⟨.NONE, 1, 5⟩ : token).name = .NONE ∧
    derives .expression
      ((layout 0 [.INTEGER_CONSTANT, .PLUS, .INTEGER_CONSTANT, .ASTERISK,
        .INTEGER_CONSTANT]).map token.name) ∧
    fuel_bound .expression (start (layout 0 [.INTEGER_CONSTANT, .PLUS, .INTEGER_CONSTANT,
      .ASTERISK, .INTEGER_CONSTANT] ++ [⟨.NONE, 1, 5⟩])) ≤ 100 ∧
    ∃ t, parse_source_file 100 ⟨0⟩ (layout 0 [.INTEGER_CONSTANT, .PLUS, .INTEGER_CONSTANT,
        .ASTERISK, .INTEGER_CONSTANT] ++ [⟨.NONE, 1, 5⟩]) = some (⟨0⟩, t) ∧
      diagnostics t = [] ∧ t.current_token = ⟨.NONE, 1, 5⟩ ∧ t.source_file = [] ∧
      t.calls = [event.init_type_check, event.program_allocate] ++
        List.replicate ((layout 0 [.INTEGER_CONSTANT, .PLUS, .INTEGER_CONSTANT, .ASTERISK,
          .INTEGER_CONSTANT]).length + 1) event.get_token ++
          [event.clean_up_type_check] :=
  ⟨rfl, derives_operator_chain [.PLUS, .ASTERISK] (by decide), by decide,
    parse_source_file_complete _ _ ⟨0⟩ 100 rfl
      (derives_operator_chain [.PLUS, .ASTERISK] (by decide)) (by decide)⟩

/-- C2 (soundness). For a token stream ending in its only end-of-input token,
`parse_source_file` returns, given `fuel_bound` units of fuel or more; if it reports no
diagnostic then the stream up to the end-of-input token is one expression of the grammar,
and if the stream is not one expression of the grammar then some diagnostic is reported;
every diagnostic reported carries the line and the column of a token of the stream. -/
theorem parse_source_file_rejects (ts : List token) (eof : token) (allocated : program)
    (fuel : Nat) (hts : ∀ u ∈ ts, u.name ≠ .NONE) (heof : eof.name = .NONE)
    (hfuel : fuel_bound .expression (start (ts ++ [eof])) ≤ fuel) :
    ∃ t, parse_source_file fuel allocated (ts ++ [eof]) = some (allocated, t) ∧
      (diagnostics t = [] → derives .expression (ts.map token.name)) ∧
      (¬ derives .expression (ts.map token.name) →
        ∃ line column message, event.print_error line column message ∈ diagnostics t ∧
          ∃ u ∈ ts ++ [eof], u.line = line ∧ u.column = column) ∧
      ∀ line column message, event.print_error line column message ∈ diagnostics t →
        ∃ u ∈ ts ++ [eof], u.line = line ∧ u.column = column := by
  obtain ⟨h1, h2⟩ := parse_source_file_sound hts heof
  refine ⟨_, parse_source_file_eq fuel allocated _ hfuel, h1, fun hn => ?_,
    fun line column message hm => h2 _ hm⟩
  cases hd : diagnostics (finish (final .expression (start (ts ++ [eof])))) with
  | nil => exact absurd (h1 hd) hn
  | cons e l =>
    have he : e ∈ diagnostics (finish (final .expression (start (ts ++ [eof])))) := by
      rw [hd]; simp
    obtain ⟨line, column, message, rfl⟩ := diagnostics_mem he
    exact ⟨line, column, message, by simp, h2 _ he⟩

/-- Witness of C2: the stream `1 2`. -/
theorem parse_source_file_rejects_witness :
    (∀ u ∈ layout 0 [.INTEGER_CONSTANT, .INTEGER_CONSTANT], u.name ≠ .NONE) ∧
    (⟨.NONE, 1, 2⟩ : token).name = .NONE ∧
    fuel_bound .expression
      (start (layout 0 [.INTEGER_CONSTANT, .INTEGER_CONSTANT] ++ [⟨.NONE, 1, 2⟩])) ≤ 60 ∧
    ∃ t, parse_source_file 60 ⟨0⟩
        (layout 0 [.INTEGER_CONSTANT, .INTEGER_CONSTANT] ++ [⟨.NONE, 1, 2⟩]) =
          some (⟨0⟩, t) ∧
      (diagnostics t = [] → derives .expression
        ((layout 0 [.INTEGER_CONSTANT, .INTEGER_CONSTANT]).map token.name)) ∧
      (¬ derives .expression
          ((layout 0 [.INTEGER_CONSTANT, .INTEGER_CONSTANT]).map token.name) →
        ∃ line column message, event.print_error line column message ∈ diagnostics t ∧
          ∃ u ∈ layout 0 [.INTEGER_CONSTANT, .INTEGER_CONSTANT] ++ [⟨.NONE, 1, 2⟩],
            u.line = line ∧ u.column = column) ∧
      ∀ line column message, event.print_error line column message ∈ diagnostics t →
        ∃ u ∈ layout 0 [.INTEGER_CONSTANT, .INTEGER_CONSTANT] ++ [⟨.NONE, 1, 2⟩],
          u.line = line ∧ u.column = column :=
  ⟨by decide, rfl, by decide,
    parse_source_file_rejects _ _ ⟨0⟩ 60 (by decide) rfl (by decide)⟩

/-- C3. `parse_next_token(kind)`: when the tag of the current token is `kind`, the next
token is fetched from the scanner (one fetch, one token further) and no diagnostic is
emitted; otherwise one diagnostic is emitted, at the line and column of the current token,
with the message `expected` followed by the display name of `kind`, and neither the current
token nor the scanner changes. The display name of the `of` keyword is `'of'`, that of the
assignment operator is `:=`. -/
theorem parse_next_token_spec (kind : token_kind) (s : parser) :
    parse_next_token kind s =
      (if s.current_token.name = kind then
        { source_file := s.source_file.tail
          current_token := s.source_file.headD ⟨.NONE, 0, 0⟩
          calls := s.calls ++ [event.get_token] }
      else
        { source_file := s.source_file
          current_token := s.current_token
          calls := s.calls ++ [event.print_error s.current_token.line
            s.current_token.column ("expected " ++ token_kind_string kind)] }) ∧
    diagnostics (parse_next_token kind s) =
      (if s.current_token.name = kind then diagnostics s
      else diagnostics s ++ [event.print_error s.current_token.line
        s.current_token.column ("expected " ++ token_kind_string kind)]) ∧
    token_kind_string .OF_KEYWORD = "'of'" ∧
    token_kind_string .ASSIGNMENT = ":=" := by
  refine ⟨?_, ?_, rfl, rfl⟩
  · by_cases h : s.current_token.name = kind
    · simp only [parse_next_token_match h, h, if_true, advance, get_token]
      cases s.source_file <;> rfl
    · simp only [parse_next_token_mismatch h, h, if_false, print_error]
  · by_cases h : s.current_token.name = kind
    · simp [parse_next_token_match h, h]
    · simp [parse_next_token_mismatch h, h]

/-- C4. Identifier-led disambiguation. Let `parse_identifier` be entered with `[` as the
current token, the bracketed expression be read up to a state `s1`, and `]` be the current
token there. (i) If `of` follows the `]`, `parse_identifier` consumes the `of`, runs
`parse_expression` once more and returns, without running `parse_lvalue_suffix` and without
looking for `:=`. (ii) Otherwise it runs `parse_lvalue_suffix` after the `]` and, if `:=`
is then the current token, consumes it and runs `parse_expression`. The streams `a[3]`,
`intArray[3] of 0`, `a[3] := 5` and `a[3].b` are parsed by `parse_source_file` without
diagnostic up to the end of input, and only in the second one is `of` the token after the
`]`. -/
theorem parse_identifier_bracket (n : Nat) (s s1 : parser)
    (hs : s.current_token.name = .LEFT_BRACKET)
    (h1 : parse_expression n (advance s) = some s1)
    (h2 : s1.current_token.name = .RIGHT_BRACKET) :
    ((advance s1).current_token.name = .OF_KEYWORD →
      parse_identifier (n + 1) s = parse_expression n (advance (advance s1))) ∧
    ((advance s1).current_token.name ≠ .OF_KEYWORD →
      parse_identifier (n + 1) s =
        (parse_lvalue_suffix n (advance s1)).bind fun s2 =>
          if s2.current_token.name = .ASSIGNMENT then parse_expression n (advance s2)
          else some s2) ∧
    (parse_source_file 60 ⟨0⟩ (layout 0 [.IDENTIFIER, .LEFT_BRACKET, .INTEGER_CONSTANT,
        .RIGHT_BRACKET, .NONE])).map
      (fun r => (diagnostics r.2, r.2.current_token.name, r.2.source_file)) =
        some ([], .NONE, []) ∧
    (parse_source_file 90 ⟨0⟩ (layout 0 [.IDENTIFIER, .LEFT_BRACKET, .INTEGER_CONSTANT,
        .RIGHT_BRACKET, .OF_KEYWORD, .INTEGER_CONSTANT, .NONE])).map
      (fun r => (diagnostics r.2, r.2.current_token.name, r.2.source_file)) =
        some ([], .NONE, []) ∧
    (parse_source_file 90 ⟨0⟩ (layout 0 [.IDENTIFIER, .LEFT_BRACKET, .INTEGER_CONSTANT,
        .RIGHT_BRACKET, .ASSIGNMENT, .INTEGER_CONSTANT, .NONE])).map
      (fun r => (diagnostics r.2, r.2.current_token.name, r.2.source_file)) =
        some ([], .NONE, []) ∧
    (parse_source_file 90 ⟨0⟩ (layout 0 [.IDENTIFIER, .LEFT_BRACKET, .INTEGER_CONSTANT,
        .RIGHT_BRACKET, .DOT, .IDENTIFIER, .NONE])).map
      (fun r => (diagnostics r.2, r.2.current_token.name, r.2.source_file)) =
        some ([], .NONE, []) ∧
    (parse_expression 60 (advance (advance (start (layout 0 [.IDENTIFIER, .LEFT_BRACKET,
        .INTEGER_CONSTANT, .RIGHT_BRACKET, .NONE]))))).map
      (fun x => (x.current_token.name, (advance x).current_token.name)) =
        some (.RIGHT_BRACKET, .NONE) ∧
    (parse_expression 60 (advance (advance (start (layout 0 [.IDENTIFIER, .LEFT_BRACKET,
        .INTEGER_CONSTANT, .RIGHT_BRACKET, .OF_KEYWORD, .INTEGER_CONSTANT, .NONE]))))).map
      (fun x => (x.current_token.name, (advance x).current_token.name)) =
        some (.RIGHT_BRACKET, .OF_KEYWORD) ∧
    (parse_expression 60 (advance (advance (start (layout 0 [.IDENTIFIER, .LEFT_BRACKET,
        .INTEGER_CONSTANT, .RIGHT_BRACKET, .ASSIGNMENT, .INTEGER_CONSTANT, .NONE]))))).map
      (fun x => (x.current_token.name, (advance x).current_token.name)) =
        some (.RIGHT_BRACKET, .ASSIGNMENT) ∧
    (parse_expression 60 (advance (advance (start (layout 0 [.IDENTIFIER, .LEFT_BRACKET,
        .INTEGER_CONSTANT, .RIGHT_BRACKET, .DOT, .IDENTIFIER, .NONE]))))).map
      (fun x => (x.current_token.name, (advance x).current_token.name)) =
        some (.RIGHT_BRACKET, .DOT) := by
  have hp := parse_next_token_match h2
  have key : parse_identifier (n + 1) s =
      if (advance s1).current_token.name = .OF_KEYWORD then
        parse_expression n (advance (advance s1))
      else
        (parse_lvalue_suffix n (advance s1)).bind fun s2 =>
          if s2.current_token.name = .ASSIGNMENT then parse_expression n (advance s2)
          else some s2 := by
    show run .identifier_rest (n + 1) s = _
    rw [run_succ]
    simp only [body, hs]
    have h1' : run .expression n (advance s) = some s1 := h1
    rw [h1', Option.some_bind, hp]
    rfl
  refine ⟨fun h => by rw [key, if_pos h], fun h => by rw [key, if_neg h], ?_, ?_, ?_, ?_,
    ?_, ?_, ?_, ?_⟩ <;> decide

/-- Witness of C4: the stream `intArray[3] of 0`, entered after its identifier. -/
theorem parse_identifier_bracket_witness :
    (advance (start (layout 0 [.IDENTIFIER, .LEFT_BRACKET, .INTEGER_CONSTANT,
      .RIGHT_BRACKET, .OF_KEYWORD, .INTEGER_CONSTANT, .NONE]))).current_token.name =
        .LEFT_BRACKET ∧
    parse_expression 20 (advance (advance (start (layout 0 [.IDENTIFIER, .LEFT_BRACKET,
      .INTEGER_CONSTANT, .RIGHT_BRACKET, .OF_KEYWORD, .INTEGER_CONSTANT, .NONE])))) =
        some ⟨[⟨.OF_KEYWORD, 1, 4⟩, ⟨.INTEGER_CONSTANT, 1, 5⟩, ⟨.NONE, 1, 6⟩],
          ⟨.RIGHT_BRACKET, 1, 3⟩,
          [.init_type_check, .program_allocate, .get_token, .get_token, .get_token,
            .get_token]⟩ ∧
    parse_identifier 21 (advance (start (layout 0 [.IDENTIFIER, .LEFT_BRACKET,
      .INTEGER_CONSTANT, .RIGHT_BRACKET, .OF_KEYWORD, .INTEGER_CONSTANT, .NONE]))) =
        parse_expression 20 (advance (advance
          (⟨[⟨.OF_KEYWORD, 1, 4⟩, ⟨.INTEGER_CONSTANT, 1, 5⟩, ⟨.NONE, 1, 6⟩],
            ⟨.RIGHT_BRACKET, 1, 3⟩,
            [.init_type_check, .program_allocate, .get_token, .get_token, .get_token,
              .get_token]⟩ : parser))) :=
  ⟨by decide, by decide,
    (parse_identifier_bracket 20 _ _ (by decide) (by decide) (by decide)).1 (by decide)⟩

theorem parse_identifier_default_final {m : Nat} {s : parser}
    (h : fuel_bound .identifier_rest s ≤ m) :
    parse_identifier_default m s = some (assignment_part (final .lvalue_suffixes s)) := by
  unfold parse_identifier_default
  have h1 : parse_lvalue_suffix m s = some (final .lvalue_suffixes s) :=
    run_final (r := .lvalue_suffixes) (by
      simp only [fuel_bound, nonterminal.rank] at h ⊢; omega)
  rw [h1, Option.some_bind]
  unfold assignment_part
  split
  · rename_i hk
    exact run_final (r := .expression) (by
      have h2 := remaining_steps (steps_final .lvalue_suffixes s)
      have h3 := remaining_advance_lt (final .lvalue_suffixes s) (by rw [hk]; simp)
      simp only [fuel_bound, nonterminal.rank] at h ⊢
      omega)
  · rfl

theorem parse_identifier_default_eq_final {m : Nat} {s u : parser}
    (h : parse_identifier_default m s = some u) :
    u = assignment_part (final .lvalue_suffixes s) := by
  unfold parse_identifier_default at h
  simp only [Option.bind_eq_some] at h
  obtain ⟨s2, h1, h2⟩ := h
  have e1 : s2 = final .lvalue_suffixes s := run_eq_final (r := .lvalue_suffixes) h1
  subst e1
  unfold assignment_part
  split at h2
  · rename_i hk
    rw [if_pos hk]
    exact run_eq_final (r := .expression) h2
  · rename_i hk
    rw [if_neg hk]
    exact (Option.some.inj h2).symm

/-- C5. The shared bracket path is the plain-lvalue path. Let the current token be `[`,
and let no `of` be the current token after the bracketed expression and the call
`parse_next_token(RIGHT_BRACKET)`. Then `parse_identifier` and the statements under its
`default:` label (`parse_lvalue_suffix`, then the optional `:=` expression), started in
that same state, return in the same state `t`, calls on record included: each returns `t`
given `fuel_bound` units of fuel or more, and neither returns anything else whatever the
fuel. -/
theorem bracket_branch_eq_default (n : Nat) (s s1 : parser)
    (hs : s.current_token.name = .LEFT_BRACKET)
    (h1 : parse_expression n (advance s) = some s1)
    (h2 : (parse_next_token .RIGHT_BRACKET s1).current_token.name ≠ .OF_KEYWORD) :
    ∃ t, (∀ m, fuel_bound .identifier_rest s ≤ m → parse_identifier m s = some t) ∧
      (∀ m, fuel_bound .identifier_rest s ≤ m → parse_identifier_default m s = some t) ∧
      (∀ m u, parse_identifier m s = some u → u = t) ∧
      (∀ m u, parse_identifier_default m s = some u → u = t) := by
  have e1 : s1 = final .expression (advance s) := run_eq_final (r := .expression) h1
  have key : final .identifier_rest s = assignment_part (final .lvalue_suffixes s) := by
    rw [final_identifier_rest, final_lvalue_suffixes s]
    simp only [hs]
    rw [← e1]
    simp only [h2, if_false]
  refine ⟨assignment_part (final .lvalue_suffixes s), fun m hm => ?_,
    fun m hm => parse_identifier_default_final hm, fun m u hu => ?_,
    fun m u hu => parse_identifier_default_eq_final hu⟩
  · rw [← key]
    exact run_final (r := .identifier_rest) hm
  · rw [← key]
    exact run_eq_final (r := .identifier_rest) hu

/-- Witness of C5: the stream `a[3] := 5`, entered after its identifier. -/
theorem bracket_branch_eq_default_witness :
    (advance (start (layout 0 [.IDENTIFIER, .LEFT_BRACKET, .INTEGER_CONSTANT,
      .RIGHT_BRACKET, .ASSIGNMENT, .INTEGER_CONSTANT, .NONE]))).current_token.name =
        .LEFT_BRACKET ∧
    parse_expression 20 (advance (advance (start (layout 0 [.IDENTIFIER, .LEFT_BRACKET,
      .INTEGER_CONSTANT, .RIGHT_BRACKET, .ASSIGNMENT, .INTEGER_CONSTANT, .NONE])))) =
        some ⟨[⟨.ASSIGNMENT, 1, 4⟩, ⟨.INTEGER_CONSTANT, 1, 5⟩, ⟨.NONE, 1, 6⟩],
          ⟨.RIGHT_BRACKET, 1, 3⟩,
          [.init_type_check, .program_allocate, .get_token, .get_token, .get_token,
            .get_token]⟩ ∧
    (parse_next_token .RIGHT_BRACKET
      (⟨[⟨.ASSIGNMENT, 1, 4⟩, ⟨.INTEGER_CONSTANT, 1, 5⟩, ⟨.NONE, 1, 6⟩],
        ⟨.RIGHT_BRACKET, 1, 3⟩,
        [.init_type_check, .program_allocate, .get_token, .get_token, .get_token,
          .get_token]⟩ : parser)).current_token.name ≠ .OF_KEYWORD ∧
    ∃ t, (∀ m, fuel_bound .identifier_rest (advance (start (layout 0 [.IDENTIFIER,
          .LEFT_BRACKET, .INTEGER_CONSTANT, .RIGHT_BRACKET, .ASSIGNMENT, .INTEGER_CONSTANT,
          .NONE]))) ≤ m →
        parse_identifier m (advance (start (layout 0 [.IDENTIFIER, .LEFT_BRACKET,
          .INTEGER_CONSTANT, .RIGHT_BRACKET, .ASSIGNMENT, .INTEGER_CONSTANT, .NONE]))) =
            some t) ∧
      (∀ m, fuel_bound .identifier_rest (advance (start (layout 0 [.IDENTIFIER,
          .LEFT_BRACKET, .INTEGER_CONSTANT, .RIGHT_BRACKET, .ASSIGNMENT, .INTEGER_CONSTANT,
          .NONE]))) ≤ m →
        parse_identifier_default m (advance (start (layout 0 [.IDENTIFIER, .LEFT_BRACKET,
          .INTEGER_CONSTANT, .RIGHT_BRACKET, .ASSIGNMENT, .INTEGER_CONSTANT, .NONE]))) =
            some t) ∧
      (∀ m u, parse_identifier m (advance (start (layout 0 [.IDENTIFIER, .LEFT_BRACKET,
          .INTEGER_CONSTANT, .RIGHT_BRACKET, .ASSIGNMENT, .INTEGER_CONSTANT, .NONE]))) =
            some u → u = t) ∧
      (∀ m u, parse_identifier_default m (advance (start (layout 0 [.IDENTIFIER,
          .LEFT_BRACKET, .INTEGER_CONSTANT, .RIGHT_BRACKET, .ASSIGNMENT, .INTEGER_CONSTANT,
          .NONE]))) = some u → u = t) :=
  ⟨by decide, by decide, by decide,
    bracket_branch_eq_default 20 _
      ⟨[⟨.ASSIGNMENT, 1, 4⟩, ⟨.INTEGER_CONSTANT, 1, 5⟩, ⟨.NONE, 1, 6⟩],
        ⟨.RIGHT_BRACKET, 1, 3⟩,
        [.init_type_check, .program_allocate, .get_token, .get_token, .get_token,
          .get_token]⟩ (by decide) (by decide) (by decide)⟩

/-- Counterexample to C6 as stated: `if a then (b)` is an expression of the grammar, and
with its `then` omitted the stream `if a (b)` makes `parse_source_file` report two
diagnostics, both at the end of input. -/
theorem missing_then_two_diagnostics :
    derives .expression [.IF_KEYWORD, .IDENTIFIER, .THEN_KEYWORD, .LEFT_PARENTHESIS,
      .IDENTIFIER, .RIGHT_PARENTHESIS] ∧
    (parse_source_file 90 ⟨0⟩ (layout 0 [.IF_KEYWORD, .IDENTIFIER, .LEFT_PARENTHESIS,
      .IDENTIFIER, .RIGHT_PARENTHESIS, .NONE])).map (fun r => diagnostics r.2) =
        some [event.print_error 1 5 "expected 'then'",
          event.print_error 1 5 "expected expression"] := by
  refine ⟨?_, by decide⟩
  have ha : derives .expression [.IDENTIFIER] :=
    derives_of_primary (derives.identifier (derives.lvalue derives.no_suffix))
  have hb : derives .expression [.LEFT_PARENTHESIS, .IDENTIFIER, .RIGHT_PARENTHESIS] :=
    derives_of_primary (derives.parenthesized
      (derives.full_series (k := .expression_sequence) (e := .RIGHT_PARENTHESIS)
        (derives.one_element (k := .expression_sequence) ha)))
  exact derives_of_primary (derives.conditional (derives.if_then ha hb))

/-- C7. Trailing input. Given `fuel_bound` units of fuel or more, the single top-level call
of `parse_expression` returns in some state `s1`, and `parse_source_file` then returns the
handle obtained from `program_allocate` together with the state reached from `s1` by
reporting `trailing code after the main expression` at the line and column of the current
token when that token is not the end of input, by reporting nothing otherwise, and by
calling `clean_up_type_check`. The calls on record at the end contain that message once in
the first case and not at all in the second. For the stream `1 2` the diagnostics of the
run are exactly that one, at the position of the token `2`. -/
theorem parse_source_file_trailing (file : source_file) (allocated : program) (fuel : Nat)
    (hfuel : fuel_bound .expression (start file) ≤ fuel) :
    (∃ s1, parse_expression fuel (start file) = some s1 ∧
      parse_source_file fuel allocated file =
        some (allocated, clean_up_type_check
          (if s1.current_token.name ≠ .NONE then
            print_error s1.current_token.line s1.current_token.column
              "trailing code after the main expression" s1
          else s1)) ∧
      (clean_up_type_check
          (if s1.current_token.name ≠ .NONE then
            print_error s1.current_token.line s1.current_token.column
              "trailing code after the main expression" s1
          else s1)).calls.filter trailing =
        (if s1.current_token.name ≠ .NONE then
          [event.print_error s1.current_token.line s1.current_token.column
            "trailing code after the main expression"]
        else [])) ∧
    (parse_source_file 60 allocated
        (layout 0 [.INTEGER_CONSTANT, .INTEGER_CONSTANT, .NONE])).map
      (fun r => (r.1, diagnostics r.2, r.2.current_token)) =
        some (allocated,
          [event.print_error 1 1 "trailing code after the main expression"],
          ⟨.INTEGER_CONSTANT, 1, 1⟩) := by
  refine ⟨⟨final .expression (start file), run_final (r := .expression) hfuel,
    parse_source_file_eq fuel allocated file hfuel, ?_⟩, rfl⟩
  have h0 : (final .expression (start file)).calls.filter trailing = [] := by
    rw [trailing_steps (steps_final .expression (start file))]
    rfl
  split
  · simp [clean_up_type_check, print_error, h0, trailing]
  · simp [clean_up_type_check, h0, trailing]

/-- Witness of C7: the stream `1 2`. -/
theorem parse_source_file_trailing_witness :
    fuel_bound .expression
      (start (layout 0 [.INTEGER_CONSTANT, .INTEGER_CONSTANT, .NONE])) ≤ 60 ∧
    ∃ s1, parse_expression 60
        (start (layout 0 [.INTEGER_CONSTANT, .INTEGER_CONSTANT, .NONE])) = some s1 ∧
      parse_source_file 60 ⟨0⟩ (layout 0 [.INTEGER_CONSTANT, .INTEGER_CONSTANT, .NONE]) =
        some (⟨0⟩, clean_up_type_check
          (if s1.current_token.name ≠ .NONE then
            print_error s1.current_token.line s1.current_token.column
              "trailing code after the main expression" s1
          else s1)) ∧
      (clean_up_type_check
          (if s1.current_token.name ≠ .NONE then
            print_error s1.current_token.line s1.current_token.column
              "trailing code after the main expression" s1
          else s1)).calls.filter trailing =
        (if s1.current_token.name ≠ .NONE then
          [event.print_error s1.current_token.line s1.current_token.column
            "trailing code after the main expression"]
        else []) :=
  ⟨by decide, (parse_source_file_trailing _ ⟨0⟩ 60 (by decide)).1⟩

/-- C8. Empty declaration list in `let`. Entered with `in` as the current token,
`parse_let_expression` reports one diagnostic, `empty declaration list`, at the line and
column of that `in`, fetches the next token, and goes on with
`parse_expression_sequence(END_KEYWORD)`; this is the very continuation it has after a
declaration list followed by `in`, where `parse_next_token(IN_KEYWORD)` fetches the next
token. For the stream `let in end` the diagnostics of `parse_source_file` are exactly this
one, and the run ends at the end of input. -/
theorem parse_let_expression_empty (n : Nat) (s : parser)
    (h : s.current_token.name = .IN_KEYWORD) :
    parse_let_expression (n + 1) s =
      parse_expression_sequence n .END_KEYWORD
        (advance (print_error s.current_token.line s.current_token.column
          "empty declaration list" s)) ∧
    diagnostics (advance (print_error s.current_token.line s.current_token.column
        "empty declaration list" s)) =
      diagnostics s ++ [event.print_error s.current_token.line s.current_token.column
        "empty declaration list"] ∧
    (advance (print_error s.current_token.line s.current_token.column
        "empty declaration list" s)).current_token = (advance s).current_token ∧
    (advance (print_error s.current_token.line s.current_token.column
        "empty declaration list" s)).source_file = (advance s).source_file ∧
    (∀ u u1 : parser, u.current_token.name ≠ .IN_KEYWORD →
      parse_declaration_list n u = some u1 → u1.current_token.name = .IN_KEYWORD →
      parse_let_expression (n + 1) u =
        parse_expression_sequence n .END_KEYWORD (advance u1)) ∧
    (parse_source_file 60 ⟨0⟩
        (layout 0 [.LET_KEYWORD, .IN_KEYWORD, .END_KEYWORD, .NONE])).map
      (fun r => (diagnostics r.2, r.2.current_token, r.2.source_file)) =
        some ([event.print_error 1 1 "empty declaration list"], ⟨.NONE, 1, 3⟩, []) := by
  refine ⟨?_, by simp, rfl, rfl, ?_, by decide⟩
  · show run .let_rest (n + 1) s = _
    rw [run_succ]
    simp only [body, h, if_true]
    rfl
  · intro u u1 hu h1 h2
    show run .let_rest (n + 1) u = _
    rw [run_succ]
    simp only [body, hu, if_false]
    have h1' : run .declaration_list n u = some u1 := h1
    rw [h1', Option.some_bind, parse_next_token_match h2]
    rfl

/-- Witness of C8: the stream `let in end`, entered after its `let`. -/
theorem parse_let_expression_empty_witness :
    (advance (start (layout 0 [.LET_KEYWORD, .IN_KEYWORD, .END_KEYWORD,
      .NONE]))).current_token.name = .IN_KEYWORD ∧
    parse_let_expression 21 (advance (start (layout 0 [.LET_KEYWORD, .IN_KEYWORD,
      .END_KEYWORD, .NONE]))) =
      parse_expression_sequence 20 .END_KEYWORD
        (advance (print_error 1 1 "empty declaration list"
          (advance (start (layout 0 [.LET_KEYWORD, .IN_KEYWORD, .END_KEYWORD, .NONE]))))) :=
  ⟨by decide, (parse_let_expression_empty 20 _ (by decide)).1⟩

/-- C9. Operator chains. A stream of integer literals with one binary operator, any of the
twelve, between each two of them, followed by the end-of-input token, is parsed by
`parse_source_file`, given `fuel_bound` units of fuel or more, without diagnostic and up to
the end of input. -/
theorem parse_source_file_operator_chain (ops : List token_kind) (ts : List token)
    (eof : token) (allocated : program) (fuel : Nat)
    (hops : ∀ op ∈ ops, binary_operator op = true)
    (hts : ts.map token.name = operator_chain ops) (heof : eof.name = .NONE)
    (hfuel : fuel_bound .expression (start (ts ++ [eof])) ≤ fuel) :
    ∃ t, parse_source_file fuel allocated (ts ++ [eof]) = some (allocated, t) ∧
      diagnostics t = [] ∧ t.current_token = eof ∧ t.source_file = [] := by
  obtain ⟨t, h1, _, h3, h4, h5⟩ := parse_source_file_of_derives allocated heof
    (by rw [hts]; exact derives_operator_chain ops hops) fuel hfuel
  exact ⟨t, h1, h3, h4, h5⟩

/-- Witness of C9: the streams `2 - 3 - 4`, `2 + 3 * 4` and `1 < 2 = 0`. -/
theorem parse_source_file_operator_chain_witness :
    (∃ t, parse_source_file 100 ⟨0⟩ (layout 0 [.INTEGER_CONSTANT, .MINUS,
        .INTEGER_CONSTANT, .MINUS, .INTEGER_CONSTANT] ++ [⟨.NONE, 1, 5⟩]) = some (⟨0⟩, t) ∧
      diagnostics t = [] ∧ t.current_token = ⟨.NONE, 1, 5⟩ ∧ t.source_file = []) ∧
    (∃ t, parse_source_file 100 ⟨0⟩ (layout 0 [.INTEGER_CONSTANT, .PLUS,
        .INTEGER_CONSTANT, .ASTERISK, .INTEGER_CONSTANT] ++ [⟨.NONE, 1, 5⟩]) =
          some (⟨0⟩, t) ∧
      diagnostics t = [] ∧ t.current_token = ⟨.NONE, 1, 5⟩ ∧ t.source_file = []) ∧
    (∃ t, parse_source_file 100 ⟨0⟩ (layout 0 [.INTEGER_CONSTANT, .LESS,
        .INTEGER_CONSTANT, .EQUAL, .INTEGER_CONSTANT] ++ [⟨.NONE, 1, 5⟩]) = some (⟨0⟩, t) ∧
      diagnostics t = [] ∧ t.current_token = ⟨.NONE, 1, 5⟩ ∧ t.source_file = []) :=
  ⟨parse_source_file_operator_chain [.MINUS, .MINUS] _ _ ⟨0⟩ 100 (by decide) (by decide) rfl
      (by decide),
    parse_source_file_operator_chain [.PLUS, .ASTERISK] _ _ ⟨0⟩ 100 (by decide) (by decide)
      rfl (by decide),
    parse_source_file_operator_chain [.LESS, .EQUAL] _ _ ⟨0⟩ 100 (by decide) (by decide) rfl
      (by decide)⟩

/-- C10, as amended. Entered with `-` as the current token, `parse_primary_expression`
consumes the `-` and then runs `parse_expression`, a whole expression and not one primary
operand: whatever binary operators follow the operand are consumed inside that call, and
the token on which it returns is no binary operator. -/
theorem parse_primary_expression_minus (n : Nat) (s : parser)
    (h : s.current_token.name = .MINUS) :
    parse_primary_expression (n + 1) s = parse_expression n (advance s) ∧
    (∀ t, parse_primary_expression (n + 1) s = some t →
      binary_operator t.current_token.name = false) ∧
    (fuel_bound .primary s ≤ n + 1 → ∃ t, parse_primary_expression (n + 1) s = some t) := by
  have key : parse_primary_expression (n + 1) s = parse_expression n (advance s) := by
    show run .primary (n + 1) s = _
    rw [run_succ]
    simp only [body, h]
    rfl
  refine ⟨key, fun t ht => ?_, fun hf => ⟨_, run_final (r := .primary) hf⟩⟩
  rw [key] at ht
  exact expression_exit (n := n) (s := advance s) ht

/-- Witness of C10 as amended: the stream `- 1 * 2`. -/
theorem parse_primary_expression_minus_witness :
    (start (layout 0 [.MINUS, .INTEGER_CONSTANT, .ASTERISK, .INTEGER_CONSTANT,
      .NONE])).current_token.name = .MINUS ∧
    parse_primary_expression 31 (start (layout 0 [.MINUS, .INTEGER_CONSTANT, .ASTERISK,
        .INTEGER_CONSTANT, .NONE])) =
      parse_expression 30 (advance (start (layout 0 [.MINUS, .INTEGER_CONSTANT, .ASTERISK,
        .INTEGER_CONSTANT, .NONE]))) :=
  ⟨by decide, (parse_primary_expression_minus 30 _ (by decide)).1⟩

/-- Counterexample to C10 as stated: on the stream `- 1 * 2`, `parse_primary_expression`
started at the `-` returns with the end-of-input token as the current token, the `*` and
its operand having been consumed inside the operand of the unary minus. -/
theorem minus_operand_takes_product :
    (parse_primary_expression 40 (start (layout 0 [.MINUS, .INTEGER_CONSTANT, .ASTERISK,
      .INTEGER_CONSTANT, .NONE]))).map (fun t => (t.current_token, t.source_file)) =
        some (⟨.NONE, 1, 4⟩, []) ∧
    (parse_primary_expression 40 (start (layout 0 [.MINUS, .INTEGER_CONSTANT, .ASTERISK,
      .INTEGER_CONSTANT, .NONE]))).map (fun t => t.current_token.name) ≠
        some .ASTERISK := by
  decide

/-! ## Lists of expressions -/

theorem diagnostics_consume {w : List token_kind} {s t : parser} (h : consume w s = some t) :
    diagnostics t = diagnostics s := by
  induction w generalizing s with
  | nil => rw [consume_nil_inv h]
  | cons k w ih =>
    obtain ⟨_, h2⟩ := consume_cons_inv h
    rw [ih h2, diagnostics_advance]

/-- Expressions with the separator of a list form between them are the elements of that
list form. -/
theorem derives_separated (k : series_kind) (hk : k.item = .expression) :
    ∀ ws : List (List token_kind), ws ≠ [] → (∀ w ∈ ws, derives .expression w) →
      derives (.elements k) (separated k.separator ws) := by
  intro ws
  induction ws with
  | nil => intro h; exact absurd rfl h
  | cons w ws ih =>
    intro _ hws
    have hw : derives k.item w := by rw [hk]; exact hws w (by simp)
    cases ws with
    | nil => exact derives.one_element hw
    | cons v ws =>
      exact derives.more_elements hw (ih (by simp) fun x hx => hws x (by simp [hx]))

/-- Zero or more expressions with the separator between them, then the terminator, are a
phrase of the list form. -/
theorem derives_series (k : series_kind) (hk : k.item = .expression) (e : terminator)
    (ws : List (List token_kind)) (hws : ∀ w ∈ ws, derives .expression w) :
    derives (.series k e) (separated k.separator ws ++ [e.kind]) := by
  cases ws with
  | nil => exact derives.empty_series
  | cons w ws => exact derives.full_series (derives_separated k hk _ (by simp) hws)

/-- A list form reads the phrases of its rule without diagnostic and exactly. -/
theorem final_series_of_derives {k : series_kind} {e : terminator} {w : List token_kind}
    {s t : parser} (h : derives (.series k e) w) (hc : consume w s = some t) :
    final (.series k e) s = t :=
  final_complete h (fun x => x = t) s t trivial hc rfl

/-- C11. List grammars accept zero, one or many elements. Let `ws` be any number of
expressions of the grammar. Started where the tokens ahead are those expressions with `;`
between them followed by the terminator, `parse_expression_sequence`, given `fuel_bound`
units of fuel or more, returns in the state `t` reached by reading exactly those tokens,
terminator included, and reports no diagnostic; likewise `parse_expression_list` with `,`
between the expressions. With no expression at all only the terminator is read. The streams
`()`, `(1)`, `(1;2;3)`, `f()`, `f(1)` and `f(1,2)` are parsed by `parse_source_file`
without diagnostic up to the end of input. -/
theorem list_forms_accept (ws : List (List token_kind)) (e : terminator) (s t : parser)
    (fuel : Nat) (hws : ∀ w ∈ ws, derives .expression w) :
    (consume (separated .SEMICOLON ws ++ [e.kind]) s = some t →
      fuel_bound (.series .expression_sequence e) s ≤ fuel →
      parse_expression_sequence fuel e.kind s = some t ∧ diagnostics t = diagnostics s) ∧
    (consume (separated .COMMA ws ++ [e.kind]) s = some t →
      fuel_bound (.series .expression_list e) s ≤ fuel →
      parse_expression_list fuel e.kind s = some t ∧ diagnostics t = diagnostics s) ∧
    (consume [e.kind] s = some t ↔ s.current_token.name = e.kind ∧ t = advance s) ∧
    (parse_source_file 60 ⟨0⟩ (layout 0 [.LEFT_PARENTHESIS, .RIGHT_PARENTHESIS, .NONE])).map
      (fun r => (diagnostics r.2, r.2.current_token.name, r.2.source_file)) =
        some ([], .NONE, []) ∧
    (parse_source_file 60 ⟨0⟩ (layout 0 [.LEFT_PARENTHESIS, .INTEGER_CONSTANT,
        .RIGHT_PARENTHESIS, .NONE])).map
      (fun r => (diagnostics r.2, r.2.current_token.name, r.2.source_file)) =
        some ([], .NONE, []) ∧
    (parse_source_file 120 ⟨0⟩ (layout 0 [.LEFT_PARENTHESIS, .INTEGER_CONSTANT, .SEMICOLON,
        .INTEGER_CONSTANT, .SEMICOLON, .INTEGER_CONSTANT, .RIGHT_PARENTHESIS, .NONE])).map
      (fun r => (diagnostics r.2, r.2.current_token.name, r.2.source_file)) =
        some ([], .NONE, []) ∧
    (parse_source_file 60 ⟨0⟩ (layout 0 [.IDENTIFIER, .LEFT_PARENTHESIS,
        .RIGHT_PARENTHESIS, .NONE])).map
      (fun r => (diagnostics r.2, r.2.current_token.name, r.2.source_file)) =
        some ([], .NONE, []) ∧
    (parse_source_file 90 ⟨0⟩ (layout 0 [.IDENTIFIER, .LEFT_PARENTHESIS, .INTEGER_CONSTANT,
        .RIGHT_PARENTHESIS, .NONE])).map
      (fun r => (diagnostics r.2, r.2.current_token.name, r.2.source_file)) =
        some ([], .NONE, []) ∧
    (parse_source_file 120 ⟨0⟩ (layout 0 [.IDENTIFIER, .LEFT_PARENTHESIS, .INTEGER_CONSTANT,
        .COMMA, .INTEGER_CONSTANT, .RIGHT_PARENTHESIS, .NONE])).map
      (fun r => (diagnostics r.2, r.2.current_token.name, r.2.source_file)) =
        some ([], .NONE, []) := by
  refine ⟨fun hc hf => ⟨?_, diagnostics_consume hc⟩,
    fun hc hf => ⟨?_, diagnostics_consume hc⟩, ?_, by decide, by decide, by decide,
    by decide, by decide, by decide⟩
  · have h := derives_series .expression_sequence rfl e ws hws
    rw [← final_series_of_derives h hc]
    exact run_final (r := .series .expression_sequence e) hf
  · have h := derives_series .expression_list rfl e ws hws
    rw [← final_series_of_derives h hc]
    exact run_final (r := .series .expression_list e) hf
  · constructor
    · intro h
      obtain ⟨h1, h2⟩ := consume_cons_inv h
      exact ⟨h1, consume_nil_inv h2⟩
    · rintro ⟨h1, rfl⟩
      exact consume_cons h1 rfl

/-- Witness of C11: the body `1;2;3)` of the stream `(1;2;3)`, and the arguments `1,2)` of
the stream `f(1,2)`. -/
theorem list_forms_accept_witness :
    (∀ w ∈ [[token_kind.INTEGER_CONSTANT], [.INTEGER_CONSTANT], [.INTEGER_CONSTANT]],
      derives .expression w) ∧
    (parse_expression_sequence 120 .RIGHT_PARENTHESIS
        (advance (start (layout 0 [.LEFT_PARENTHESIS, .INTEGER_CONSTANT, .SEMICOLON,
          .INTEGER_CONSTANT, .SEMICOLON, .INTEGER_CONSTANT, .RIGHT_PARENTHESIS, .NONE]))) =
      some ⟨[], ⟨.NONE, 1, 7⟩,
        [.init_type_check, .program_allocate, .get_token, .get_token, .get_token,
          .get_token, .get_token, .get_token, .get_token, .get_token]⟩ ∧
      diagnostics (⟨[], ⟨.NONE, 1, 7⟩,
        [.init_type_check, .program_allocate, .get_token, .get_token, .get_token,
          .get_token, .get_token, .get_token, .get_token, .get_token]⟩ : parser) =
        diagnostics (advance (start (layout 0 [.LEFT_PARENTHESIS, .INTEGER_CONSTANT,
          .SEMICOLON, .INTEGER_CONSTANT, .SEMICOLON, .INTEGER_CONSTANT, .RIGHT_PARENTHESIS,
          .NONE])))) ∧
    (parse_expression_list 120 .RIGHT_PARENTHESIS
        (advance (advance (start (layout 0 [.IDENTIFIER, .LEFT_PARENTHESIS,
          .INTEGER_CONSTANT, .COMMA, .INTEGER_CONSTANT, .RIGHT_PARENTHESIS, .NONE])))) =
      some ⟨[], ⟨.NONE, 1, 6⟩,
        [.init_type_check, .program_allocate, .get_token, .get_token, .get_token,
          .get_token, .get_token, .get_token, .get_token]⟩ ∧
      diagnostics (⟨[], ⟨.NONE, 1, 6⟩,
        [.init_type_check, .program_allocate, .get_token, .get_token, .get_token,
          .get_token, .get_token, .get_token, .get_token]⟩ : parser) =
        diagnostics (advance (advance (start (layout 0 [.IDENTIFIER, .LEFT_PARENTHESIS,
          .INTEGER_CONSTANT, .COMMA, .INTEGER_CONSTANT, .RIGHT_PARENTHESIS, .NONE]))))) :=
  ⟨fun w hw => by
      simp only [List.mem_cons, List.mem_singleton, List.not_mem_nil, or_false,
        or_self] at hw
      subst hw
      exact derives_of_primary (derives.atom rfl),
    (list_forms_accept [[.INTEGER_CONSTANT], [.INTEGER_CONSTANT], [.INTEGER_CONSTANT]]
      .RIGHT_PARENTHESIS _ _ 120 (fun w hw => by
        simp only [List.mem_cons, List.mem_singleton, List.not_mem_nil, or_false,
          or_self] at hw
        subst hw
        exact derives_of_primary (derives.atom rfl))).1 (by decide) (by decide),
    (list_forms_accept [[.INTEGER_CONSTANT], [.INTEGER_CONSTANT]]
      .RIGHT_PARENTHESIS _ _ 120 (fun w hw => by
        simp only [List.mem_cons, List.mem_singleton, List.not_mem_nil, or_false,
          or_self] at hw
        subst hw
        exact derives_of_primary (derives.atom rfl))).2.1 (by decide) (by decide)⟩

/-- The routine `parse_declaration_list` returns on a token that starts no declaration. -/
theorem declaration_list_exit : ∀ (n : Nat) (s t : parser),
    run .declaration_list n s = some t →
    t.current_token.name ≠ .TYPE_KEYWORD ∧ t.current_token.name ≠ .VAR_KEYWORD ∧
      t.current_token.name ≠ .FUNCTION_KEYWORD := by
  intro n
  induction n with
  | zero => intro s t h; simp [run_zero] at h
  | succ n ih =>
    intro s t h
    rw [run_succ] at h
    simp only [body] at h
    split at h
    · simp only [Option.bind_eq_some] at h
      obtain ⟨s1, _, h2⟩ := h
      exact ih s1 t h2
    · simp only [Option.bind_eq_some] at h
      obtain ⟨s1, _, h2⟩ := h
      exact ih s1 t h2
    · simp only [Option.bind_eq_some] at h
      obtain ⟨s1, _, h2⟩ := h
      exact ih s1 t h2
    · rename_i h1 h2 h3
      simp only [Option.some.injEq] at h
      subst h
      exact ⟨h1, h2, h3⟩

/-- C12. Declaration list boundary. When the current token is none of `type`, `var` and
`function`, `parse_declaration_list` returns the state it was started in, nothing consumed
and nothing reported. Whatever the starting state, it returns given `fuel_bound` units of
fuel or more, and whenever it returns the current token is none of `type`, `var` and
`function`. -/
theorem parse_declaration_list_boundary (n : Nat) (s : parser) :
    (s.current_token.name ≠ .TYPE_KEYWORD → s.current_token.name ≠ .VAR_KEYWORD →
      s.current_token.name ≠ .FUNCTION_KEYWORD → parse_declaration_list (n + 1) s = some s) ∧
    (∀ t, parse_declaration_list n s = some t →
      t.current_token.name ≠ .TYPE_KEYWORD ∧ t.current_token.name ≠ .VAR_KEYWORD ∧
        t.current_token.name ≠ .FUNCTION_KEYWORD) ∧
    (fuel_bound .declaration_list s ≤ n → ∃ t, parse_declaration_list n s = some t) := by
  refine ⟨fun h1 h2 h3 => ?_, fun t ht => declaration_list_exit n s t ht,
    fun hf => ⟨_, run_final (r := .declaration_list) hf⟩⟩
  show run .declaration_list (n + 1) s = _
  rw [run_succ]
  simp only [body, h1, h2, h3, if_false]

/-- Witness of C12: the declarations of `let var x := 1 in x end`, and the state after
them. -/
theorem parse_declaration_list_boundary_witness :
    parse_declaration_list 60 (advance (start (layout 0 [.LET_KEYWORD, .VAR_KEYWORD,
      .IDENTIFIER, .ASSIGNMENT, .INTEGER_CONSTANT, .IN_KEYWORD, .IDENTIFIER, .END_KEYWORD,
      .NONE]))) =
      some ⟨[⟨.IDENTIFIER, 1, 6⟩, ⟨.END_KEYWORD, 1, 7⟩, ⟨.NONE, 1, 8⟩], ⟨.IN_KEYWORD, 1, 5⟩,
        [.init_type_check, .program_allocate, .get_token, .get_token, .get_token,
          .get_token, .get_token, .get_token]⟩ ∧
    ((⟨.IN_KEYWORD, 1, 5⟩ : token).name ≠ .TYPE_KEYWORD ∧
      (⟨.IN_KEYWORD, 1, 5⟩ : token).name ≠ .VAR_KEYWORD ∧
      (⟨.IN_KEYWORD, 1, 5⟩ : token).name ≠ .FUNCTION_KEYWORD) ∧
    parse_declaration_list 1
      ⟨[⟨.IDENTIFIER, 1, 6⟩, ⟨.END_KEYWORD, 1, 7⟩, ⟨.NONE, 1, 8⟩], ⟨.IN_KEYWORD, 1, 5⟩,
        [.init_type_check, .program_allocate, .get_token, .get_token, .get_token,
          .get_token, .get_token, .get_token]⟩ =
      some ⟨[⟨.IDENTIFIER, 1, 6⟩, ⟨.END_KEYWORD, 1, 7⟩, ⟨.NONE, 1, 8⟩], ⟨.IN_KEYWORD, 1, 5⟩,
        [.init_type_check, .program_allocate, .get_token, .get_token, .get_token,
          .get_token, .get_token, .get_token]⟩ :=
  ⟨by decide,
    (parse_declaration_list_boundary 60 (advance (start (layout 0 [.LET_KEYWORD,
      .VAR_KEYWORD, .IDENTIFIER, .ASSIGNMENT, .INTEGER_CONSTANT, .IN_KEYWORD, .IDENTIFIER,
      .END_KEYWORD, .NONE])))).2.1
      ⟨[⟨.IDENTIFIER, 1, 6⟩, ⟨.END_KEYWORD, 1, 7⟩, ⟨.NONE, 1, 8⟩], ⟨.IN_KEYWORD, 1, 5⟩,
        [.init_type_check, .program_allocate, .get_token, .get_token, .get_token,
          .get_token, .get_token, .get_token]⟩ (by decide),
    (parse_declaration_list_boundary 0
      ⟨[⟨.IDENTIFIER, 1, 6⟩, ⟨.END_KEYWORD, 1, 7⟩, ⟨.NONE, 1, 8⟩], ⟨.IN_KEYWORD, 1, 5⟩,
        [.init_type_check, .program_allocate, .get_token, .get_token, .get_token,
          .get_token, .get_token, .get_token]⟩).1 (by decide) (by decide) (by decide)⟩

/-! ## The scanner and the end of input -/

@[simp] theorem fetches_advance (s : parser) : fetches (advance s) = fetches s + 1 := by
  simp [fetches, advance]

@[simp] theorem fetches_print_error (l c : Nat) (m : String) (s : parser) :
    fetches (print_error l c m s) = fetches s := by
  simp [fetches, print_error, List.count_cons]

theorem fetches_finish (s : parser) : fetches (finish s) = fetches s := by
  unfold finish
  split <;> simp [fetches, clean_up_type_check, print_error, List.count_cons]

theorem finish_current_token (s : parser) :
    (finish s).current_token = s.current_token ∧ (finish s).source_file = s.source_file := by
  unfold finish
  split <;> exact ⟨rfl, rfl⟩

/-- The scanner, asked on what is left of a stream after `f` tokens, delivers the token at
index `f`, or the end of input when there is none. -/
theorem get_token_drop (file : source_file) (f : Nat) :
    get_token (file.drop f) = ((file[f]?).getD ⟨.NONE, 0, 0⟩, file.drop (f + 1)) := by
  induction file generalizing f with
  | nil => simp [get_token]
  | cons a l ih =>
    cases f with
    | zero => simp [get_token]
    | succ f => simpa using ih f

theorem placed_start (file : source_file) : placed file (start file) := by
  have hf : fetches (start file) = 1 := by
    simp [fetches, start_calls]
  refine ⟨by omega, ?_, ?_, fun i hi => ?_⟩
  · show (get_token file).2 = _
    have := get_token_drop file 0
    rw [List.drop_zero] at this
    rw [this]; rfl
  · show (get_token file).1 = _
    have := get_token_drop file 0
    rw [List.drop_zero] at this
    rw [this]; rfl
  · omega

theorem placed_step {file : source_file} {s t : parser} (hs : placed file s)
    (h : step s t) : placed file t := by
  obtain ⟨h1, h2, h3, h4⟩ := hs
  cases h with
  | report m hm =>
    refine ⟨?_, ?_, ?_, ?_⟩
    · rw [fetches_print_error]; exact h1
    · rw [fetches_print_error]; exact h2
    · rw [fetches_print_error]; exact h3
    · rw [fetches_print_error]; exact h4
  | fetch hne =>
    refine ⟨by simp, ?_, ?_, fun i hi => ?_⟩
    · show (get_token s.source_file).2 = _
      rw [h2, get_token_drop, fetches_advance]
    · show (get_token s.source_file).1 = _
      rw [h2, get_token_drop, fetches_advance]; rfl
    · rw [fetches_advance] at hi
      by_cases hlt : i + 1 < fetches s
      · exact h4 i hlt
      · have hi2 : fetches s - 1 = i := by omega
        rw [hi2] at h3
        cases hf : file[i]? with
        | none => rw [hf] at h3; rw [h3] at hne; exact absurd rfl hne
        | some tok =>
          rw [hf] at h3
          exact ⟨tok, rfl, by rw [← show s.current_token = tok from h3]; exact hne⟩

theorem placed_steps {file : source_file} {s t : parser} (hs : placed file s)
    (h : steps s t) : placed file t := by
  induction h with
  | refl => exact hs
  | tail _ h2 ih => exact placed_step ih h2

/-- Once the end of input is the current token, no action moves the cursor or asks the
scanner. -/
theorem steps_at_end {x t : parser} (hx : x.current_token.name = .NONE) (h : steps x t) :
    t.current_token = x.current_token ∧ t.source_file = x.source_file ∧
      fetches t = fetches x := by
  induction h with
  | refl => exact ⟨rfl, rfl, rfl⟩
  | tail _ h2 ih =>
    obtain ⟨i1, i2, i3⟩ := ih
    cases h2 with
    | report m hm => exact ⟨i1, i2, by rw [fetches_print_error, i3]⟩
    | fetch hne => rw [i1] at hne; exact absurd hx hne

/-- The calls a run of actions adds to the record are fetches and reports. -/
theorem calls_steps {s t : parser} (h : steps s t) :
    ∃ l : List event, t.calls = s.calls ++ l ∧ ∀ e ∈ l, e.of_parsing = true := by
  induction h with
  | refl => exact ⟨[], by simp, by simp⟩
  | tail _ h2 ih =>
    obtain ⟨l, hl, hp⟩ := ih
    rename_i b _ _
    cases h2 with
    | report m hm =>
      refine ⟨l ++ [.print_error b.current_token.line b.current_token.column m], ?_, ?_⟩
      · show _ ++ _ = _
        rw [hl, List.append_assoc]
      · intro e he
        rcases List.mem_append.1 he with he | he
        · exact hp e he
        · rw [List.mem_singleton.1 he]; rfl
    | fetch hne =>
      refine ⟨l ++ [.get_token], ?_, ?_⟩
      · show _ ++ _ = _
        rw [hl, List.append_assoc]
      · intro e he
        rcases List.mem_append.1 he with he | he
        · exact hp e he
        · rw [List.mem_singleton.1 he]; rfl

/-- C13. The scanner is never asked for a token after the end of input has been seen. For
every token stream `file`, `parse_source_file` (given `fuel_bound` units of fuel or more)
returns in a state `finish s1`, where `s1` is reached from the state after the initial
`get_token` by fetches, each made while the current token is not the end of input, and
reports. Of the tokens the scanner has delivered in all, every one but the last is a token
of `file` that is not the end of input, and what is left of `file` is untouched. Once the
end of input is the current token of a state `x` of the run, the current token and the
scanner are the same when `parse_source_file` returns, and no `get_token` call is made
after `x`. -/
theorem scanner_not_asked_after_end (fuel : Nat) (allocated : program) (file : source_file)
    (h : fuel_bound .expression (start file) ≤ fuel) :
    ∃ s1, parse_expression fuel (start file) = some s1 ∧
      parse_source_file fuel allocated file = some (allocated, finish s1) ∧
      steps (start file) s1 ∧
      1 ≤ fetches (finish s1) ∧
      (finish s1).source_file = file.drop (fetches (finish s1)) ∧
      (∀ i, i + 1 < fetches (finish s1) → ∃ tok, file[i]? = some tok ∧ tok.name ≠ .NONE) ∧
      ∀ x, steps (start file) x → steps x s1 → x.current_token.name = .NONE →
        (finish s1).current_token = x.current_token ∧
        (finish s1).source_file = x.source_file ∧
        fetches (finish s1) = fetches x := by
  have hr : run .expression fuel (start file) = some (final .expression (start file)) :=
    run_final h
  have hst := steps_final .expression (start file)
  obtain ⟨p1, p2, _, p4⟩ := placed_steps (placed_start file) hst
  refine ⟨final .expression (start file), hr, parse_source_file_eq fuel allocated file h,
    hst, ?_, ?_, ?_, fun x _ hx hn => ?_⟩
  · rw [fetches_finish]; exact p1
  · rw [fetches_finish, (finish_current_token _).2]; exact p2
  · rw [fetches_finish]; exact p4
  · obtain ⟨e1, e2, e3⟩ := steps_at_end hn hx
    rw [fetches_finish, (finish_current_token _).1, (finish_current_token _).2]
    exact ⟨e1, e2, e3⟩

/-- Witness of C13: the malformed stream `1 + )` followed by the end of input and by two
tokens the scanner is never asked for. -/
theorem scanner_not_asked_after_end_witness :
    fuel_bound .expression (start (layout 0 [.INTEGER_CONSTANT, .PLUS, .RIGHT_PARENTHESIS,
      .NONE, .INTEGER_CONSTANT, .INTEGER_CONSTANT])) ≤ 100 ∧
    ∃ s1, parse_expression 100 (start (layout 0 [.INTEGER_CONSTANT, .PLUS,
        .RIGHT_PARENTHESIS, .NONE, .INTEGER_CONSTANT, .INTEGER_CONSTANT])) = some s1 ∧
      parse_source_file 100 ⟨0⟩ (layout 0 [.INTEGER_CONSTANT, .PLUS, .RIGHT_PARENTHESIS,
        .NONE, .INTEGER_CONSTANT, .INTEGER_CONSTANT]) = some (⟨0⟩, finish s1) ∧
      steps (start (layout 0 [.INTEGER_CONSTANT, .PLUS, .RIGHT_PARENTHESIS, .NONE,
        .INTEGER_CONSTANT, .INTEGER_CONSTANT])) s1 ∧
      1 ≤ fetches (finish s1) ∧
      (finish s1).source_file = (layout 0 [.INTEGER_CONSTANT, .PLUS, .RIGHT_PARENTHESIS,
        .NONE, .INTEGER_CONSTANT, .INTEGER_CONSTANT]).drop (fetches (finish s1)) ∧
      (∀ i, i + 1 < fetches (finish s1) → ∃ tok, (layout 0 [.INTEGER_CONSTANT, .PLUS,
        .RIGHT_PARENTHESIS, .NONE, .INTEGER_CONSTANT, .INTEGER_CONSTANT])[i]? = some tok ∧
          tok.name ≠ .NONE) ∧
      ∀ x, steps (start (layout 0 [.INTEGER_CONSTANT, .PLUS, .RIGHT_PARENTHESIS, .NONE,
          .INTEGER_CONSTANT, .INTEGER_CONSTANT])) x → steps x s1 →
        x.current_token.name = .NONE →
        (finish s1).current_token = x.current_token ∧
        (finish s1).source_file = x.source_file ∧
        fetches (finish s1) = fetches x :=
  ⟨by decide, scanner_not_asked_after_end 100 ⟨0⟩ _ (by decide)⟩

/-! ## The calls to the collaborators -/

/-- The calls made by the end of `parse_source_file`: at most one report, then the one call
`clean_up_type_check()`. -/
theorem finish_calls (s : parser) :
    ∃ l : List event, (finish s).calls = s.calls ++ l ++ [event.clean_up_type_check] ∧
      ∀ e ∈ l, e.of_parsing = true := by
  unfold finish
  split
  · exact ⟨[.print_error s.current_token.line s.current_token.column
      "trailing code after the main expression"], rfl, fun e he => by
        rw [List.mem_singleton.1 he]; rfl⟩
  · exact ⟨[], by simp [clean_up_type_check], by simp⟩

/-- C15. Collaborator bracketing. For every token stream, `parse_source_file` (given
`fuel_bound` units of fuel or more) returns the handle `allocated` answered by
`program_allocate`, and the calls on record when it returns are `init_type_check`,
`program_allocate` and the first `get_token`, in this order, then calls `mid`, each of them
a `get_token` or a `print_error`, then `clean_up_type_check` last. Each of `init_type_check`,
`program_allocate` and `clean_up_type_check` is on record exactly once, however many
diagnostics were reported. -/
theorem collaborator_bracketing (fuel : Nat) (allocated : program) (file : source_file)
    (h : fuel_bound .expression (start file) ≤ fuel) :
    ∃ (t : parser) (mid : List event),
      parse_source_file fuel allocated file = some (allocated, t) ∧
      t.calls = [event.init_type_check, event.program_allocate, event.get_token] ++ mid ++
        [event.clean_up_type_check] ∧
      (∀ e ∈ mid, e.of_parsing = true) ∧
      t.calls.count event.init_type_check = 1 ∧
      t.calls.count event.program_allocate = 1 ∧
      t.calls.count event.clean_up_type_check = 1 := by
  obtain ⟨l1, hl1, hp1⟩ := calls_steps (steps_final .expression (start file))
  obtain ⟨l2, hl2, hp2⟩ := finish_calls (final .expression (start file))
  have hmid : ∀ e ∈ l1 ++ l2, e.of_parsing = true := by
    intro e he
    rcases List.mem_append.1 he with he | he
    · exact hp1 e he
    · exact hp2 e he
  have hc : (finish (final .expression (start file))).calls =
      [event.init_type_check, event.program_allocate, event.get_token] ++ (l1 ++ l2) ++
        [event.clean_up_type_check] := by
    rw [hl2, hl1, start_calls]
    simp only [List.append_assoc]
  have h1 : (l1 ++ l2).count event.init_type_check = 0 :=
    List.count_eq_zero.2 fun hm => by have := hmid _ hm; simp [event.of_parsing] at this
  have h2 : (l1 ++ l2).count event.program_allocate = 0 :=
    List.count_eq_zero.2 fun hm => by have := hmid _ hm; simp [event.of_parsing] at this
  have h3 : (l1 ++ l2).count event.clean_up_type_check = 0 :=
    List.count_eq_zero.2 fun hm => by have := hmid _ hm; simp [event.of_parsing] at this
  refine ⟨_, l1 ++ l2, parse_source_file_eq fuel allocated file h, hc, hmid, ?_, ?_, ?_⟩
  · rw [hc, List.count_append, List.count_append, h1]; decide
  · rw [hc, List.count_append, List.count_append, h2]; decide
  · rw [hc, List.count_append, List.count_append, h3]; decide

/-- Witness of C15: the stream `1 2`, on which one diagnostic is reported. -/
theorem collaborator_bracketing_witness :
    fuel_bound .expression (start (layout 0 [.INTEGER_CONSTANT, .INTEGER_CONSTANT, .NONE])) ≤
      60 ∧
    ∃ (t : parser) (mid : List event),
      parse_source_file 60 ⟨7⟩ (layout 0 [.INTEGER_CONSTANT, .INTEGER_CONSTANT, .NONE]) =
        some (⟨7⟩, t) ∧
      t.calls = [event.init_type_check, event.program_allocate, event.get_token] ++ mid ++
        [event.clean_up_type_check] ∧
      (∀ e ∈ mid, e.of_parsing = true) ∧
      t.calls.count event.init_type_check = 1 ∧
      t.calls.count event.program_allocate = 1 ∧
      t.calls.count event.clean_up_type_check = 1 :=
  ⟨by decide, collaborator_bracketing 60 ⟨7⟩ _ (by decide)⟩

/-- C16. Layer exit invariant of the precedence ladder. Whatever the starting state and
whether or not diagnostics were reported: when `parse_multiplicative_expression` returns,
the current token is neither `*` nor `/`; when `parse_additive_expression` returns, it is
moreover neither `+` nor `-`; when `parse_comparison_expression` returns, it is moreover
none of `=`, `<>`, `<`, `<=`, `>`, `>=`; when `parse_and_expression` returns, it is moreover
not `&`; when `parse_or_expression` or `parse_expression` returns, it is no binary operator
at all. Each of these routines returns when given `fuel_bound` units of fuel or more. -/
theorem ladder_exit (n : Nat) (s t : parser) :
    (parse_multiplicative_expression n s = some t →
      t.current_token.name ∉ [token_kind.ASTERISK, .SLASH]) ∧
    (parse_additive_expression n s = some t →
      t.current_token.name ∉ [token_kind.ASTERISK, .SLASH, .PLUS, .MINUS]) ∧
    (parse_comparison_expression n s = some t →
      t.current_token.name ∉ [token_kind.ASTERISK, .SLASH, .PLUS, .MINUS, .EQUAL, .NOT_EQUAL,
        .LESS, .LESS_EQUAL, .GREATER, .GREATER_EQUAL]) ∧
    (parse_and_expression n s = some t →
      t.current_token.name ∉ [token_kind.ASTERISK, .SLASH, .PLUS, .MINUS, .EQUAL, .NOT_EQUAL,
        .LESS, .LESS_EQUAL, .GREATER, .GREATER_EQUAL, .AND]) ∧
    (parse_or_expression n s = some t →
      t.current_token.name ∉ [token_kind.ASTERISK, .SLASH, .PLUS, .MINUS, .EQUAL, .NOT_EQUAL,
        .LESS, .LESS_EQUAL, .GREATER, .GREATER_EQUAL, .AND, .OR] ∧
      binary_operator t.current_token.name = false) ∧
    (parse_expression n s = some t →
      t.current_token.name ∉ [token_kind.ASTERISK, .SLASH, .PLUS, .MINUS, .EQUAL, .NOT_EQUAL,
        .LESS, .LESS_EQUAL, .GREATER, .GREATER_EQUAL, .AND, .OR] ∧
      binary_operator t.current_token.name = false) ∧
    (∀ l : layer, fuel_bound (.binary l) s ≤ n → ∃ u, run (.binary l) n s = some u) ∧
    (fuel_bound .expression s ≤ n → ∃ u, parse_expression n s = some u) := by
  have key : ∀ l : layer, run (.binary l) n s = some t →
      ∀ m : layer, l.depth ≤ m.depth → m.operator t.current_token.name = false :=
    fun l h => binary_exit n l s t h
  refine ⟨fun h => ?_, fun h => ?_, fun h => ?_, fun h => ?_, fun h => ?_, fun h => ?_,
    fun l hl => ⟨_, run_final hl⟩, fun hl => ⟨_, run_final (r := .expression) hl⟩⟩
  · have h4 := key .multiplicative h .multiplicative (by decide)
    simp only [layer.operator] at h4
    simp_all
  · have h3 := key .additive h .additive (by decide)
    have h4 := key .additive h .multiplicative (by decide)
    simp only [layer.operator] at h3 h4
    simp_all
  · have h2 := key .comparison h .comparison (by decide)
    have h3 := key .comparison h .additive (by decide)
    have h4 := key .comparison h .multiplicative (by decide)
    simp only [layer.operator] at h2 h3 h4
    simp_all
  · have h1 := key .and h .and (by decide)
    have h2 := key .and h .comparison (by decide)
    have h3 := key .and h .additive (by decide)
    have h4 := key .and h .multiplicative (by decide)
    simp only [layer.operator] at h1 h2 h3 h4
    simp_all
  · have h0 := key .or h .or (by decide)
    have h1 := key .or h .and (by decide)
    have h2 := key .or h .comparison (by decide)
    have h3 := key .or h .additive (by decide)
    have h4 := key .or h .multiplicative (by decide)
    simp only [layer.operator] at h0 h1 h2 h3 h4
    simp only [binary_operator]
    simp_all
  · have hb := expression_exit (n := n) (s := s) (t := t) h
    refine ⟨?_, hb⟩
    simp only [binary_operator] at hb
    simp_all

/-- Witness of C16: the additive layer on `1 * 2 + 3 < 4` returns on `<`, and on the
malformed `1 * + )` it returns on `)`, after a diagnostic. -/
theorem ladder_exit_witness :
    parse_additive_expression 100 (start (layout 0 [.INTEGER_CONSTANT, .ASTERISK,
      .INTEGER_CONSTANT, .PLUS, .INTEGER_CONSTANT, .LESS, .INTEGER_CONSTANT, .NONE])) =
      some ⟨[⟨.INTEGER_CONSTANT, 1, 6⟩, ⟨.NONE, 1, 7⟩], ⟨.LESS, 1, 5⟩,
        [.init_type_check, .program_allocate, .get_token, .get_token, .get_token,
          .get_token, .get_token, .get_token]⟩ ∧
    (⟨.LESS, 1, 5⟩ : token).name ∉ [token_kind.ASTERISK, .SLASH, .PLUS, .MINUS] ∧
    parse_additive_expression 100 (start (layout 0 [.INTEGER_CONSTANT, .ASTERISK,
      .PLUS, .RIGHT_PARENTHESIS, .NONE])) =
      some ⟨[⟨.NONE, 1, 4⟩], ⟨.RIGHT_PARENTHESIS, 1, 3⟩,
        [.init_type_check, .program_allocate, .get_token, .get_token,
          .get_token, .print_error 1 2 "expected expression", .get_token,
          .print_error 1 3 "expected expression"]⟩ ∧
    (⟨.RIGHT_PARENTHESIS, 1, 3⟩ : token).name ∉ [token_kind.ASTERISK, .SLASH, .PLUS, .MINUS] :=
  ⟨by decide,
    (ladder_exit 100 (start (layout 0 [.INTEGER_CONSTANT, .ASTERISK,
      .INTEGER_CONSTANT, .PLUS, .INTEGER_CONSTANT, .LESS, .INTEGER_CONSTANT, .NONE]))
      ⟨[⟨.INTEGER_CONSTANT, 1, 6⟩, ⟨.NONE, 1, 7⟩], ⟨.LESS, 1, 5⟩,
        [.init_type_check, .program_allocate, .get_token, .get_token, .get_token,
          .get_token, .get_token, .get_token]⟩).2.1 (by decide),
    by decide,
    (ladder_exit 100 (start (layout 0 [.INTEGER_CONSTANT, .ASTERISK,
      .PLUS, .RIGHT_PARENTHESIS, .NONE]))
      ⟨[⟨.NONE, 1, 4⟩], ⟨.RIGHT_PARENTHESIS, 1, 3⟩,
        [.init_type_check, .program_allocate, .get_token, .get_token,
          .get_token, .print_error 1 2 "expected expression", .get_token,
          .print_error 1 3 "expected expression"]⟩).2.1 (by decide)⟩

/-! ## Tokens that start nothing -/

/-- A report leaves the cursor and the scanner alone and adds one diagnostic, at the
position given. -/
theorem print_error_frame (l c : Nat) (m : String) (s : parser) :
    (print_error l c m s).current_token = s.current_token ∧
    (print_error l c m s).source_file = s.source_file ∧
    fetches (print_error l c m s) = fetches s ∧
    diagnostics (print_error l c m s) = diagnostics s ++ [event.print_error l c m] :=
  ⟨rfl, rfl, fetches_print_error l c m s, diagnostics_print_error l c m s⟩

/-- C17. No-applicable-branch errors do not consume. When the current token is none of `{`,
`array` and an identifier, `parse_type_definition` returns in the starting state with one
call of `print_error` added, for the diagnostic `expected type definition` at the line and
column of the current token. When the current token is none of a string, integer or float
literal, `break`, `-`, `(`, `if`, `while`, `for`, `let` and an identifier,
`parse_primary_expression` returns in the starting state with one call of `print_error`
added, for the diagnostic `expected expression` at the line and column of the current token.
Such a call adds exactly that one diagnostic and leaves the current token and the scanner
as they were. -/
theorem no_branch_no_consume (n : Nat) (s : parser) :
    (s.current_token.name ∉ [token_kind.LEFT_BRACE, .ARRAY_KEYWORD, .IDENTIFIER] →
      parse_type_definition (n + 1) s =
        some (print_error s.current_token.line s.current_token.column
          "expected type definition" s)) ∧
    (s.current_token.name ∉ [token_kind.STRING_CONSTANT, .INTEGER_CONSTANT, .FLOAT_CONSTANT,
        .BREAK_KEYWORD, .MINUS, .LEFT_PARENTHESIS, .IF_KEYWORD, .WHILE_KEYWORD, .FOR_KEYWORD,
        .LET_KEYWORD, .IDENTIFIER] →
      parse_primary_expression (n + 1) s =
        some (print_error s.current_token.line s.current_token.column
          "expected expression" s)) ∧
    ∀ m : String,
      (print_error s.current_token.line s.current_token.column m s).current_token =
        s.current_token ∧
      (print_error s.current_token.line s.current_token.column m s).source_file =
        s.source_file ∧
      fetches (print_error s.current_token.line s.current_token.column m s) = fetches s ∧
      diagnostics (print_error s.current_token.line s.current_token.column m s) =
        diagnostics s ++ [event.print_error s.current_token.line s.current_token.column m] := by
  refine ⟨fun h => ?_, fun h => ?_, fun m => print_error_frame _ _ m s⟩
  · show run .type_definition (n + 1) s = _
    rw [run_succ]
    simp only [body]
    split <;> simp_all
  · show run .primary (n + 1) s = _
    rw [run_succ]
    simp only [body]
    split <;> simp_all

/-- Witness of C17: the type definition of `type t = 1` and the primary expression of `)`. -/
theorem no_branch_no_consume_witness :
    parse_type_definition 1 ⟨[⟨.NONE, 1, 4⟩], ⟨.INTEGER_CONSTANT, 1, 3⟩, []⟩ =
      some ⟨[⟨.NONE, 1, 4⟩], ⟨.INTEGER_CONSTANT, 1, 3⟩,
        [.print_error 1 3 "expected type definition"]⟩ ∧
    parse_primary_expression 1 ⟨[⟨.NONE, 1, 1⟩], ⟨.RIGHT_PARENTHESIS, 1, 0⟩, []⟩ =
      some ⟨[⟨.NONE, 1, 1⟩], ⟨.RIGHT_PARENTHESIS, 1, 0⟩,
        [.print_error 1 0 "expected expression"]⟩ :=
  ⟨(no_branch_no_consume 0 ⟨[⟨.NONE, 1, 4⟩], ⟨.INTEGER_CONSTANT, 1, 3⟩, []⟩).1 (by decide),
    (no_branch_no_consume 0 ⟨[⟨.NONE, 1, 1⟩], ⟨.RIGHT_PARENTHESIS, 1, 0⟩, []⟩).2.1
      (by decide)⟩

/-- C20. The keyword `nil` is not an expression. The token table has the display name
`'nil'` for it, but on a current token `nil` the routine `parse_primary_expression` reports
`expected expression` at that token and returns without consuming it. On a stream that
starts with a `nil` token, `parse_source_file` (given 7 units of fuel or more) returns with
`nil` still the current token, the rest of the stream not asked for, and two diagnostics on
record, `expected expression` and `trailing code after the main expression`, both at the
line and column of the `nil` token. -/
theorem nil_is_no_expression (n fuel : Nat) (s : parser) (nil : token) (rest : List token)
    (allocated : program) (h : s.current_token.name = .NIL_KEYWORD)
    (hn : nil.name = .NIL_KEYWORD) (hf : 7 ≤ fuel) :
    token_kind_string .NIL_KEYWORD = "'nil'" ∧
    parse_primary_expression (n + 1) s =
      some (print_error s.current_token.line s.current_token.column
        "expected expression" s) ∧
    (print_error s.current_token.line s.current_token.column
      "expected expression" s).current_token = s.current_token ∧
    (print_error s.current_token.line s.current_token.column
      "expected expression" s).source_file = s.source_file ∧
    parse_source_file fuel allocated (nil :: rest) =
      some (allocated, ⟨rest, nil, [.init_type_check, .program_allocate, .get_token,
        .print_error nil.line nil.column "expected expression",
        .print_error nil.line nil.column "trailing code after the main expression",
        .clean_up_type_check]⟩) ∧
    diagnostics (⟨rest, nil, [.init_type_check, .program_allocate, .get_token,
        .print_error nil.line nil.column "expected expression",
        .print_error nil.line nil.column "trailing code after the main expression",
        .clean_up_type_check]⟩ : parser) =
      [.print_error nil.line nil.column "expected expression",
        .print_error nil.line nil.column "trailing code after the main expression"] := by
  refine ⟨rfl, ?_, rfl, rfl, ?_, ?_⟩
  · show run .primary (n + 1) s = _
    rw [run_succ]
    simp only [body, h]
  · obtain ⟨k, l, c⟩ := nil
    simp only at hn
    subst hn
    have h7 : run .expression 7 (start (⟨.NIL_KEYWORD, l, c⟩ :: rest)) =
        some ⟨rest, ⟨.NIL_KEYWORD, l, c⟩, [.init_type_check, .program_allocate, .get_token,
          .print_error l c "expected expression"]⟩ := rfl
    have hr := run_mono 7 fuel hf _ _ _ h7
    unfold parse_source_file
    have hr' : parse_expression fuel (start (⟨.NIL_KEYWORD, l, c⟩ :: rest)) = _ := hr
    rw [hr']
    rfl
  · simp [diagnostics]

/-- Witness of C20: the one-token program `nil`. -/
theorem nil_is_no_expression_witness :
    token_kind_string .NIL_KEYWORD = "'nil'" ∧
    parse_primary_expression 1 (start (layout 0 [.NIL_KEYWORD, .NONE])) =
      some (print_error 1 0 "expected expression" (start (layout 0 [.NIL_KEYWORD, .NONE]))) ∧
    (print_error 1 0 "expected expression"
      (start (layout 0 [.NIL_KEYWORD, .NONE]))).current_token = ⟨.NIL_KEYWORD, 1, 0⟩ ∧
    (print_error 1 0 "expected expression"
      (start (layout 0 [.NIL_KEYWORD, .NONE]))).source_file = [⟨.NONE, 1, 1⟩] ∧
    parse_source_file 7 ⟨0⟩ (layout 0 [.NIL_KEYWORD, .NONE]) =
      some (⟨0⟩, ⟨[⟨.NONE, 1, 1⟩], ⟨.NIL_KEYWORD, 1, 0⟩, [.init_type_check,
        .program_allocate, .get_token, .print_error 1 0 "expected expression",
        .print_error 1 0 "trailing code after the main expression",
        .clean_up_type_check]⟩) ∧
    diagnostics (⟨[⟨.NONE, 1, 1⟩], ⟨.NIL_KEYWORD, 1, 0⟩, [.init_type_check,
        .program_allocate, .get_token, .print_error 1 0 "expected expression",
        .print_error 1 0 "trailing code after the main expression",
        .clean_up_type_check]⟩ : parser) =
      [.print_error 1 0 "expected expression",
        .print_error 1 0 "trailing code after the main expression"] :=
  nil_is_no_expression 0 7 (start (layout 0 [.NIL_KEYWORD, .NONE])) ⟨.NIL_KEYWORD, 1, 0⟩
    [⟨.NONE, 1, 1⟩] ⟨0⟩ rfl rfl (by decide)

/-! ## The measure decreases at every call -/

theorem weight_lt {r q : nonterminal} {s u : parser}
    (hu : remaining u < remaining s ∨ (remaining u ≤ remaining s ∧ q.rank < r.rank)) :
    weight q u < weight r s := by
  unfold weight
  have := rank_le q
  omega

theorem guarded_eq {r q : nonterminal} {s u : parser}
    (call : nonterminal → parser → Option parser)
    (hu : remaining u < remaining s ∨ (remaining u ≤ remaining s ∧ q.rank < r.rank)) :
    guarded r s call q u = call q u := by
  unfold guarded
  rw [if_pos (weight_lt hu)]

theorem remaining_run {n : Nat} {r : nonterminal} {s t : parser} (h : run r n s = some t) :
    remaining t ≤ remaining s :=
  remaining_steps (run_steps _ _ _ _ h)

/-- Every call a routine makes to a routine has a smaller measure than its own call: the
body of the routine gives the same result when every other call is made to fail. -/
theorem body_guarded (n : Nat) (r : nonterminal) (s : parser) :
    body (guarded r s fun q u => run q n u) r s = body (fun q u => run q n u) r s := by
  have G : ∀ (q : nonterminal) (u : parser),
      (remaining u < remaining s ∨ (remaining u ≤ remaining s ∧ q.rank < r.rank)) →
      guarded r s (fun q u => run q n u) q u = run q n u :=
    fun q u hu => guarded_eq _ hu
  have pnt := remaining_parse_next_token
  have tsp := remaining_parse_type_specifier
  have le0 := Nat.le_refl (remaining s)
  cases r with
  | expression => exact G _ _ (Or.inr ⟨le0, by decide⟩)
  | binary l =>
    simp only [body]
    rw [G l.operand s (Or.inr ⟨le0, by cases l <;> decide⟩)]
    refine Option.bind_congr fun s1 h1 => ?_
    have m1 := remaining_run (Option.mem_def.1 h1)
    split
    · rename_i hop
      exact G _ _ (Or.inl (remaining_advance_of rfl (operator_ne_none hop) m1))
    · rfl
  | primary =>
    simp only [body]
    split
    any_goals rfl
    all_goals
      rename_i hk
      exact G _ _ (Or.inl (remaining_advance_of hk (by decide) le0))
  | identifier_rest =>
    have tail : ∀ u, (remaining u < remaining s ∨ remaining u ≤ remaining s) →
        ((guarded .identifier_rest s (fun q u => run q n u) .lvalue_suffixes u).bind fun s2 =>
          if s2.current_token.name = .ASSIGNMENT then
            guarded .identifier_rest s (fun q u => run q n u) .expression (advance s2)
          else some s2) =
        ((run .lvalue_suffixes n u).bind fun s2 =>
          if s2.current_token.name = .ASSIGNMENT then run .expression n (advance s2)
          else some s2) := by
      intro u hu
      rw [G .lvalue_suffixes u (hu.elim Or.inl fun h => Or.inr ⟨h, by decide⟩)]
      refine Option.bind_congr fun s2 h2 => ?_
      have m2 := remaining_run (Option.mem_def.1 h2)
      split
      · rename_i hk
        exact G _ _ (Or.inl (remaining_advance_of hk (by decide)
          (hu.elim (fun h => by omega) fun h => by omega)))
      · rfl
    simp only [body]
    split
    · rename_i hk
      exact G _ _ (Or.inl (remaining_advance_of hk (by decide) le0))
    · rename_i hk
      have h0 := remaining_advance_of hk (by decide) le0
      rw [G .expression (advance s) (Or.inl h0)]
      refine Option.bind_congr fun s1 h1 => ?_
      have m1 := remaining_run (Option.mem_def.1 h1)
      have m2 := pnt .RIGHT_BRACKET s1
      split
      · exact G _ _ (Or.inl (by
          have := remaining_advance_le (parse_next_token .RIGHT_BRACKET s1); omega))
      · exact tail _ (Or.inl (by omega))
    · rename_i hk
      exact G _ _ (Or.inl (remaining_advance_of hk (by decide) le0))
    · exact tail _ (Or.inr le0)
  | lvalue_suffixes =>
    simp only [body]
    split
    · rename_i hk
      have h0 := remaining_advance_of hk (by decide) le0
      exact G _ _ (Or.inl (by have := pnt .IDENTIFIER (advance s); omega))
    · rename_i hk
      have h0 := remaining_advance_of hk (by decide) le0
      rw [G .expression (advance s) (Or.inl h0)]
      refine Option.bind_congr fun s1 h1 => ?_
      have m1 := remaining_run (Option.mem_def.1 h1)
      exact G _ _ (Or.inl (by have := pnt .RIGHT_BRACKET s1; omega))
    · rfl
  | if_rest =>
    simp only [body]
    rw [G .expression s (Or.inr ⟨le0, by decide⟩)]
    refine Option.bind_congr fun s1 h1 => ?_
    have m1 := remaining_run (Option.mem_def.1 h1)
    have m2 := pnt .THEN_KEYWORD s1
    rw [G .expression (parse_next_token .THEN_KEYWORD s1) (Or.inr ⟨by omega, by decide⟩)]
    refine Option.bind_congr fun s2 h2 => ?_
    have m3 := remaining_run (Option.mem_def.1 h2)
    split
    · have := remaining_advance_le s2
      exact G _ _ (Or.inr ⟨by omega, by decide⟩)
    · rfl
  | while_rest =>
    simp only [body]
    rw [G .expression s (Or.inr ⟨le0, by decide⟩)]
    refine Option.bind_congr fun s1 h1 => ?_
    have m1 := remaining_run (Option.mem_def.1 h1)
    have m2 := pnt .DO_KEYWORD s1
    exact G _ _ (Or.inr ⟨by omega, by decide⟩)
  | for_rest =>
    simp only [body]
    have a1 := pnt .IDENTIFIER s
    have a2 := pnt .ASSIGNMENT (parse_next_token .IDENTIFIER s)
    rw [G .expression (parse_next_token .ASSIGNMENT (parse_next_token .IDENTIFIER s))
      (Or.inr ⟨by omega, by decide⟩)]
    refine Option.bind_congr fun s1 h1 => ?_
    have m1 := remaining_run (Option.mem_def.1 h1)
    have m2 := pnt .TO_KEYWORD s1
    rw [G .expression (parse_next_token .TO_KEYWORD s1) (Or.inr ⟨by omega, by decide⟩)]
    refine Option.bind_congr fun s2 h2 => ?_
    have m3 := remaining_run (Option.mem_def.1 h2)
    have m4 := pnt .DO_KEYWORD s2
    exact G _ _ (Or.inr ⟨by omega, by decide⟩)
  | let_rest =>
    simp only [body]
    split
    · have := remaining_advance_le (print_error s.current_token.line
        s.current_token.column "empty declaration list" s)
      have e := remaining_print_error s.current_token.line s.current_token.column
        "empty declaration list" s
      exact G _ _ (Or.inr ⟨by omega, by decide⟩)
    · rw [G .declaration_list s (Or.inr ⟨le0, by decide⟩)]
      refine Option.bind_congr fun s1 h1 => ?_
      have m1 := remaining_run (Option.mem_def.1 h1)
      have m2 := pnt .IN_KEYWORD s1
      exact G _ _ (Or.inr ⟨by omega, by decide⟩)
  | elements k =>
    simp only [body]
    rw [G k.item s (Or.inr ⟨le0, by cases k <;> decide⟩)]
    refine Option.bind_congr fun s1 h1 => ?_
    have m1 := remaining_run (Option.mem_def.1 h1)
    split
    · rename_i hk
      exact G _ _ (Or.inl (remaining_advance_of hk (separator_ne_none k) m1))
    · rfl
  | series k e =>
    simp only [body]
    split
    · rfl
    · rw [G (.elements k) s (Or.inr ⟨le0, by simp [nonterminal.rank]⟩)]
  | field =>
    simp only [body]
    have a1 := pnt .IDENTIFIER s
    have a2 := pnt .EQUAL (parse_next_token .IDENTIFIER s)
    exact G _ _ (Or.inr ⟨by omega, by decide⟩)
  | type_field => rfl
  | type_definition =>
    simp only [body]
    split
    · rename_i hk
      exact G _ _ (Or.inl (remaining_advance_of hk (by decide) le0))
    all_goals rfl
  | type_declaration =>
    simp only [body]
    have a1 := pnt .TYPE_KEYWORD s
    have a2 := pnt .IDENTIFIER (parse_next_token .TYPE_KEYWORD s)
    have a3 := pnt .EQUAL (parse_next_token .IDENTIFIER (parse_next_token .TYPE_KEYWORD s))
    exact G _ _ (Or.inr ⟨by omega, by decide⟩)
  | variable_declaration =>
    simp only [body]
    have a1 := pnt .VAR_KEYWORD s
    have a2 := pnt .IDENTIFIER (parse_next_token .VAR_KEYWORD s)
    have a3 := tsp (parse_next_token .IDENTIFIER (parse_next_token .VAR_KEYWORD s))
    have a4 := pnt .ASSIGNMENT (parse_type_specifier
      (parse_next_token .IDENTIFIER (parse_next_token .VAR_KEYWORD s)))
    exact G _ _ (Or.inr ⟨by omega, by decide⟩)
  | function_declaration =>
    simp only [body]
    have a1 := pnt .FUNCTION_KEYWORD s
    have a2 := pnt .IDENTIFIER (parse_next_token .FUNCTION_KEYWORD s)
    have a3 := pnt .LEFT_PARENTHESIS (parse_next_token .IDENTIFIER
      (parse_next_token .FUNCTION_KEYWORD s))
    rw [G (.series .type_fields .RIGHT_PARENTHESIS)
      (parse_next_token .LEFT_PARENTHESIS (parse_next_token .IDENTIFIER
        (parse_next_token .FUNCTION_KEYWORD s))) (Or.inr ⟨by omega, by decide⟩)]
    refine Option.bind_congr fun s1 h1 => ?_
    have m1 := remaining_run (Option.mem_def.1 h1)
    have a4 := tsp s1
    have a5 := pnt .EQUAL (parse_type_specifier s1)
    exact G _ _ (Or.inr ⟨by omega, by decide⟩)
  | declaration_list =>
    simp only [body]
    split
    · rename_i hk
      rw [G .type_declaration s (Or.inr ⟨le0, by decide⟩)]
      refine Option.bind_congr fun s1 h1 => ?_
      exact G _ _ (Or.inl (declaration_consumes (Or.inl ⟨rfl, rfl⟩) hk (Option.mem_def.1 h1)))
    · rename_i hk
      rw [G .variable_declaration s (Or.inr ⟨le0, by decide⟩)]
      refine Option.bind_congr fun s1 h1 => ?_
      exact G _ _ (Or.inl (declaration_consumes (Or.inr (Or.inl ⟨rfl, rfl⟩)) hk
        (Option.mem_def.1 h1)))
    · rename_i hk
      rw [G .function_declaration s (Or.inr ⟨le0, by decide⟩)]
      refine Option.bind_congr fun s1 h1 => ?_
      exact G _ _ (Or.inl (declaration_consumes (Or.inr (Or.inr ⟨rfl, rfl⟩)) hk
        (Option.mem_def.1 h1)))
    · rfl

theorem remaining_start (file : source_file) : remaining (start file) ≤ file.length := by
  cases file with
  | nil => decide
  | cons t ts =>
    show ts.length + (if t.name = .NONE then 0 else 1) ≤ ts.length + 1
    split <;> omega

/-- C14. Termination despite the non-advancing `parse_next_token`. For every finite token
stream `file`, well formed or not, `parse_source_file` returns when given `13 * file.length
+ 7` units of fuel or more, and so does every routine from every state when given
`fuel_bound` units or more, in a state with no more tokens remaining than before. A
mismatching `parse_next_token` leaves the cursor and the number of tokens remaining
unchanged. The measure `weight`, the number of tokens remaining and then the rank of the
routine, decreases at every call: the body of a routine gives the same result when every
call that does not have a smaller `weight` than the routine's own call is made to fail.
Hence no call made during the call of a routine has more tokens remaining, and every
iteration of a loop and every re-entry of a routine, `parse_expression`,
`parse_declaration_list` and `parse_lvalue_suffix` among them, has fewer tokens remaining
than the call it is made during: at least one token has been consumed before it. -/
theorem parse_source_file_terminates (fuel : Nat) (allocated : program) (file : source_file)
    (h : 13 * file.length + 7 ≤ fuel) :
    (∃ t, parse_source_file fuel allocated file = some (allocated, t)) ∧
    (∀ (n : Nat) (r : nonterminal) (s : parser), fuel_bound r s ≤ n →
      ∃ t, run r n s = some t ∧ remaining t ≤ remaining s) ∧
    (∀ (k : token_kind) (s : parser), s.current_token.name ≠ k →
      (parse_next_token k s).current_token = s.current_token ∧
      (parse_next_token k s).source_file = s.source_file ∧
      remaining (parse_next_token k s) = remaining s) ∧
    (∀ (n : Nat) (r : nonterminal) (s : parser),
      run r (n + 1) s = body (guarded r s fun q u => run q n u) r s) ∧
    (∀ (q r : nonterminal) (s u : parser), weight q u < weight r s →
      remaining u ≤ remaining s) ∧
    (∀ (r : nonterminal) (s u : parser), weight r u < weight r s ↔
      remaining u < remaining s) := by
  have hb : fuel_bound .expression (start file) ≤ fuel := by
    have := remaining_start file
    simp only [fuel_bound, nonterminal.rank]
    omega
  refine ⟨⟨_, parse_source_file_eq fuel allocated file hb⟩,
    fun n r s hf => ⟨_, run_final hf, remaining_steps (steps_final r s)⟩,
    fun k s hk => ?_, fun n r s => ?_, fun q r s u hw => ?_, fun r s u => ?_⟩
  · rw [parse_next_token_mismatch hk]
    exact ⟨rfl, rfl, remaining_print_error _ _ _ s⟩
  · rw [run_succ, body_guarded]
  · have := rank_le r
    unfold weight at hw
    omega
  · unfold weight
    omega

/-- Witness of C14: the malformed stream `if 1 2`, on which `parse_next_token` mismatches
for `then`. -/
theorem parse_source_file_terminates_witness :
    13 * (layout 0 [.IF_KEYWORD, .INTEGER_CONSTANT, .INTEGER_CONSTANT, .NONE]).length + 7 ≤
      59 ∧
    ∃ t, parse_source_file 59 ⟨0⟩
      (layout 0 [.IF_KEYWORD, .INTEGER_CONSTANT, .INTEGER_CONSTANT, .NONE]) = some (⟨0⟩, t) :=
  ⟨by decide, (parse_source_file_terminates 59 ⟨0⟩
    (layout 0 [.IF_KEYWORD, .INTEGER_CONSTANT, .INTEGER_CONSTANT, .NONE]) (by decide)).1⟩

/-! ## Progress of an expression -/

theorem fetches_step {s t : parser} (h : step s t) : fetches s ≤ fetches t := by
  cases h with
  | fetch _ => simp
  | report m hm => simp

/-- Along a run of actions the scanner is asked again exactly when fewer tokens remain. -/
theorem fetches_steps {s t : parser} (h : steps s t) :
    fetches s ≤ fetches t ∧ (fetches s < fetches t → remaining t < remaining s) ∧
      (remaining t = remaining s → fetches t = fetches s) := by
  induction h with
  | refl => exact ⟨Nat.le_refl _, fun h => absurd h (Nat.lt_irrefl _), fun _ => rfl⟩
  | tail h1 h2 ih =>
    obtain ⟨i1, i2, i3⟩ := ih
    have r1 := remaining_steps h1
    cases h2 with
    | report m hm =>
      simp only [fetches_print_error, remaining_print_error]
      exact ⟨i1, i2, i3⟩
    | fetch hne =>
      have r2 := remaining_advance_lt _ hne
      simp only [fetches_advance]
      exact ⟨by omega, fun _ => by omega, fun _ => by omega⟩

theorem loop_of_not {l : layer} {x : parser} (h : l.operator x.current_token.name = false) :
    loop l x = x := by
  simp [loop, h]

theorem steps_loop (l : layer) (x : parser) : steps x (loop l x) := by
  unfold loop
  split
  · rename_i hop
    exact steps_trans (steps_advance rfl (operator_ne_none hop) (steps_refl x))
      (steps_final _ _)
  · exact steps_refl x

theorem fetches_loop {l : layer} {x : parser} (h : l.operator x.current_token.name = true) :
    fetches x < fetches (loop l x) := by
  unfold loop
  rw [if_pos h]
  have := (fetches_steps (steps_final (.binary l) (advance x))).1
  rw [fetches_advance] at this
  omega

/-- The final state of `parse_expression`: the loops of the five layers after a primary
expression. -/
theorem final_expression_loops (s : parser) :
    final .expression s =
      loop .or (loop .and (loop .comparison (loop .additive (loop .multiplicative
        (final .primary s))))) := by
  rw [final_expression, final_binary]
  show loop .or (final (.binary .and) s) = _
  rw [final_binary]
  show loop .or (loop .and (final (.binary .comparison) s)) = _
  rw [final_binary]
  show loop .or (loop .and (loop .comparison (final (.binary .additive) s))) = _
  rw [final_binary]
  show loop .or (loop .and (loop .comparison (loop .additive
    (final (.binary .multiplicative) s)))) = _
  rw [final_binary]
  rfl

/-- A primary expression entered on a token that starts one asks the scanner. -/
theorem fetches_primary {s : parser} (h : s.current_token.name.starter = true) :
    fetches s < fetches (final .primary s) := by
  have key : steps (advance s) (final .primary s) := by
    rw [final_primary]
    split
    any_goals exact steps_refl _
    any_goals exact steps_final _ _
    rename_i h1 h2 h3 h4 h5 h6 h7 h8 h9 h10 h11
    cases hk : s.current_token.name <;> simp_all [token_kind.starter]
  have := (fetches_steps key).1
  rw [fetches_advance] at this
  omega

theorem final_primary_stuck {s : parser} (h : s.current_token.name.starter = false) :
    final .primary s =
      print_error s.current_token.line s.current_token.column "expected expression" s := by
  rw [final_primary]
  split <;> simp_all [token_kind.starter]

/-- An expression during which the scanner is not asked is a single report. -/
theorem final_expression_stuck {s : parser}
    (h : fetches (final .expression s) = fetches s) :
    final .expression s =
      print_error s.current_token.line s.current_token.column "expected expression" s := by
  rw [final_expression_loops] at h ⊢
  have e0 := (fetches_steps (steps_final .primary s)).1
  have e1 := (fetches_steps (steps_loop .multiplicative (final .primary s))).1
  have e2 := (fetches_steps (steps_loop .additive
    (loop .multiplicative (final .primary s)))).1
  have e3 := (fetches_steps (steps_loop .comparison (loop .additive
    (loop .multiplicative (final .primary s))))).1
  have e4 := (fetches_steps (steps_loop .and (loop .comparison (loop .additive
    (loop .multiplicative (final .primary s)))))).1
  have e5 := (fetches_steps (steps_loop .or (loop .and (loop .comparison (loop .additive
    (loop .multiplicative (final .primary s))))))).1
  have stay : ∀ (l : layer) (x : parser), fetches (loop l x) ≤ fetches x → loop l x = x := by
    intro l x hx
    cases hop : l.operator x.current_token.name with
    | false => exact loop_of_not hop
    | true => have := fetches_loop hop; omega
  have hp : final .primary s =
      print_error s.current_token.line s.current_token.column "expected expression" s := by
    cases hs : s.current_token.name.starter with
    | false => exact final_primary_stuck hs
    | true => have := fetches_primary hs; omega
  have s1 := stay .multiplicative (final .primary s) (by omega)
  rw [s1] at e2 e3 e4 e5 h ⊢
  have s2 := stay .additive (final .primary s) (by omega)
  rw [s2] at e3 e4 e5 h ⊢
  have s3 := stay .comparison (final .primary s) (by omega)
  rw [s3] at e4 e5 h ⊢
  have s4 := stay .and (final .primary s) (by omega)
  rw [s4] at e5 h ⊢
  have s5 := stay .or (final .primary s) (by omega)
  rw [s5]
  exact hp

/-- An expression entered on a token that neither starts a primary expression nor is a
binary operator is a single report. -/
theorem final_expression_of_inert {s : parser} (h1 : s.current_token.name.starter = false)
    (h2 : ∀ l : layer, l.operator s.current_token.name = false) :
    final .expression s =
      print_error s.current_token.line s.current_token.column "expected expression" s := by
  rw [final_expression_loops, final_primary_stuck h1]
  have hl : ∀ l : layer, loop l (print_error s.current_token.line s.current_token.column
      "expected expression" s) = print_error s.current_token.line s.current_token.column
      "expected expression" s := fun l => loop_of_not (h2 l)
  rw [hl, hl, hl, hl, hl]

theorem fetches_consume {w : List token_kind} {s t : parser} (h : consume w s = some t) :
    fetches t = fetches s + w.length := by
  induction w generalizing s with
  | nil => rw [consume_nil_inv h]; rfl
  | cons k w ih =>
    obtain ⟨_, h2⟩ := consume_cons_inv h
    rw [ih h2, fetches_advance, List.length_cons]
    omega

/-- C18. Monotonic progress of expression recognition. From every state `parse_expression`
returns when given `fuel_bound` units of fuel or more. Whenever it returns, in a state `t`:
if it has reported no diagnostic, the tokens it has consumed are a nonempty phrase `w` of
the grammar of expressions, the scanner has been asked `w.length` times and fewer tokens
remain; and if the cursor is where it started (the current token and the scanner are the
same, or equivalently the scanner has not been asked), then `t` is the starting state with
exactly one diagnostic added, `expected expression`, at the line and column of the starting
token. -/
theorem parse_expression_progress (n : Nat) (s : parser) :
    (fuel_bound .expression s ≤ n → ∃ t, parse_expression n s = some t) ∧
    ∀ t, parse_expression n s = some t →
      (errors t = errors s →
        ∃ w, w ≠ [] ∧ derives .expression w ∧ consume w s = some t ∧
          fetches t = fetches s + w.length ∧ remaining t < remaining s) ∧
      (t.current_token = s.current_token ∧ t.source_file = s.source_file →
        fetches t = fetches s) ∧
      (fetches t = fetches s →
        t = print_error s.current_token.line s.current_token.column
          "expected expression" s ∧
        diagnostics t = diagnostics s ++
          [event.print_error s.current_token.line s.current_token.column
            "expected expression"]) := by
  refine ⟨fun hf => ⟨_, run_final (r := .expression) hf⟩, fun t ht => ?_⟩
  have hr : run .expression n s = some t := ht
  have hst := run_steps _ _ _ _ hr
  obtain ⟨f1, f2, f3⟩ := fetches_steps hst
  refine ⟨fun he => ?_, fun hc => ?_, fun hc => ?_⟩
  · obtain ⟨w, hw, hcw⟩ := run_sound n .expression s t hr he
    obtain ⟨k, hk, _⟩ : ∃ k, w.head? = some k ∧ k.starter = true := derives_head hw
    have hne : w ≠ [] := by
      intro e
      rw [e] at hk
      simp at hk
    have hlen : 0 < w.length := List.length_pos.2 hne
    have hfe := fetches_consume hcw
    exact ⟨w, hne, hw, hcw, hfe, f2 (by omega)⟩
  · apply f3
    unfold remaining
    rw [hc.1, hc.2]
  · have e := run_eq_final hr
    rw [e] at hc ⊢
    rw [final_expression_stuck hc]
    exact ⟨rfl, diagnostics_print_error _ _ _ s⟩

/-- Witness of C18: `1 + 2` followed by `)` is read without diagnostic, three tokens being
consumed; on `)` the cursor stays and the diagnostic is reported. -/
theorem parse_expression_progress_witness :
    (errors (⟨[⟨.NONE, 1, 4⟩], ⟨.RIGHT_PARENTHESIS, 1, 3⟩, [.init_type_check,
        .program_allocate, .get_token, .get_token, .get_token, .get_token]⟩ : parser) =
      errors (start (layout 0 [.INTEGER_CONSTANT, .PLUS, .INTEGER_CONSTANT,
        .RIGHT_PARENTHESIS, .NONE])) →
      ∃ w, w ≠ [] ∧ derives .expression w ∧
        consume w (start (layout 0 [.INTEGER_CONSTANT, .PLUS, .INTEGER_CONSTANT,
          .RIGHT_PARENTHESIS, .NONE])) =
          some ⟨[⟨.NONE, 1, 4⟩], ⟨.RIGHT_PARENTHESIS, 1, 3⟩, [.init_type_check,
            .program_allocate, .get_token, .get_token, .get_token, .get_token]⟩ ∧
        fetches (⟨[⟨.NONE, 1, 4⟩], ⟨.RIGHT_PARENTHESIS, 1, 3⟩, [.init_type_check,
            .program_allocate, .get_token, .get_token, .get_token, .get_token]⟩ : parser) =
          fetches (start (layout 0 [.INTEGER_CONSTANT, .PLUS, .INTEGER_CONSTANT,
            .RIGHT_PARENTHESIS, .NONE])) + w.length ∧
        remaining (⟨[⟨.NONE, 1, 4⟩], ⟨.RIGHT_PARENTHESIS, 1, 3⟩, [.init_type_check,
            .program_allocate, .get_token, .get_token, .get_token, .get_token]⟩ : parser) <
          remaining (start (layout 0 [.INTEGER_CONSTANT, .PLUS, .INTEGER_CONSTANT,
            .RIGHT_PARENTHESIS, .NONE]))) ∧
    (parse_expression 7 ⟨[⟨.NONE, 1, 4⟩], ⟨.RIGHT_PARENTHESIS, 1, 3⟩, []⟩ =
        some ⟨[⟨.NONE, 1, 4⟩], ⟨.RIGHT_PARENTHESIS, 1, 3⟩,
          [.print_error 1 3 "expected expression"]⟩ ∧
      diagnostics (⟨[⟨.NONE, 1, 4⟩], ⟨.RIGHT_PARENTHESIS, 1, 3⟩,
          [.print_error 1 3 "expected expression"]⟩ : parser) =
        diagnostics (⟨[⟨.NONE, 1, 4⟩], ⟨.RIGHT_PARENTHESIS, 1, 3⟩, []⟩ : parser) ++
          [event.print_error 1 3 "expected expression"]) :=
  ⟨((parse_expression_progress 60 (start (layout 0 [.INTEGER_CONSTANT, .PLUS,
      .INTEGER_CONSTANT, .RIGHT_PARENTHESIS, .NONE]))).2
      ⟨[⟨.NONE, 1, 4⟩], ⟨.RIGHT_PARENTHESIS, 1, 3⟩, [.init_type_check,
        .program_allocate, .get_token, .get_token, .get_token, .get_token]⟩
      (by decide)).1,
    by decide,
    (((parse_expression_progress 7 ⟨[⟨.NONE, 1, 4⟩], ⟨.RIGHT_PARENTHESIS, 1, 3⟩, []⟩).2
      ⟨[⟨.NONE, 1, 4⟩], ⟨.RIGHT_PARENTHESIS, 1, 3⟩,
        [.print_error 1 3 "expected expression"]⟩ (by decide)).2.2 (by decide)).2⟩

/-! ## A separator before the terminator -/

theorem terminator_not_starter (e : terminator) : e.kind.starter = false := by
  cases e <;> rfl

theorem terminator_ne_separator (e : terminator) (k : series_kind) :
    e.kind ≠ k.separator := by
  cases e <;> cases k <;> decide

/-- A list form of expressions on an expression, the separator and the terminator: the
element missing after the separator is reported at the terminator, which is consumed. -/
theorem final_series_trailing {k : series_kind} (hk : k.item = .expression) (e : terminator)
    {w : List token_kind} {s x : parser} (hw : derives .expression w)
    (hc : consume (w ++ [k.separator]) s = some x) (hx : x.current_token.name = e.kind) :
    final (.series k e) s =
      advance (print_error x.current_token.line x.current_token.column
        "expected expression" x) := by
  obtain ⟨y, hy, hyx⟩ := consume_append_inv hc
  obtain ⟨hsep, hadv⟩ := consume_cons_inv hyx
  have hxa : x = advance y := consume_nil_inv hadv
  obtain ⟨a, ha, hst⟩ : ∃ a, w.head? = some a ∧ a.starter = true := derives_head hw
  have hs : s.current_token.name ≠ e.kind := by
    rw [consume_head ha hy]
    exact starter_not_terminator e hst
  have h1 : final .expression s = y :=
    final_complete hw (fun z => z = y) s y
      (good_of_inert fun z hz => by
        have hz' : z = y := hz
        rw [hz', hsep]
        exact separator_inert k) hy rfl
  have h2 : final .expression x =
      print_error x.current_token.line x.current_token.column "expected expression" x :=
    final_expression_of_inert (by rw [hx]; exact terminator_not_starter e)
      (by rw [hx]; exact (terminator_inert e).2.2)
  rw [final_series, if_neg hs, final_elements, hk, h1]
  unfold more
  rw [if_pos hsep, ← hxa, final_elements, hk, h2]
  unfold more
  rw [if_neg (by
    show x.current_token.name ≠ k.separator
    rw [hx]
    exact terminator_ne_separator e k)]
  exact parse_next_token_match hx

/-- C19. A trailing separator is diagnosed, not accepted. Let `w` be an expression of the
grammar and let the tokens ahead be `w`, then `;`, then the terminator, the state in which
the terminator is the current token being `x`. Then `parse_expression_sequence`, given
`fuel_bound` units of fuel or more, returns in the state reached from `x` by one report,
`expected expression` at the line and column of the terminator, followed by the
consumption of the terminator; the diagnostics on record are those of the starting state
and this one. Likewise `parse_expression_list` with `,` for `;`. -/
theorem trailing_separator_diagnosed (w : List token_kind) (e : terminator) (s x : parser)
    (fuel : Nat) (hw : derives .expression w) (hx : x.current_token.name = e.kind) :
    (consume (w ++ [.SEMICOLON]) s = some x →
      fuel_bound (.series .expression_sequence e) s ≤ fuel →
      parse_expression_sequence fuel e.kind s =
        some (advance (print_error x.current_token.line x.current_token.column
          "expected expression" x)) ∧
      diagnostics (advance (print_error x.current_token.line x.current_token.column
          "expected expression" x)) =
        diagnostics s ++ [event.print_error x.current_token.line x.current_token.column
          "expected expression"]) ∧
    (consume (w ++ [.COMMA]) s = some x →
      fuel_bound (.series .expression_list e) s ≤ fuel →
      parse_expression_list fuel e.kind s =
        some (advance (print_error x.current_token.line x.current_token.column
          "expected expression" x)) ∧
      diagnostics (advance (print_error x.current_token.line x.current_token.column
          "expected expression" x)) =
        diagnostics s ++ [event.print_error x.current_token.line x.current_token.column
          "expected expression"]) := by
  refine ⟨fun hc hf => ⟨?_, ?_⟩, fun hc hf => ⟨?_, ?_⟩⟩
  · rw [← final_series_trailing (k := .expression_sequence) rfl e hw hc hx]
    exact run_final (r := .series .expression_sequence e) hf
  · rw [diagnostics_advance, diagnostics_print_error, diagnostics_consume hc]
  · rw [← final_series_trailing (k := .expression_list) rfl e hw hc hx]
    exact run_final (r := .series .expression_list e) hf
  · rw [diagnostics_advance, diagnostics_print_error, diagnostics_consume hc]

/-- Witness of C19: the body `1;)` of the stream `(1;)` and the arguments `1,)` of the
stream `f(1,)`. -/
theorem trailing_separator_diagnosed_witness :
    (parse_expression_sequence 100 .RIGHT_PARENTHESIS
        (advance (start (layout 0 [.LEFT_PARENTHESIS, .INTEGER_CONSTANT, .SEMICOLON,
          .RIGHT_PARENTHESIS, .NONE]))) =
      some ⟨[], ⟨.NONE, 1, 4⟩, [.init_type_check, .program_allocate, .get_token,
        .get_token, .get_token, .get_token, .print_error 1 3 "expected expression",
        .get_token]⟩) ∧
    (parse_expression_list 100 .RIGHT_PARENTHESIS
        (advance (advance (start (layout 0 [.IDENTIFIER, .LEFT_PARENTHESIS,
          .INTEGER_CONSTANT, .COMMA, .RIGHT_PARENTHESIS, .NONE])))) =
      some ⟨[], ⟨.NONE, 1, 5⟩, [.init_type_check, .program_allocate, .get_token,
        .get_token, .get_token, .get_token, .get_token,
        .print_error 1 4 "expected expression", .get_token]⟩) :=
  ⟨((trailing_separator_diagnosed [.INTEGER_CONSTANT] .RIGHT_PARENTHESIS
      (advance (start (layout 0 [.LEFT_PARENTHESIS, .INTEGER_CONSTANT, .SEMICOLON,
        .RIGHT_PARENTHESIS, .NONE])))
      ⟨[⟨.NONE, 1, 4⟩], ⟨.RIGHT_PARENTHESIS, 1, 3⟩, [.init_type_check, .program_allocate,
        .get_token, .get_token, .get_token, .get_token]⟩ 100
      (derives_of_primary (derives.atom rfl)) rfl).1 (by decide) (by decide)).1,
    ((trailing_separator_diagnosed [.INTEGER_CONSTANT] .RIGHT_PARENTHESIS
      (advance (advance (start (layout 0 [.IDENTIFIER, .LEFT_PARENTHESIS,
        .INTEGER_CONSTANT, .COMMA, .RIGHT_PARENTHESIS, .NONE]))))
      ⟨[⟨.NONE, 1, 5⟩], ⟨.RIGHT_PARENTHESIS, 1, 4⟩, [.init_type_check, .program_allocate,
        .get_token, .get_token, .get_token, .get_token, .get_token]⟩ 100
      (derives_of_primary (derives.atom rfl)) rfl).2 (by decide) (by decide)).1⟩

/-! ## Reading a program that lacks required tokens -/

theorem meant_append (m v : List mark) : meant (m ++ v) = meant m ++ meant v := by
  induction m with
  | nil => rfl
  | cons d m ih => cases d <;> simp [meant, ih]

theorem meant_expected {k : token_kind} {d : mark} (h : expected k d) (m : List mark) :
    meant (d :: m) = k :: meant m := by
  rcases h with rfl | rfl <;> rfl

/-- A phrase with tokens left out is, as meant, a phrase of the grammar. -/
theorem marked_meant {r : nonterminal} {m : List mark} (h : marked r m) :
    derives r (meant m) := by
  induction h with
  | expression _ ih => exact derives.expression ih
  | operand _ ih => exact derives.operand ih
  | chain _ hop _ ih1 ih2 =>
    rw [meant_append]
    exact derives.chain ih1 hop ih2
  | atom hk => exact derives.atom hk
  | negation _ ih => exact derives.negation ih
  | parenthesized _ ih => exact derives.parenthesized ih
  | conditional _ ih => exact derives.conditional ih
  | while_loop _ ih => exact derives.while_loop ih
  | for_loop _ ih => exact derives.for_loop ih
  | let_block _ ih => exact derives.let_block ih
  | identifier _ ih => exact derives.identifier ih
  | if_then _ hd _ ih1 ih2 =>
    rw [meant_append, meant_expected hd]
    exact derives.if_then ih1 ih2
  | if_then_else _ hd _ _ ih1 ih2 ih3 =>
    rw [meant_append, meant_expected hd, meant_append]
    exact derives.if_then_else ih1 ih2 ih3
  | while_do _ hd _ ih1 ih2 =>
    rw [meant_append, meant_expected hd]
    exact derives.while_do ih1 ih2
  | for_to_do h1 h2 _ h3 _ h4 _ ih1 ih2 ih3 =>
    rw [meant_expected h1, meant_expected h2, meant_append, meant_expected h3, meant_append,
      meant_expected h4]
    exact derives.for_to_do ih1 ih2 ih3
  | @let_in ds b d _ hne hd _ ih1 ih2 =>
    rw [meant_append, meant_expected hd]
    refine derives.let_in ih1 ?_ ih2
    cases ds with
    | nil => exact absurd rfl hne
    | cons a ds => cases a <;> simp [meant]
  | record _ ih => exact derives.record ih
  | array _ hd _ ih1 ih2 =>
    show derives _ (_ :: meant _)
    rw [meant_append, meant_expected hd]
    exact derives.array ih1 ih2
  | call _ ih => exact derives.call ih
  | lvalue _ ih => exact derives.lvalue ih
  | assignment _ _ ih1 ih2 =>
    rw [meant_append]
    exact derives.assignment ih1 ih2
  | no_suffix => exact derives.no_suffix
  | field_suffix hd _ ih =>
    show derives _ (_ :: meant _)
    rw [meant_expected hd]
    exact derives.field_suffix ih
  | index_suffix _ hd _ ih1 ih2 =>
    show derives _ (_ :: meant _)
    rw [meant_append, meant_expected hd]
    exact derives.index_suffix ih1 ih2
  | empty_series => exact derives.empty_series
  | full_series _ hd _ ih =>
    rw [meant_append, meant_expected hd]
    exact derives.full_series ih
  | one_element _ ih => exact derives.one_element ih
  | more_elements _ _ ih1 ih2 =>
    rw [meant_append]
    exact derives.more_elements ih1 ih2
  | field h1 h2 _ ih =>
    rw [meant_expected h1, meant_expected h2]
    exact derives.field ih
  | type_field h1 h2 h3 =>
    rw [meant_expected h1, meant_expected h2, meant_expected h3]
    exact derives.type_field
  | record_type _ ih => exact derives.record_type ih
  | array_type h1 h2 =>
    show derives _ (_ :: meant _)
    rw [meant_expected h1, meant_expected h2]
    exact derives.array_type
  | alias_type => exact derives.alias_type
  | type_declaration h1 h2 _ ih =>
    show derives _ (_ :: meant _)
    rw [meant_expected h1, meant_expected h2]
    exact derives.type_declaration ih
  | untyped_variable h1 h2 _ ih =>
    show derives _ (_ :: meant _)
    rw [meant_expected h1, meant_expected h2]
    exact derives.untyped_variable ih
  | typed_variable h1 h2 h3 _ ih =>
    show derives _ (_ :: meant _)
    rw [meant_expected h1]
    show derives _ (_ :: _ :: _ :: meant _)
    rw [meant_expected h2, meant_expected h3]
    exact derives.typed_variable ih
  | untyped_function h1 h2 _ h3 _ ih1 ih2 =>
    show derives _ (_ :: meant _)
    rw [meant_expected h1, meant_expected h2, meant_append, meant_expected h3]
    exact derives.untyped_function ih1 ih2
  | typed_function h1 h2 _ h3 h4 _ ih1 ih2 =>
    show derives _ (_ :: meant _)
    rw [meant_expected h1, meant_expected h2, meant_append]
    show derives _ (_ :: _ :: _ :: (_ ++ _ :: meant _))
    rw [meant_expected h3, meant_expected h4]
    exact derives.typed_function ih1 ih2
  | no_declaration => exact derives.no_declaration
  | type_first _ _ ih1 ih2 =>
    rw [meant_append]
    exact derives.type_first ih1 ih2
  | variable_first _ _ ih1 ih2 =>
    rw [meant_append]
    exact derives.variable_first ih1 ih2
  | function_first _ _ ih1 ih2 =>
    rw [meant_append]
    exact derives.function_first ih1 ih2

theorem replay_nil_inv {p : Bool × parser} {o : Bool} {t : parser}
    (h : replay [] p = some (o, t)) : o = p.1 ∧ t = p.2 := by
  simp only [replay, Option.some.injEq] at h
  rw [h]
  exact ⟨rfl, rfl⟩

theorem replay_present_inv {k : token_kind} {m : List mark} {o : Bool} {s : parser}
    {r : Bool × parser} (h : replay (.present k :: m) (o, s) = some r) :
    s.current_token.name = k ∧ replay m ((mark.present k).opens, advance s) = some r := by
  simp only [replay] at h
  split at h
  · rename_i hk; exact ⟨hk, h⟩
  · simp at h

theorem binary_operator_false {a : token_kind} (h : binary_operator a = false) (l : layer) :
    l.operator a = false := by
  cases a <;> cases l <;> first | rfl | simp [binary_operator] at h

/-- What `halts` says, item by item. -/
theorem halts_spec {o : Bool} {k a : token_kind} (h : halts o k a = true) :
    a ≠ k ∧ (k.closes = true → a.calm) ∧
    (k.closes = true → o = true → a.carries_on = false) ∧
    ((k = .RIGHT_PARENTHESIS ∨ k = .END_KEYWORD ∨ k = .RIGHT_BRACE) →
      a ≠ .COMMA ∧ a ≠ .SEMICOLON) ∧
    (k = .IN_KEYWORD →
      a ≠ .TYPE_KEYWORD ∧ a ≠ .VAR_KEYWORD ∧ a ≠ .FUNCTION_KEYWORD) ∧
    ((k = .ASSIGNMENT ∨ k = .EQUAL) → a ≠ .COLON) := by
  simp only [halts, Bool.and_eq_true, Bool.or_eq_true, Bool.not_eq_true', decide_eq_true_eq,
    decide_eq_false_iff_not] at h
  obtain ⟨⟨⟨⟨⟨h1, h2⟩, h4⟩, h5⟩, h6⟩, h7⟩ := h
  refine ⟨h1, fun hc => ?_, fun hc ho => ?_, fun hk => ?_, fun hk => ?_, fun hk => ?_⟩
  · rcases h2 with h2 | h2
    · rw [hc] at h2; cases h2
    · exact ⟨h2.2, binary_operator_false h2.1⟩
  · rcases h4 with h4 | h4
    · rw [hc] at h4; cases h4
    · rcases h4 with h4 | h4
      · rw [ho] at h4; cases h4
      · exact h4
  · rcases h5 with h5 | h5
    · exfalso
      rcases hk with rfl | rfl | rfl <;> simp at h5
    · exact h5
  · rcases h6 with h6 | h6
    · exact absurd hk h6
    · exact ⟨h6.1.1, h6.1.2, h6.2⟩
  · rcases h7 with h7 | h7
    · exfalso
      rcases hk with rfl | rfl <;> simp at h7
    · exact h7

theorem replay_expected_inv {k : token_kind} {d : mark} {m : List mark} {o : Bool}
    {s : parser} {r : Bool × parser} (hd : expected k d)
    (h : replay (d :: m) (o, s) = some r) :
    replay m (d.opens, parse_next_token k s) = some r ∧
      ((d = .present k ∧ s.current_token.name = k) ∨
        (d = .omitted k ∧ halts o k s.current_token.name = true)) := by
  rcases hd with rfl | rfl
  · obtain ⟨h1, h2⟩ := replay_present_inv h
    rw [parse_next_token_match h1]
    exact ⟨h2, Or.inl ⟨rfl, h1⟩⟩
  · simp only [replay] at h
    split at h
    · rename_i hh
      rw [parse_next_token_mismatch (halts_spec hh).1]
      exact ⟨h, Or.inr ⟨rfl, hh⟩⟩
    · simp at h

theorem calm_of_inert {k : token_kind} (h : k.inert) : k.calm := ⟨h.2.1, h.2.2⟩

/-- At the place of a required token that closes a phrase, the current token is calm and
does not carry on what can be carried on with. -/
theorem expected_stop {k : token_kind} {d : mark} {o : Bool} {s : parser}
    (h : (d = .present k ∧ s.current_token.name = k) ∨
      (d = .omitted k ∧ halts o k s.current_token.name = true))
    (hk : k.inert) (hc : k.closes = true) :
    s.current_token.name.calm ∧ (o = true → s.current_token.name.carries_on = false) := by
  rcases h with ⟨_, h⟩ | ⟨_, h⟩
  · rw [h]; exact ⟨calm_of_inert hk, fun _ => hk.1⟩
  · exact ⟨(halts_spec h).2.1 hc, (halts_spec h).2.2.1 hc⟩

theorem expected_opens {k : token_kind} {d : mark} (hd : expected k d)
    (hk : k = .IDENTIFIER ∨ k = .RIGHT_BRACKET) : d.opens = true := by
  rcases hd with rfl | rfl
  · rcases hk with rfl | rfl <;> rfl
  · rfl

theorem replay_append_inv {m v : List mark} {p r : Bool × parser}
    (h : replay (m ++ v) p = some r) :
    ∃ x, replay m p = some x ∧ replay v x = some r := by
  induction m generalizing p with
  | nil => exact ⟨p, rfl, h⟩
  | cons d m ih =>
    cases d with
    | present k =>
      simp only [List.cons_append, replay] at h ⊢
      split at h
      · rename_i hk
        rw [if_pos hk]
        exact ih h
      · simp at h
    | omitted k =>
      simp only [List.cons_append, replay] at h ⊢
      split at h
      · rename_i hk
        rw [if_pos hk]
        exact ih h
      · simp at h

theorem replay_head {m : List mark} {k : token_kind} {o : Bool} {s : parser}
    {r : Bool × parser} (hm : m.head? = some (.present k))
    (h : replay m (o, s) = some r) : s.current_token.name = k := by
  cases m with
  | nil => simp at hm
  | cons d m =>
    simp only [List.head?_cons, Option.some.injEq] at hm
    subst hm
    exact (replay_present_inv h).1

theorem replay_written_head {m : List mark} {a : token_kind} {p r : Bool × parser}
    (hm : (written m).head? = some a) (h : replay m p = some r) :
    p.2.current_token.name = a := by
  induction m generalizing p with
  | nil => simp [written] at hm
  | cons d m ih =>
    cases d with
    | present k =>
      simp only [written, List.head?_cons, Option.some.injEq] at hm
      subst hm
      exact (replay_present_inv (o := p.1) (s := p.2) h).1
    | omitted k =>
      simp only [written] at hm
      simp only [replay] at h
      split at h
      · exact ih (p := (true, print_error p.2.current_token.line
          p.2.current_token.column ("expected " ++ token_kind_string k) p.2)) hm h
      · simp at h

theorem head_append_mark {d : mark} {m v : List mark} (h : m.head? = some d) :
    (m ++ v).head? = some d := by
  cases m with
  | nil => simp at h
  | cons a m => simpa using h

/-- The first mark of a phrase, rule by rule. -/
theorem marked_lead {r : nonterminal} {m : List mark} (h : marked r m) : lead r m := by
  induction h with
  | no_suffix => intro d hd; simp at hd
  | field_suffix _ _ _ => intro d hd; simp at hd; exact Or.inl hd.symm
  | index_suffix _ _ _ _ _ => intro d hd; simp at hd; exact Or.inr hd.symm
  | type_declaration _ _ _ _ => rfl
  | untyped_variable _ _ _ _ => rfl
  | typed_variable _ _ _ _ _ => rfl
  | untyped_function _ _ _ _ _ _ _ => rfl
  | typed_function _ _ _ _ _ _ _ _ => rfl
  | no_declaration => intro d hd; simp at hd
  | type_first _ _ ih1 _ =>
    intro d hd
    rw [head_append_mark ih1] at hd
    simp at hd
    exact Or.inl hd.symm
  | variable_first _ _ ih1 _ =>
    intro d hd
    rw [head_append_mark ih1] at hd
    simp at hd
    exact Or.inr (Or.inl hd.symm)
  | function_first _ _ ih1 _ =>
    intro d hd
    rw [head_append_mark ih1] at hd
    simp at hd
    exact Or.inr (Or.inr hd.symm)
  | lvalue _ _ => trivial
  | assignment _ _ _ _ => trivial
  | _ => trivial

theorem closed_of_calm {K : parser → Prop}
    (h : ∀ x, K x → x.current_token.name.calm) : closed K := by
  refine ⟨fun x hx he => absurd he (h x hx).1, fun l x hx hl => ?_⟩
  have := (h x hx).2 l
  rw [this] at hl
  exact absurd hl (by simp)

theorem closed_loop_absorb {K : parser → Prop} (h : closed K) (l : layer) (y : parser)
    (hy : K y) : K (loop l y) := by
  unfold loop
  split
  · rename_i hop; exact h.2 l y hy hop
  · exact hy

theorem closed_else_absorb {K : parser → Prop} (h : closed K) (y : parser) (hy : K y) :
    K (else_part y) := by
  unfold else_part
  split
  · rename_i he; exact h.1 y hy he
  · exact hy

theorem closed_loop {K : parser → Prop} (l : layer) (h : closed K) :
    closed (fun x => K (loop l x)) := by
  refine ⟨fun x hx he => ?_, fun m x hx hm => ?_⟩
  · have hop : ¬ l.operator x.current_token.name = true := by
      intro hop
      exact (operator_carries_on hop).2 he
    simp only [loop, hop] at hx
    exact closed_loop_absorb h l _ (h.1 x hx he)
  · by_cases hop : l.operator x.current_token.name = true
    · simp only [loop, hop, if_true] at hx
      by_cases hlm : m = l
      · subst hlm
        exact closed_loop_absorb h m _ hx
      · exfalso
        revert hop hm hlm
        cases l <;> cases m <;> cases x.current_token.name <;> simp [layer.operator]
    · simp only [loop, hop] at hx
      exact closed_loop_absorb h l _ (h.2 m x hx hm)

theorem closed_else_part {K : parser → Prop} (h : closed K) :
    closed (fun x => K (else_part x)) := by
  refine ⟨fun x hx he => ?_, fun m x hx hm => ?_⟩
  · simp only [else_part, he, if_true] at hx
    exact closed_else_absorb h _ hx
  · have he : ¬ x.current_token.name = .ELSE_KEYWORD := (operator_carries_on hm).2
    simp only [else_part, he] at hx
    exact closed_else_absorb h _ (h.2 m x hx hm)

theorem calm_separator (k : series_kind) : k.separator.calm :=
  calm_of_inert (separator_inert k)

/-- The states from which the rest of the loop of a list form leads into a set of calm
states are calm. -/
theorem calm_more {K : parser → Prop} (k : series_kind)
    (h : ∀ x, K x → x.current_token.name.calm) :
    ∀ x, K (more k x) → x.current_token.name.calm := by
  intro x hx
  by_cases hs : x.current_token.name = k.separator
  · rw [hs]; exact calm_separator k
  · simp only [more, hs] at hx
    exact h x hx

theorem calm_declarations {K : parser → Prop}
    (h : ∀ x, K x → x.current_token.name.calm) :
    ∀ x, K (final .declaration_list x) → x.current_token.name.calm := by
  intro x hx
  rw [final_declaration_list] at hx
  split at hx
  · rename_i hk; rw [hk]; exact calm_of_inert (inert_of_mem (by simp))
  · rename_i hk; rw [hk]; exact calm_of_inert (inert_of_mem (by simp))
  · rename_i hk; rw [hk]; exact calm_of_inert (inert_of_mem (by simp))
  · exact h x hx

/-- After lvalue suffixes, what has been read can be carried on with. -/
theorem suffix_opens {r : nonterminal} {m : List mark} (h : marked r m) :
    r = .lvalue_suffixes → ∀ (s : parser) (o : Bool) (t : parser),
      replay m (true, s) = some (o, t) → o = true := by
  induction h with
  | no_suffix =>
    intro _ s o t hc
    exact (replay_nil_inv hc).1
  | field_suffix hd _ ih =>
    intro _ s o t hc
    obtain ⟨_, h1⟩ := replay_present_inv hc
    obtain ⟨h2, _⟩ := replay_expected_inv hd h1
    rw [expected_opens hd (Or.inl rfl)] at h2
    exact ih rfl _ o t h2
  | index_suffix _ hd _ _ ih =>
    intro _ s o t hc
    obtain ⟨_, h1⟩ := replay_present_inv hc
    obtain ⟨⟨o1, x⟩, _, hv⟩ := replay_append_inv h1
    obtain ⟨h2, _⟩ := replay_expected_inv hd hv
    rw [expected_opens hd (Or.inr rfl)] at h2
    exact ih rfl _ o t h2
  | _ => intro hr; cases hr

/-- The identifier-led form that is an lvalue, with or without an assignment: whatever the
branch of `parse_identifier` it is read by, the outcome is that of the lvalue suffixes
followed by the optional assignment. -/
theorem final_identifier_rest_suffixes {K : parser → Prop} {s : parser}
    (h1 : s.current_token.name ≠ .LEFT_BRACE) (h2 : s.current_token.name ≠ .LEFT_PARENTHESIS)
    (h3 : (final .lvalue_suffixes s).current_token.name ≠ .OF_KEYWORD)
    (h : K (assignment_part (final .lvalue_suffixes s))) :
    K (final .identifier_rest s) := by
  rw [final_identifier_rest]
  split
  · rename_i hk; exact absurd hk h1
  · rename_i hk
    rw [final_lvalue_suffixes] at h h3
    simp only [hk] at h h3
    split
    · rename_i hof
      exfalso
      rw [final_lvalue_suffixes] at h3
      simp only [hof] at h3
      exact h3 rfl
    · exact h
  · rename_i hk; exact absurd hk h2
  · exact h

/-- The parser on a program that lacks required tokens: if the tokens ahead are a phrase
`m` of rule `r` as written, each token left out being followed by a token that `halts`,
and the state `t` reached by reading the phrase and reporting the tokens left out is one of
a set `K` in which the phrase may end, then the routine for `r` returns in a state of
`K`. -/
theorem final_marked {r : nonterminal} {m : List mark} (h : marked r m) :
    ∀ (K : parser → Prop) (o : Bool) (s : parser) (o' : Bool) (t : parser),
      enters r o → suits r K → replay m (o, s) = some (o', t) → K t → ends r o' t →
      K (final r s) := by
  induction h with
  | expression _ ih =>
    intro K o s o' t hpre hf hc hk hp
    rw [final_expression]
    exact ih K o s o' t trivial hf hc hk hp
  | @operand l m _ ih =>
    intro K o s o' t hpre hf hc hk hp
    rw [final_binary]
    exact ih (fun x => K (loop l x)) o s o' t (by cases l <;> trivial)
      (by cases l <;> exact closed_loop _ hf) hc (closed_loop_absorb hf l t hk)
      (by cases l <;> exact hp)
  | @chain l m v op _ hop _ ih1 ih2 =>
    intro K o s o' t hpre hf hc hk hp
    obtain ⟨⟨o1, x⟩, hx, hv⟩ := replay_append_inv hc
    obtain ⟨hxk, hv2⟩ := replay_present_inv hv
    rw [final_binary]
    have hcar : o1 = true → x.current_token.name.carries_on = false :=
      fun _ => by rw [hxk]; exact (operator_carries_on hop).1
    refine ih1 (fun x => K (loop l x)) o s o1 x (by cases l <;> trivial)
      (by cases l <;> exact closed_loop _ hf) hx ?_ (by cases l <;> exact hcar)
    show K (loop l x)
    unfold loop
    rw [hxk]
    simp only [hop, if_true]
    exact ih2 K _ _ o' t trivial hf hv2 hk hp
  | @atom k hk0 =>
    intro K o s o' t hpre hf hc hk hp
    obtain ⟨h1, h2⟩ := replay_present_inv hc
    obtain ⟨_, h3⟩ := replay_nil_inv h2
    rw [h3] at hk
    rw [final_primary]
    cases k <;> simp [token_kind.atom] at hk0 <;> simp only [h1] <;> exact hk
  | negation _ ih =>
    intro K o s o' t hpre hf hc hk hp
    obtain ⟨h1, h2⟩ := replay_present_inv hc
    rw [final_primary]
    simp only [h1]
    exact ih K _ _ o' t trivial hf h2 hk hp
  | parenthesized _ ih =>
    intro K o s o' t hpre hf hc hk hp
    obtain ⟨h1, h2⟩ := replay_present_inv hc
    rw [final_primary]
    simp only [h1]
    exact ih K _ _ o' t trivial trivial h2 hk trivial
  | conditional _ ih =>
    intro K o s o' t hpre hf hc hk hp
    obtain ⟨h1, h2⟩ := replay_present_inv hc
    rw [final_primary]
    simp only [h1]
    exact ih K _ _ o' t trivial hf h2 hk hp
  | while_loop _ ih =>
    intro K o s o' t hpre hf hc hk hp
    obtain ⟨h1, h2⟩ := replay_present_inv hc
    rw [final_primary]
    simp only [h1]
    exact ih K _ _ o' t trivial hf h2 hk hp
  | for_loop _ ih =>
    intro K o s o' t hpre hf hc hk hp
    obtain ⟨h1, h2⟩ := replay_present_inv hc
    rw [final_primary]
    simp only [h1]
    exact ih K _ _ o' t trivial hf h2 hk hp
  | let_block _ ih =>
    intro K o s o' t hpre hf hc hk hp
    obtain ⟨h1, h2⟩ := replay_present_inv hc
    rw [final_primary]
    simp only [h1]
    exact ih K _ _ o' t trivial trivial h2 hk trivial
  | identifier _ ih =>
    intro K o s o' t hpre hf hc hk hp
    obtain ⟨h1, h2⟩ := replay_present_inv hc
    rw [final_primary]
    simp only [h1]
    exact ih K _ _ o' t rfl hf h2 hk hp
  | @if_then c b d _ hd _ ih1 ih2 =>
    intro K o s o' t hpre hf hc hk hp
    obtain ⟨⟨o1, x⟩, hx, hv⟩ := replay_append_inv hc
    obtain ⟨hv2, hdx⟩ := replay_expected_inv hd hv
    obtain ⟨hcalm, hcar⟩ := expected_stop hdx (inert_of_mem (by simp)) rfl
    rw [final_if_rest]
    have key := ih1 (fun y => y.current_token.name.calm ∧
      K (else_part (final .expression (parse_next_token .THEN_KEYWORD y)))) o s o1 x trivial
      (closed_of_calm fun y hy => hy.1) hx
      ⟨hcalm, ih2 (fun y => K (else_part y)) _ _ o' t trivial (closed_else_part hf) hv2
        (closed_else_absorb hf t hk) hp⟩ hcar
    exact key.2
  | @if_then_else c b e d _ hd _ _ ih1 ih2 ih3 =>
    intro K o s o' t hpre hf hc hk hp
    obtain ⟨⟨o1, x⟩, hx, hv⟩ := replay_append_inv hc
    obtain ⟨hv2, hdx⟩ := replay_expected_inv hd hv
    obtain ⟨hcalm, hcar⟩ := expected_stop hdx (inert_of_mem (by simp)) rfl
    obtain ⟨⟨o2, y⟩, hy, hv3⟩ := replay_append_inv hv2
    obtain ⟨hyk, hv4⟩ := replay_present_inv hv3
    rw [final_if_rest]
    have key := ih1 (fun y => y.current_token.name.calm ∧
      K (else_part (final .expression (parse_next_token .THEN_KEYWORD y)))) o s o1 x trivial
      (closed_of_calm fun y hy => hy.1) hx
      ⟨hcalm, ih2 (fun y => K (else_part y)) _ _ o2 y trivial (closed_else_part hf) hy (by
        show K (else_part y)
        simp only [else_part, hyk, if_true]
        exact ih3 K _ _ o' t trivial hf hv4 hk hp) (fun _ => by rw [hyk]; rfl)⟩ hcar
    exact key.2
  | @while_do c b d _ hd _ ih1 ih2 =>
    intro K o s o' t hpre hf hc hk hp
    obtain ⟨⟨o1, x⟩, hx, hv⟩ := replay_append_inv hc
    obtain ⟨hv2, hdx⟩ := replay_expected_inv hd hv
    obtain ⟨hcalm, hcar⟩ := expected_stop hdx (inert_of_mem (by simp)) rfl
    rw [final_while_rest]
    have key := ih1 (fun y => y.current_token.name.calm ∧
      K (final .expression (parse_next_token .DO_KEYWORD y))) o s o1 x trivial
      (closed_of_calm fun y hy => hy.1) hx
      ⟨hcalm, ih2 K _ _ o' t trivial hf hv2 hk hp⟩ hcar
    exact key.2
  | @for_to_do lo hi b d1 d2 d3 d4 h1 h2 _ h3 _ h4 _ ih1 ih2 ih3 =>
    intro K o s o' t hpre hf hc hk hp
    obtain ⟨hc1, _⟩ := replay_expected_inv h1 hc
    obtain ⟨hc2, _⟩ := replay_expected_inv h2 hc1
    obtain ⟨⟨o1, x⟩, hx, hv⟩ := replay_append_inv hc2
    obtain ⟨hv2, hdx⟩ := replay_expected_inv h3 hv
    obtain ⟨hcalm1, hcar1⟩ := expected_stop hdx (inert_of_mem (by simp)) rfl
    obtain ⟨⟨o2, y⟩, hy, hv3⟩ := replay_append_inv hv2
    obtain ⟨hv4, hdy⟩ := replay_expected_inv h4 hv3
    obtain ⟨hcalm2, hcar2⟩ := expected_stop hdy (inert_of_mem (by simp)) rfl
    rw [final_for_rest]
    have key2 := ih2 (fun z => z.current_token.name.calm ∧
      K (final .expression (parse_next_token .DO_KEYWORD z))) _ _ o2 y trivial
      (closed_of_calm fun z hz => hz.1) hy
      ⟨hcalm2, ih3 K _ _ o' t trivial hf hv4 hk hp⟩ hcar2
    have key1 := ih1 (fun z => z.current_token.name.calm ∧
      K (final .expression (parse_next_token .DO_KEYWORD
        (final .expression (parse_next_token .TO_KEYWORD z))))) _ _ o1 x trivial
      (closed_of_calm fun z hz => hz.1) hx ⟨hcalm1, key2.2⟩ hcar1
    exact key1.2
  | @let_in ds b d hder hne hd _ ih1 ih2 =>
    intro K o s o' t hpre hf hc hk hp
    obtain ⟨⟨o1, x⟩, hx, hv⟩ := replay_append_inv hc
    obtain ⟨hv2, hdx⟩ := replay_expected_inv hd hv
    obtain ⟨hcalm, hcar⟩ := expected_stop hdx (inert_of_mem (by simp)) rfl
    have hs : s.current_token.name ≠ .IN_KEYWORD := by
      have hh := marked_lead hder
      cases ds with
      | nil => exact absurd rfl hne
      | cons a ds =>
        rcases hh a (by simp) with rfl | rfl | rfl
        · rw [(replay_present_inv hx).1]; simp
        · rw [(replay_present_inv hx).1]; simp
        · rw [(replay_present_inv hx).1]; simp
    have hend : x.current_token.name ≠ .TYPE_KEYWORD ∧ x.current_token.name ≠ .VAR_KEYWORD ∧
        x.current_token.name ≠ .FUNCTION_KEYWORD := by
      rcases hdx with ⟨_, h⟩ | ⟨_, h⟩
      · rw [h]; simp
      · exact (halts_spec h).2.2.2.2.1 rfl
    rw [final_let_rest s hs]
    have key := ih1 (fun y => y.current_token.name.calm ∧
      K (final (.series .expression_sequence .END_KEYWORD)
        (parse_next_token .IN_KEYWORD y))) o s o1 x trivial
      (fun y hy => hy.1) hx ⟨hcalm, ih2 K _ _ o' t trivial trivial hv2 hk trivial⟩
      ⟨hend, hcar⟩
    exact key.2
  | record _ ih =>
    intro K o s o' t hpre hf hc hk hp
    obtain ⟨h1, h2⟩ := replay_present_inv hc
    rw [final_identifier_rest]
    simp only [h1]
    exact ih K _ _ o' t trivial trivial h2 hk trivial
  | @array n i d _ hd _ ih1 ih2 =>
    intro K o s o' t hpre hf hc hk hp
    obtain ⟨h1, hc1⟩ := replay_present_inv hc
    obtain ⟨⟨o1, x⟩, hx, hv⟩ := replay_append_inv hc1
    obtain ⟨hv2, hdx⟩ := replay_expected_inv hd hv
    obtain ⟨hcalm, hcar⟩ := expected_stop hdx (inert_of_mem (by simp)) rfl
    obtain ⟨hof, hv3⟩ := replay_present_inv hv2
    rw [final_identifier_rest]
    simp only [h1]
    have key := ih1 (fun y => y.current_token.name.calm ∧
      ((parse_next_token .RIGHT_BRACKET y).current_token.name = .OF_KEYWORD ∧
        K (final .expression (advance (parse_next_token .RIGHT_BRACKET y))))) _ _ o1 x trivial
      (closed_of_calm fun y hy => hy.1) hx
      ⟨hcalm, hof, ih2 K _ _ o' t trivial hf hv3 hk hp⟩ hcar
    simp only [key.2.1, if_true]
    exact key.2.2
  | call _ ih =>
    intro K o s o' t hpre hf hc hk hp
    obtain ⟨h1, h2⟩ := replay_present_inv hc
    rw [final_identifier_rest]
    simp only [h1]
    exact ih K _ _ o' t trivial trivial h2 hk trivial
  | @lvalue w hder ih =>
    intro K o s o' t hpre hf hc hk hp
    have ho : o = true := hpre
    subst ho
    have ho' : o' = true := suffix_opens hder rfl s o' t hc
    have hcar : t.current_token.name.carries_on = false := hp ho'
    have ht : final .lvalue_suffixes s = t :=
      ih (fun y => y = t) true s o' t rfl trivial hc rfl
        ⟨fun e => by rw [e] at hcar; simp [token_kind.carries_on] at hcar,
          fun e => by rw [e] at hcar; simp [token_kind.carries_on] at hcar⟩
    have hh := marked_lead hder
    have hs : s.current_token.name ≠ .LEFT_BRACE ∧
        s.current_token.name ≠ .LEFT_PARENTHESIS := by
      cases w with
      | nil =>
        have e : t = s := (replay_nil_inv hc).2
        rw [← e]
        constructor <;> intro e <;> rw [e] at hcar <;> simp [token_kind.carries_on] at hcar
      | cons a w =>
        rcases hh a (by simp) with rfl | rfl
        · rw [(replay_present_inv hc).1]; simp
        · rw [(replay_present_inv hc).1]; simp
    refine final_identifier_rest_suffixes hs.1 hs.2 ?_ ?_
    · rw [ht]
      intro e; rw [e] at hcar; simp [token_kind.carries_on] at hcar
    · rw [ht]
      have : t.current_token.name ≠ .ASSIGNMENT := by
        intro e; rw [e] at hcar; simp [token_kind.carries_on] at hcar
      simpa [assignment_part, this] using hk
  | @assignment w v hder _ ih1 ih2 =>
    intro K o s o' t hpre hf hc hk hp
    obtain ⟨⟨o1, x⟩, hx, hv⟩ := replay_append_inv hc
    obtain ⟨hxk, hv2⟩ := replay_present_inv hv
    have hx0 : final .lvalue_suffixes s = x :=
      ih1 (fun y => y = x) o s o1 x hpre trivial hx rfl
        ⟨by rw [hxk]; simp, by rw [hxk]; simp⟩
    have hh := marked_lead hder
    have hs : s.current_token.name ≠ .LEFT_BRACE ∧
        s.current_token.name ≠ .LEFT_PARENTHESIS := by
      cases w with
      | nil =>
        have e : x = s := (replay_nil_inv hx).2
        rw [← e, hxk]
        simp
      | cons a w =>
        rcases hh a (by simp) with rfl | rfl
        · rw [(replay_present_inv hx).1]; simp
        · rw [(replay_present_inv hx).1]; simp
    refine final_identifier_rest_suffixes hs.1 hs.2 ?_ ?_
    · rw [hx0, hxk]; simp
    · rw [hx0]
      simp only [assignment_part, hxk, if_true]
      exact ih2 K _ _ o' t trivial hf hv2 hk hp
  | no_suffix =>
    intro K o s o' t hpre hf hc hk hp
    obtain ⟨_, h2⟩ := replay_nil_inv hc
    rw [h2] at hk hp
    rw [final_lvalue_suffixes]
    split
    · rename_i e; exact absurd e hp.1
    · rename_i e; exact absurd e hp.2
    · exact hk
  | @field_suffix w d hd _ ih =>
    intro K o s o' t hpre hf hc hk hp
    obtain ⟨h1, hc1⟩ := replay_present_inv hc
    obtain ⟨hc2, _⟩ := replay_expected_inv hd hc1
    rw [final_lvalue_suffixes]
    simp only [h1]
    exact ih K _ _ o' t (expected_opens hd (Or.inl rfl)) trivial hc2 hk hp
  | @index_suffix i w d _ hd _ ih1 ih2 =>
    intro K o s o' t hpre hf hc hk hp
    obtain ⟨h1, hc1⟩ := replay_present_inv hc
    obtain ⟨⟨o1, x⟩, hx, hv⟩ := replay_append_inv hc1
    obtain ⟨hv2, hdx⟩ := replay_expected_inv hd hv
    obtain ⟨hcalm, hcar⟩ := expected_stop hdx (inert_of_mem (by simp)) rfl
    rw [final_lvalue_suffixes]
    simp only [h1]
    have key := ih1 (fun y => y.current_token.name.calm ∧
      K (final .lvalue_suffixes (parse_next_token .RIGHT_BRACKET y))) _ _ o1 x trivial
      (closed_of_calm fun y hy => hy.1) hx
      ⟨hcalm, ih2 K _ _ o' t (expected_opens hd (Or.inr rfl)) trivial hv2 hk hp⟩ hcar
    exact key.2
  | @empty_series k e =>
    intro K o s o' t hpre hf hc hk hp
    obtain ⟨h1, h2⟩ := replay_present_inv hc
    obtain ⟨_, h3⟩ := replay_nil_inv h2
    rw [h3] at hk
    rw [final_series]
    simp only [h1, if_true]
    exact hk
  | @full_series k e w d hder hd hlead ih =>
    intro K o s o' t hpre hf hc hk hp
    obtain ⟨⟨o1, x⟩, hx, hv⟩ := replay_append_inv hc
    obtain ⟨hv2, hdx⟩ := replay_expected_inv hd hv
    obtain ⟨_, h3⟩ := replay_nil_inv hv2
    rw [h3] at hk
    obtain ⟨hcalm, hcar⟩ := expected_stop hdx (terminator_inert e) (by cases e <;> rfl)
    obtain ⟨a, ha, hne⟩ := hlead
    have hs : s.current_token.name ≠ e.kind := by
      have := replay_written_head ha hx
      simp only at this
      rw [this]
      exact hne
    have hsep : x.current_token.name ≠ k.separator := by
      rcases hdx with ⟨_, h⟩ | ⟨_, h⟩
      · rw [h]
        cases k <;> cases e <;> simp [terminator.kind, series_kind.separator]
      · have := (halts_spec h).2.2.2.1 (by cases e <;> simp [terminator.kind])
        cases k
        · exact this.2
        · exact this.1
        · exact this.1
        · exact this.1
    rw [final_series]
    simp only [hs, if_false]
    have key := ih (fun y => y.current_token.name.calm ∧ K (parse_next_token e.kind y))
      o s o1 x trivial (fun y hy => hy.1) hx ⟨hcalm, hk⟩ ⟨hsep, hcar⟩
    exact key.2
  | @one_element k w _ ih =>
    intro K o s o' t hpre hf hc hk hp
    rw [final_elements]
    have hkt : K (more k t) := by
      simpa [more, hp.1] using hk
    exact ih (fun y => K (more k y)) o s o' t (by cases k <;> trivial)
      (by cases k <;> first | exact closed_of_calm (calm_more _ hf) | trivial)
      hc hkt (by cases k <;> first | exact hp.2 | trivial)
  | @more_elements k w v _ _ ih1 ih2 =>
    intro K o s o' t hpre hf hc hk hp
    obtain ⟨⟨o1, x⟩, hx, hv⟩ := replay_append_inv hc
    obtain ⟨hxk, hv2⟩ := replay_present_inv hv
    rw [final_elements]
    have hcar : o1 = true → x.current_token.name.carries_on = false :=
      fun _ => by rw [hxk]; exact (separator_inert k).1
    refine ih1 (fun y => K (more k y)) o s o1 x (by cases k <;> trivial)
      (by cases k <;> first | exact closed_of_calm (calm_more _ hf) | trivial) hx ?_
      (by cases k <;> first | exact hcar | trivial)
    show K (more k x)
    simp only [more, hxk, if_true]
    exact ih2 K _ _ o' t trivial hf hv2 hk hp
  | @field w d1 d2 h1 h2 _ ih =>
    intro K o s o' t hpre hf hc hk hp
    obtain ⟨hc1, _⟩ := replay_expected_inv h1 hc
    obtain ⟨hc2, _⟩ := replay_expected_inv h2 hc1
    rw [final_field]
    exact ih K _ _ o' t trivial hf hc2 hk hp
  | @type_field d1 d2 d3 h1 h2 h3 =>
    intro K o s o' t hpre hf hc hk hp
    obtain ⟨hc1, _⟩ := replay_expected_inv h1 hc
    obtain ⟨hc2, _⟩ := replay_expected_inv h2 hc1
    obtain ⟨hc3, _⟩ := replay_expected_inv h3 hc2
    obtain ⟨_, h4⟩ := replay_nil_inv hc3
    rw [h4] at hk
    rw [final_type_field]
    exact hk
  | record_type _ ih =>
    intro K o s o' t hpre hf hc hk hp
    obtain ⟨h1, h2⟩ := replay_present_inv hc
    rw [final_type_definition]
    simp only [h1]
    exact ih K _ _ o' t trivial trivial h2 hk trivial
  | @array_type d1 d2 h1 h2 =>
    intro K o s o' t hpre hf hc hk hp
    obtain ⟨h0, hc0⟩ := replay_present_inv hc
    obtain ⟨hc1, _⟩ := replay_expected_inv h1 hc0
    obtain ⟨hc2, _⟩ := replay_expected_inv h2 hc1
    obtain ⟨_, h4⟩ := replay_nil_inv hc2
    rw [h4] at hk
    rw [final_type_definition]
    simp only [h0]
    exact hk
  | alias_type =>
    intro K o s o' t hpre hf hc hk hp
    obtain ⟨h1, hc1⟩ := replay_present_inv hc
    obtain ⟨_, h4⟩ := replay_nil_inv hc1
    rw [h4] at hk
    rw [final_type_definition]
    simp only [h1]
    exact hk
  | @type_declaration w d1 d2 h1 h2 _ ih =>
    intro K o s o' t hpre hf hc hk hp
    obtain ⟨h0, hc0⟩ := replay_present_inv hc
    obtain ⟨hc1, _⟩ := replay_expected_inv h1 hc0
    obtain ⟨hc2, _⟩ := replay_expected_inv h2 hc1
    rw [final_type_declaration, parse_next_token_match h0]
    exact ih K _ _ o' t trivial trivial hc2 hk trivial
  | @untyped_variable w d1 d2 h1 h2 _ ih =>
    intro K o s o' t hpre hf hc hk hp
    obtain ⟨h0, hc0⟩ := replay_present_inv hc
    obtain ⟨hc1, _⟩ := replay_expected_inv h1 hc0
    obtain ⟨hc2, hd2⟩ := replay_expected_inv h2 hc1
    have hne : (parse_next_token .IDENTIFIER (advance s)).current_token.name ≠ .COLON := by
      rcases hd2 with ⟨_, h⟩ | ⟨_, h⟩
      · rw [h]; simp
      · exact (halts_spec h).2.2.2.2.2 (Or.inl rfl)
    have hts : parse_type_specifier (parse_next_token .IDENTIFIER (advance s)) =
        parse_next_token .IDENTIFIER (advance s) := by
      simp [parse_type_specifier, hne]
    rw [final_variable_declaration, parse_next_token_match h0, hts]
    exact ih K _ _ o' t trivial hf hc2 hk hp
  | @typed_variable w d1 d2 d3 h1 h2 h3 _ ih =>
    intro K o s o' t hpre hf hc hk hp
    obtain ⟨h0, hc0⟩ := replay_present_inv hc
    obtain ⟨hc1, _⟩ := replay_expected_inv h1 hc0
    obtain ⟨hcol, hc2⟩ := replay_present_inv hc1
    obtain ⟨hc3, _⟩ := replay_expected_inv h2 hc2
    obtain ⟨hc4, _⟩ := replay_expected_inv h3 hc3
    have hts : parse_type_specifier (parse_next_token .IDENTIFIER (advance s)) =
        parse_next_token .IDENTIFIER (advance (parse_next_token .IDENTIFIER (advance s))) := by
      simp [parse_type_specifier, hcol]
    rw [final_variable_declaration, parse_next_token_match h0, hts]
    exact ih K _ _ o' t trivial hf hc4 hk hp
  | @untyped_function p w d1 d2 d3 h1 h2 _ h3 _ ih1 ih2 =>
    intro K o s o' t hpre hf hc hk hp
    obtain ⟨h0, hc0⟩ := replay_present_inv hc
    obtain ⟨hc1, _⟩ := replay_expected_inv h1 hc0
    obtain ⟨hc2, _⟩ := replay_expected_inv h2 hc1
    obtain ⟨⟨o1, x⟩, hx, hv⟩ := replay_append_inv hc2
    obtain ⟨hv2, hd3⟩ := replay_expected_inv h3 hv
    have hne : x.current_token.name ≠ .COLON := by
      rcases hd3 with ⟨_, h⟩ | ⟨_, h⟩
      · rw [h]; simp
      · exact (halts_spec h).2.2.2.2.2 (Or.inr rfl)
    have hts : parse_type_specifier x = x := by
      simp [parse_type_specifier, hne]
    rw [final_function_declaration, parse_next_token_match h0]
    have key := ih1 (fun y => y = x) _ _ o1 x trivial trivial hx rfl trivial
    rw [key, hts]
    exact ih2 K _ _ o' t trivial hf hv2 hk hp
  | @typed_function p w d1 d2 d3 d4 h1 h2 _ h3 h4 _ ih1 ih2 =>
    intro K o s o' t hpre hf hc hk hp
    obtain ⟨h0, hc0⟩ := replay_present_inv hc
    obtain ⟨hc1, _⟩ := replay_expected_inv h1 hc0
    obtain ⟨hc2, _⟩ := replay_expected_inv h2 hc1
    obtain ⟨⟨o1, x⟩, hx, hv⟩ := replay_append_inv hc2
    obtain ⟨hcol, hv1⟩ := replay_present_inv hv
    obtain ⟨hv2, _⟩ := replay_expected_inv h3 hv1
    obtain ⟨hv3, _⟩ := replay_expected_inv h4 hv2
    have hts : parse_type_specifier x = parse_next_token .IDENTIFIER (advance x) := by
      simp [parse_type_specifier, hcol]
    rw [final_function_declaration, parse_next_token_match h0]
    have key := ih1 (fun y => y = x) _ _ o1 x trivial trivial hx rfl trivial
    rw [key, hts]
    exact ih2 K _ _ o' t trivial hf hv3 hk hp
  | no_declaration =>
    intro K o s o' t hpre hf hc hk hp
    obtain ⟨_, h2⟩ := replay_nil_inv hc
    rw [h2] at hk hp
    rw [final_declaration_list]
    split
    · rename_i e; exact absurd e hp.1.1
    · rename_i e; exact absurd e hp.1.2.1
    · rename_i e; exact absurd e hp.1.2.2
    · exact hk
  | @type_first d ds hder _ ih1 ih2 =>
    intro K o s o' t hpre hf hc hk hp
    obtain ⟨⟨o1, x⟩, hx, hv⟩ := replay_append_inv hc
    have hs := replay_head (marked_lead hder) hx
    rw [final_declaration_list]
    simp only [hs]
    exact ih1 (fun y => K (final .declaration_list y)) o s o1 x trivial trivial hx
      (ih2 K o1 x o' t trivial hf hv hk hp) trivial
  | @variable_first d ds hder hrest ih1 ih2 =>
    intro K o s o' t hpre hf hc hk hp
    obtain ⟨⟨o1, x⟩, hx, hv⟩ := replay_append_inv hc
    have hs := replay_head (marked_lead hder) hx
    have hcar : o1 = true → x.current_token.name.carries_on = false := by
      have hh := marked_lead hrest
      cases ds with
      | nil =>
        obtain ⟨e1, e2⟩ := replay_nil_inv hv
        rw [e1, e2] at hp
        exact hp.2
      | cons a ds =>
        intro _
        rcases hh a (by simp) with rfl | rfl | rfl
        · rw [(replay_present_inv hv).1]; rfl
        · rw [(replay_present_inv hv).1]; rfl
        · rw [(replay_present_inv hv).1]; rfl
    rw [final_declaration_list]
    simp only [hs]
    exact ih1 (fun y => K (final .declaration_list y)) o s o1 x trivial
      (closed_of_calm (calm_declarations hf)) hx
      (ih2 K o1 x o' t trivial hf hv hk hp) hcar
  | @function_first d ds hder hrest ih1 ih2 =>
    intro K o s o' t hpre hf hc hk hp
    obtain ⟨⟨o1, x⟩, hx, hv⟩ := replay_append_inv hc
    have hs := replay_head (marked_lead hder) hx
    have hcar : o1 = true → x.current_token.name.carries_on = false := by
      have hh := marked_lead hrest
      cases ds with
      | nil =>
        obtain ⟨e1, e2⟩ := replay_nil_inv hv
        rw [e1, e2] at hp
        exact hp.2
      | cons a ds =>
        intro _
        rcases hh a (by simp) with rfl | rfl | rfl
        · rw [(replay_present_inv hv).1]; rfl
        · rw [(replay_present_inv hv).1]; rfl
        · rw [(replay_present_inv hv).1]; rfl
    rw [final_declaration_list]
    simp only [hs]
    exact ih1 (fun y => K (final .declaration_list y)) o s o1 x trivial
      (closed_of_calm (calm_declarations hf)) hx
      (ih2 K o1 x o' t trivial hf hv hk hp) hcar

theorem marked_of_primary {m : List mark} (h : marked .primary m) : marked .expression m :=
  marked.expression (marked.operand (l := .or) (marked.operand (l := .and)
    (marked.operand (l := .comparison) (marked.operand (l := .additive)
      (marked.operand (l := .multiplicative) h)))))

theorem meant_present (w : List token_kind) (m : List mark) :
    meant (w.map .present ++ m) = w ++ meant m := by
  induction w with
  | nil => rfl
  | cons k w ih => simp [meant, ih]

/-- Reading tokens that are all there is consuming them. -/
theorem replay_present_map {w : List token_kind} {s x : parser} (m : List mark) (o : Bool)
    (h : consume w s = some x) :
    replay (w.map .present ++ m) (o, s) = replay m (flag_after o w, x) := by
  induction w generalizing o s with
  | nil => rw [consume_nil_inv h]; rfl
  | cons k w ih =>
    obtain ⟨h1, h2⟩ := consume_cons_inv h
    simp only [List.map_cons, List.cons_append, replay, h1, if_true, flag_after]
    exact ih _ h2

/-- The tokens at the head of the stream are consumed one by one. -/
theorem consume_prefix (us : List token) (v : token) (rest : List token) (s : parser)
    (hs : s.current_token :: s.source_file = us ++ v :: rest) :
    ∃ x, consume (us.map token.name) s = some x ∧ x.current_token = v ∧
      x.source_file = rest := by
  induction us generalizing s with
  | nil =>
    simp only [List.nil_append, List.cons.injEq] at hs
    exact ⟨s, rfl, hs.1, hs.2⟩
  | cons u us ih =>
    simp only [List.cons_append, List.cons.injEq] at hs
    have hadv : (advance s).current_token :: (advance s).source_file = us ++ v :: rest := by
      simp only [advance, get_token, hs.2]
      cases us <;> rfl
    obtain ⟨x, h1, h2, h3⟩ := ih (advance s) hadv
    exact ⟨x, consume_cons (by rw [hs.1]) h1, h2, h3⟩

/-- The run of `parse_expression` on a program from which one required token has been left
out: the tokens before the gap are consumed, the token left out is reported at the token
found in its place, and the tokens from there on are consumed up to the end of input. -/
theorem final_of_marked {us vs : List token} {k : token_kind} {eof : token}
    (hm : marked .expression ((us.map token.name).map .present ++
      .omitted k :: (vs.map token.name).map .present))
    (heof : eof.name = .NONE)
    (hh : halts (flag_after false (us.map token.name)) k ((vs.head?).getD eof).name = true) :
    (final .expression (start (us ++ vs ++ [eof]))).current_token = eof ∧
    (final .expression (start (us ++ vs ++ [eof]))).source_file = [] ∧
    diagnostics (final .expression (start (us ++ vs ++ [eof]))) =
      [event.print_error ((vs.head?).getD eof).line ((vs.head?).getD eof).column
        ("expected " ++ token_kind_string k)] := by
  obtain ⟨rest, hrest⟩ : ∃ rest, vs ++ [eof] = (vs.head?).getD eof :: rest := by
    cases vs with
    | nil => exact ⟨[], rfl⟩
    | cons v vs => exact ⟨vs ++ [eof], rfl⟩
  have hst : (start (us ++ vs ++ [eof])).current_token ::
      (start (us ++ vs ++ [eof])).source_file = us ++ (vs.head?).getD eof :: rest := by
    rw [start_stream (us ++ vs) eof, List.append_assoc, hrest]
  obtain ⟨x, hx, hx1, hx2⟩ := consume_prefix us _ rest _ hst
  have hy : (print_error x.current_token.line x.current_token.column
      ("expected " ++ token_kind_string k) x).current_token ::
      (print_error x.current_token.line x.current_token.column
        ("expected " ++ token_kind_string k) x).source_file = vs ++ [eof] := by
    show x.current_token :: x.source_file = _
    rw [hx1, hx2, hrest]
  obtain ⟨t, ht, ht1, ht2⟩ := consume_all vs eof _ hy
  have hrep : replay ((us.map token.name).map .present ++
      .omitted k :: (vs.map token.name).map .present) (false, start (us ++ vs ++ [eof])) =
      some (flag_after true (vs.map token.name), t) := by
    rw [replay_present_map _ _ hx]
    have hh' : halts (flag_after false (us.map token.name)) k x.current_token.name = true := by
      rw [hx1]; exact hh
    simp only [replay, hh', if_true]
    have := replay_present_map (w := vs.map token.name) [] true ht
    rw [List.append_nil] at this
    rw [this]
    rfl
  have key : final .expression (start (us ++ vs ++ [eof])) = t :=
    final_marked hm (fun y => y = t) false _ _ t trivial
      (closed_of_calm fun y hy => by
        have hy' : y = t := hy
        rw [hy', ht1, heof]
        exact calm_of_inert (inert_of_mem (by simp))) hrep rfl
      (fun _ => by rw [ht1, heof]; rfl)
  rw [key]
  refine ⟨ht1, ht2, ?_⟩
  rw [diagnostics_consume ht, diagnostics_print_error, diagnostics_consume hx,
    diagnostics_start, hx1]
  rfl

/-- C6, as amended. Take a syntactically valid program and leave out one token that its
routine requires with `parse_next_token`: the tokens `us`, the token of kind `k` left out,
the tokens `vs`, so that the kinds of `us`, then `k`, then the kinds of `vs` are an
expression of the grammar in which that `k` is at such a place (`marked`). Let the token
found in the place of the one left out, the first token of `vs`, or the end of input when
`vs` is empty, be one that `halts`: it is not of kind `k`; when `k` is one of `then`, `do`, `to`, `in`,
`]`, `)`, `end` and the closing brace, it is neither a binary operator nor `else`, and it is
none of `(`, `[`, `{`, `.`, `:=` and `of` if the last token of `us` is an identifier or a
`]`; it is not `,` or `;` when `k` is `)`, `end` or the closing brace; it is not `type`,
`var` or `function` when `k` is `in`; it is not `:` when `k` is `:=` or `=`. Then
`parse_source_file`, given `fuel_bound` units of fuel or more, returns the handle and
reports exactly one diagnostic, `expected` followed by the display name of `k`, at the line
and column of the token found, with the whole stream read up to the end of input. The
token `(` after an identifier is not one that `halts`, which is the case of `if a (b)`. -/
theorem omitted_token_one_diagnostic (us vs : List token) (k : token_kind) (eof : token)
    (allocated : program) (fuel : Nat)
    (hm : marked .expression ((us.map token.name).map .present ++
      .omitted k :: (vs.map token.name).map .present))
    (heof : eof.name = .NONE)
    (hh : halts (flag_after false (us.map token.name)) k ((vs.head?).getD eof).name = true)
    (hf : fuel_bound .expression (start (us ++ vs ++ [eof])) ≤ fuel) :
    derives .expression (us.map token.name ++ k :: vs.map token.name) ∧
    (parse_source_file fuel allocated (us ++ vs ++ [eof])).map
      (fun r => (r.1, diagnostics r.2, r.2.current_token, r.2.source_file)) =
      some (allocated,
        [event.print_error ((vs.head?).getD eof).line ((vs.head?).getD eof).column
          ("expected " ++ token_kind_string k)], eof, []) ∧
    halts true .THEN_KEYWORD .LEFT_PARENTHESIS = false := by
  refine ⟨?_, ?_, rfl⟩
  · have := marked_meant hm
    rw [meant_present] at this
    have e : meant (mark.omitted k :: (vs.map token.name).map .present) =
        k :: vs.map token.name := by
      have := meant_present (vs.map token.name) []
      rw [List.append_nil] at this
      simp only [meant, this, List.append_nil]
    rw [e] at this
    exact this
  · obtain ⟨h1, h2, h3⟩ := final_of_marked hm heof hh
    rw [parse_source_file_eq fuel allocated _ hf]
    simp only [Option.map_some']
    have hn : (final .expression (start (us ++ vs ++ [eof]))).current_token.name = .NONE := by
      rw [h1, heof]
    rw [diagnostics_finish, (finish_current_token _).1, (finish_current_token _).2, h1, h2, h3]
    simp [heof]

/-- Witness of C6 as amended: `if a b else c` lacks its `then`, `while a b` its `do`,
`for i := 1 2 do 3` its `to`, `let var x := 1 x end` its `in`, `(1` its `)`,
`a[1 := 2` its `]` and `let type = int in 0 end` the name of its type; each gives the one
diagnostic, at the token found. -/
theorem omitted_token_one_diagnostic_witness :
    ((parse_source_file 120 ⟨0⟩ [⟨.IF_KEYWORD, 1, 0⟩, ⟨.IDENTIFIER, 1, 1⟩,
        ⟨.IDENTIFIER, 1, 2⟩, ⟨.ELSE_KEYWORD, 1, 3⟩, ⟨.IDENTIFIER, 1, 4⟩, ⟨.NONE, 1, 5⟩]).map
      (fun r => (r.1, diagnostics r.2, r.2.current_token, r.2.source_file)) =
      some (⟨0⟩, [event.print_error 1 2 "expected 'then'"], ⟨.NONE, 1, 5⟩, [])) ∧
    ((parse_source_file 120 ⟨0⟩ [⟨.WHILE_KEYWORD, 1, 0⟩, ⟨.IDENTIFIER, 1, 1⟩,
        ⟨.IDENTIFIER, 1, 2⟩, ⟨.NONE, 1, 3⟩]).map
      (fun r => (r.1, diagnostics r.2, r.2.current_token, r.2.source_file)) =
      some (⟨0⟩, [event.print_error 1 2 "expected 'do'"], ⟨.NONE, 1, 3⟩, [])) ∧
    ((parse_source_file 120 ⟨0⟩ [⟨.FOR_KEYWORD, 1, 0⟩, ⟨.IDENTIFIER, 1, 1⟩,
        ⟨.ASSIGNMENT, 1, 2⟩, ⟨.INTEGER_CONSTANT, 1, 3⟩, ⟨.INTEGER_CONSTANT, 1, 4⟩,
        ⟨.DO_KEYWORD, 1, 5⟩, ⟨.INTEGER_CONSTANT, 1, 6⟩, ⟨.NONE, 1, 7⟩]).map
      (fun r => (r.1, diagnostics r.2, r.2.current_token, r.2.source_file)) =
      some (⟨0⟩, [event.print_error 1 4 "expected 'to'"], ⟨.NONE, 1, 7⟩, [])) ∧
    ((parse_source_file 120 ⟨0⟩ [⟨.LET_KEYWORD, 1, 0⟩, ⟨.VAR_KEYWORD, 1, 1⟩,
        ⟨.IDENTIFIER, 1, 2⟩, ⟨.ASSIGNMENT, 1, 3⟩, ⟨.INTEGER_CONSTANT, 1, 4⟩,
        ⟨.IDENTIFIER, 1, 5⟩, ⟨.END_KEYWORD, 1, 6⟩, ⟨.NONE, 1, 7⟩]).map
      (fun r => (r.1, diagnostics r.2, r.2.current_token, r.2.source_file)) =
      some (⟨0⟩, [event.print_error 1 5 "expected 'in'"], ⟨.NONE, 1, 7⟩, [])) ∧
    ((parse_source_file 120 ⟨0⟩ [⟨.LEFT_PARENTHESIS, 1, 0⟩, ⟨.INTEGER_CONSTANT, 1, 1⟩,
        ⟨.NONE, 1, 2⟩]).map
      (fun r => (r.1, diagnostics r.2, r.2.current_token, r.2.source_file)) =
      some (⟨0⟩, [event.print_error 1 2 "expected )"], ⟨.NONE, 1, 2⟩, [])) ∧
    ((parse_source_file 120 ⟨0⟩ [⟨.IDENTIFIER, 1, 0⟩, ⟨.LEFT_BRACKET, 1, 1⟩,
        ⟨.INTEGER_CONSTANT, 1, 2⟩, ⟨.ASSIGNMENT, 1, 3⟩, ⟨.INTEGER_CONSTANT, 1, 4⟩,
        ⟨.NONE, 1, 5⟩]).map
      (fun r => (r.1, diagnostics r.2, r.2.current_token, r.2.source_file)) =
      some (⟨0⟩, [event.print_error 1 3 "expected ]"], ⟨.NONE, 1, 5⟩, [])) ∧
    ((parse_source_file 120 ⟨0⟩ [⟨.LET_KEYWORD, 1, 0⟩, ⟨.TYPE_KEYWORD, 1, 1⟩,
        ⟨.EQUAL, 1, 2⟩, ⟨.IDENTIFIER, 1, 3⟩, ⟨.IN_KEYWORD, 1, 4⟩,
        ⟨.INTEGER_CONSTANT, 1, 5⟩, ⟨.END_KEYWORD, 1, 6⟩, ⟨.NONE, 1, 7⟩]).map
      (fun r => (r.1, diagnostics r.2, r.2.current_token, r.2.source_file)) =
      some (⟨0⟩, [event.print_error 1 2 "expected identifier"], ⟨.NONE, 1, 7⟩, [])) :=
  ⟨(omitted_token_one_diagnostic [⟨.IF_KEYWORD, 1, 0⟩, ⟨.IDENTIFIER, 1, 1⟩]
      [⟨.IDENTIFIER, 1, 2⟩, ⟨.ELSE_KEYWORD, 1, 3⟩, ⟨.IDENTIFIER, 1, 4⟩] .THEN_KEYWORD
      ⟨.NONE, 1, 5⟩ ⟨0⟩ 120
      (marked_of_primary (marked.conditional
        (marked.if_then_else (c := [.present .IDENTIFIER]) (t := [.present .IDENTIFIER])
          (e := [.present .IDENTIFIER]) (d := .omitted .THEN_KEYWORD)
          (marked_of_primary (marked.identifier (marked.lvalue marked.no_suffix)))
          (Or.inr rfl)
          (marked_of_primary (marked.identifier (marked.lvalue marked.no_suffix)))
          (marked_of_primary (marked.identifier (marked.lvalue marked.no_suffix))))))
      rfl (by decide) (by decide)).2.1,
    (omitted_token_one_diagnostic [⟨.WHILE_KEYWORD, 1, 0⟩, ⟨.IDENTIFIER, 1, 1⟩]
      [⟨.IDENTIFIER, 1, 2⟩] .DO_KEYWORD ⟨.NONE, 1, 3⟩ ⟨0⟩ 120
      (marked_of_primary (marked.while_loop
        (marked.while_do (c := [.present .IDENTIFIER]) (b := [.present .IDENTIFIER])
          (d := .omitted .DO_KEYWORD)
          (marked_of_primary (marked.identifier (marked.lvalue marked.no_suffix)))
          (Or.inr rfl)
          (marked_of_primary (marked.identifier (marked.lvalue marked.no_suffix))))))
      rfl (by decide) (by decide)).2.1,
    (omitted_token_one_diagnostic [⟨.FOR_KEYWORD, 1, 0⟩, ⟨.IDENTIFIER, 1, 1⟩,
        ⟨.ASSIGNMENT, 1, 2⟩, ⟨.INTEGER_CONSTANT, 1, 3⟩]
      [⟨.INTEGER_CONSTANT, 1, 4⟩, ⟨.DO_KEYWORD, 1, 5⟩, ⟨.INTEGER_CONSTANT, 1, 6⟩]
      .TO_KEYWORD ⟨.NONE, 1, 7⟩ ⟨0⟩ 120
      (marked_of_primary (marked.for_loop
        (@marked.for_to_do [.present .INTEGER_CONSTANT] [.present .INTEGER_CONSTANT]
          [.present .INTEGER_CONSTANT] (.present .IDENTIFIER) (.present .ASSIGNMENT)
          (.omitted .TO_KEYWORD) (.present .DO_KEYWORD) (Or.inl rfl) (Or.inl rfl)
          (marked_of_primary (marked.atom rfl)) (Or.inr rfl)
          (marked_of_primary (marked.atom rfl)) (Or.inl rfl)
          (marked_of_primary (marked.atom rfl)))))
      rfl (by decide) (by decide)).2.1,
    (omitted_token_one_diagnostic [⟨.LET_KEYWORD, 1, 0⟩, ⟨.VAR_KEYWORD, 1, 1⟩,
        ⟨.IDENTIFIER, 1, 2⟩, ⟨.ASSIGNMENT, 1, 3⟩, ⟨.INTEGER_CONSTANT, 1, 4⟩]
      [⟨.IDENTIFIER, 1, 5⟩, ⟨.END_KEYWORD, 1, 6⟩] .IN_KEYWORD ⟨.NONE, 1, 7⟩ ⟨0⟩ 120
      (marked_of_primary (marked.let_block
        (@marked.let_in [.present .VAR_KEYWORD, .present .IDENTIFIER, .present .ASSIGNMENT,
            .present .INTEGER_CONSTANT]
          [.present .IDENTIFIER, .present .END_KEYWORD] (.omitted .IN_KEYWORD)
          (@marked.variable_first [.present .VAR_KEYWORD, .present .IDENTIFIER,
              .present .ASSIGNMENT, .present .INTEGER_CONSTANT] []
            (marked.untyped_variable (Or.inl rfl) (Or.inl rfl)
              (marked_of_primary (marked.atom rfl)))
            marked.no_declaration)
          (by simp) (Or.inr rfl)
          (marked.full_series (k := .expression_sequence) (e := .END_KEYWORD)
            (m := [.present .IDENTIFIER]) (d := .present .END_KEYWORD)
            (marked.one_element (k := .expression_sequence)
              (marked_of_primary (marked.identifier (marked.lvalue marked.no_suffix))))
            (Or.inl rfl) ⟨.IDENTIFIER, rfl, by decide⟩))))
      rfl (by decide) (by decide)).2.1,
    (omitted_token_one_diagnostic [⟨.LEFT_PARENTHESIS, 1, 0⟩, ⟨.INTEGER_CONSTANT, 1, 1⟩]
      [] .RIGHT_PARENTHESIS ⟨.NONE, 1, 2⟩ ⟨0⟩ 120
      (marked_of_primary (marked.parenthesized
        (marked.full_series (k := .expression_sequence) (e := .RIGHT_PARENTHESIS)
          (m := [.present .INTEGER_CONSTANT]) (d := .omitted .RIGHT_PARENTHESIS)
          (marked.one_element (k := .expression_sequence)
            (marked_of_primary (marked.atom rfl)))
          (Or.inr rfl) ⟨.INTEGER_CONSTANT, rfl, by decide⟩)))
      rfl (by decide) (by decide)).2.1,
    (omitted_token_one_diagnostic [⟨.IDENTIFIER, 1, 0⟩, ⟨.LEFT_BRACKET, 1, 1⟩,
        ⟨.INTEGER_CONSTANT, 1, 2⟩]
      [⟨.ASSIGNMENT, 1, 3⟩, ⟨.INTEGER_CONSTANT, 1, 4⟩] .RIGHT_BRACKET ⟨.NONE, 1, 5⟩ ⟨0⟩ 120
      (marked_of_primary (marked.identifier
        (marked.assignment
          (m := [.present .LEFT_BRACKET, .present .INTEGER_CONSTANT,
            .omitted .RIGHT_BRACKET])
          (v := [.present .INTEGER_CONSTANT])
          (marked.index_suffix (i := [.present .INTEGER_CONSTANT]) (m := [])
            (d := .omitted .RIGHT_BRACKET) (marked_of_primary (marked.atom rfl))
            (Or.inr rfl) marked.no_suffix)
          (marked_of_primary (marked.atom rfl)))))
      rfl (by decide) (by decide)).2.1,
  (omitted_token_one_diagnostic [⟨.LET_KEYWORD, 1, 0⟩, ⟨.TYPE_KEYWORD, 1, 1⟩]
      [⟨.EQUAL, 1, 2⟩, ⟨.IDENTIFIER, 1, 3⟩, ⟨.IN_KEYWORD, 1, 4⟩,
        ⟨.INTEGER_CONSTANT, 1, 5⟩, ⟨.END_KEYWORD, 1, 6⟩] .IDENTIFIER ⟨.NONE, 1, 7⟩ ⟨0⟩ 120
      (marked_of_primary (marked.let_block
        (@marked.let_in [.present .TYPE_KEYWORD, .omitted .IDENTIFIER, .present .EQUAL,
            .present .IDENTIFIER]
          [.present .INTEGER_CONSTANT, .present .END_KEYWORD] (.present .IN_KEYWORD)
          (@marked.type_first [.present .TYPE_KEYWORD, .omitted .IDENTIFIER, .present .EQUAL,
              .present .IDENTIFIER] []
            (marked.type_declaration (Or.inr rfl) (Or.inl rfl) marked.alias_type)
            marked.no_declaration)
          (by simp) (Or.inl rfl)
          (marked.full_series (k := .expression_sequence) (e := .END_KEYWORD)
            (m := [.present .INTEGER_CONSTANT]) (d := .present .END_KEYWORD)
            (marked.one_element (k := .expression_sequence)
              (marked_of_primary (marked.atom rfl)))
            (Or.inl rfl) ⟨.INTEGER_CONSTANT, rfl, by decide⟩))))
      rfl (by decide) (by decide)).2.1⟩

end Tigy
